import Mathlib

/-!
# go-simple-solver: a shallow embedding of `simplegradient.go`

The library optimises a scalar objective over a discretised parameter grid by
coordinate-wise neighbour search from random starting points.

Modelling conventions.

* Grid values and objective values are exact rationals (`ℚ`); the objective
  `Config.Model` is a total pure function.  The aggregation loops of
  `Minimize`/`Maximize` additionally see the float64 seeds `+Inf`/`-Inf`, so
  their scalars live in `F64` (finite rational, either infinity, or NaN).
* Go `int` is `Int`.  The only arithmetic on it is `idx ± 1` on grid indexes
  and `count + 1`, bounded by `MaxIteration + 1`.
* A Go run-time panic (index out of range, `rand.Intn` with a non-positive
  argument) is the result `none`.
* The random source is an explicit argument: `rnd i` is the raw draw used for
  dimension `i`, and `rand.Intn n` is `rnd i % n`.
* The goroutines of `solveN` share nothing but the read-only config, and
  goroutine `k` writes slot `k` of `solutions`; the ensemble is therefore the
  list of the trial results in slot order, trial `k` drawing from `rnds k`.
* `followGradient` and `solveOne` return, next to the Go result, three
  bookkeeping fields the properties speak about: which `return` statement
  produced the result, the number of neighbour-search rounds, and the number of
  calls of `c.Model`.

The conventions above describe the exact model.  Three of them are
idealisations: a float64 objective rounds, overflows and may return NaN; Go
`int` has 64 bits; and the recursion of `followGradient` is not a tail call, so
its depth is limited by the stack of the goroutine.  The machine-level model
(`Config64`, `followGradient64`, `solveOne64`, `Minimize64`, `Maximize64`) is
the same code without the three idealisations: the objective returns an `F64`
and every comparison is the float64 `<`, `count + 1` wraps at 64 bits, and a
run has a given number of stack frames for nested calls of `followGradient`
and ends in a result, a panic or a stack overflow.  Properties that depend on
termination, on rounding or on NaN are stated in the machine-level model; where
the float64 objective is exact on the grid, the cap is below the largest int
and the stack is deep enough, the machine-level run is the run of the exact
model (`Minimize64_exact`).
-/

namespace SimpleGradient

/-! ## Data model -/

/-- The value `DEFAULT_NUM_TESTS` of the source. -/
def DEFAULT_NUM_TESTS : Int := 10

/-- The value `DEFAULT_MAX_MODEL_ITERATION` of the source. -/
def DEFAULT_MAX_MODEL_ITERATION : Int := 100

/-- The struct `Config` of the source. -/
structure Config where
  /-- The parameter space: one list of grid values per dimension. -/
  Params : List (List ℚ)
  /-- The model to minimize or maximize. -/
  Model : List ℚ → ℚ
  /-- The number of tests to run. -/
  NumTests : Int
  /-- The maximum iterations of each test. -/
  MaxIteration : Int
  /-- The cached length of each list of `Params`. -/
  paramLens : List Int

/-- A float64 as the aggregation loop compares it. -/
inductive F64 where
  | fin (q : ℚ)
  | posInf
  | negInf
  | nan
deriving DecidableEq

/-- The float64 comparison `a < b`: false as soon as one side is NaN. -/
def F64.lt : F64 → F64 → Bool
  | .fin a, .fin b => decide (a < b)
  | .fin _, .posInf => true
  | .negInf, .fin _ => true
  | .negInf, .posInf => true
  | _, _ => false

/-- The struct `solution` of the source. -/
structure solution where
  soln : F64
  vals : List ℚ
deriving DecidableEq

/-- Which `return` of `followGradient` produced the result. -/
inductive Exit where
  /-- The statement `return idxs` under `count > c.MaxIteration`. -/
  | cap
  /-- The statement `return idxs` under `!didUpdate || ...`. -/
  | converged
deriving DecidableEq

/-- The result of `followGradient`: the returned index vector and bookkeeping. -/
structure Walk where
  /-- The returned `[]int`. -/
  idxs : List Int
  /-- The `return` statement that ended the recursion. -/
  exit : Exit
  /-- How many times the body after the cap test ran. -/
  rounds : Nat
  /-- How many times `c.Model` was called. -/
  evals : Nat
deriving DecidableEq

/-- The result of `solveOne`: the returned pair and bookkeeping. -/
structure Trial where
  /-- The returned scalar `c.Model(bestVals)`. -/
  soln : ℚ
  /-- The returned vector `bestVals`. -/
  vals : List ℚ
  /-- The index vector `bestIdxs` the walk stopped at. -/
  idxs : List Int
  /-- The `return` statement that ended the walk. -/
  exit : Exit
  /-- The number of neighbour-search rounds of the walk. -/
  rounds : Nat
  /-- The number of calls of `c.Model` in the whole trial. -/
  evals : Nat
deriving DecidableEq

/-! ## Index vectors and lookups -/

/-- The method `setParamLens`: cache the length of every dimension. -/
def setParamLens (c : Config) : Config :=
  { c with paramLens := c.Params.map fun vals => (vals.length : Int) }

/-- The element `param[idx]` of a Go slice; `none` is the index-out-of-range panic. -/
def at? (param : List ℚ) (idx : Int) : Option ℚ :=
  if 0 ≤ idx then param[idx.toNat]? else none

/-- The loop of `valsFromIndexes` over `c.Params`, reading `idxs[i]` and
`param[idxs[i]]` in step. -/
def lookupAll : List (List ℚ) → List Int → Option (List ℚ)
  | [], _ => some []
  | _ :: _, [] => none
  | param :: params, idx :: idxs =>
    match at? param idx with
    | none => none
    | some v =>
      match lookupAll params idxs with
      | none => none
      | some vs => some (v :: vs)

/-- The method `valsFromIndexes`. -/
def valsFromIndexes (c : Config) (idxs : List Int) : Option (List ℚ) :=
  lookupAll c.Params idxs

/-- The loop of `getRandomIndexes`, with `i` the dimension of the head of the list;
`rand.Intn` panics on an empty dimension. -/
def randomIndexesFrom (rnd : Nat → Nat) : Nat → List (List ℚ) → Option (List Int)
  | _, [] => some []
  | i, vals :: rest =>
    if vals.length = 0 then none
    else
      match randomIndexesFrom rnd (i + 1) rest with
      | none => none
      | some idxs => some (((rnd i % vals.length : Nat) : Int) :: idxs)

/-- The method `getRandomIndexes`. -/
def getRandomIndexes (c : Config) (rnd : Nat → Nat) : Option (List Int) :=
  randomIndexesFrom rnd 0 c.Params

/-! ## The walker -/

/-- The locals `downIdx`, `upIdx`, `downSoln`, `upSoln` of one pass of the loop
over the dimensions, and the number of `c.Model` calls the pass made. -/
structure Probe where
  downIdx : Int
  upIdx : Int
  downSoln : ℚ
  upSoln : ℚ
  evals : Nat

/-- The boundary analysis of `followGradient` (the `if c.paramLens[i] == 1 ...`
chain) for dimension `i` holding index `idx`. -/
def probe (c : Config) (idxs : List Int) (currentSoln : ℚ) (i : Nat) (idx : Int) :
    Option Probe :=
  match c.paramLens[i]? with
  | none => none
  | some len =>
    if len = 1 then
      some ⟨0, 0, currentSoln, currentSoln, 0⟩
    else if idx = 0 then
      match valsFromIndexes c (idxs.set i 1) with
      | none => none
      | some testVals => some ⟨0, 1, currentSoln, c.Model testVals, 1⟩
    else if idx = len - 1 then
      match valsFromIndexes c (idxs.set i (idx - 1)) with
      | none => none
      | some testVals => some ⟨idx - 1, idx, c.Model testVals, currentSoln, 1⟩
    else
      match valsFromIndexes c (idxs.set i (idx - 1)) with
      | none => none
      | some downVals =>
        match valsFromIndexes c (idxs.set i (idx + 1)) with
        | none => none
        | some upVals => some ⟨idx - 1, idx + 1, c.Model downVals, c.Model upVals, 2⟩

/-- The decision `nextIdx` of `followGradient` (the `if minimize ...` block). -/
def choose (minimize : Bool) (currentSoln : ℚ) (idx : Int) (p : Probe) : Int :=
  if minimize then
    if p.upSoln < currentSoln then p.upIdx
    else if p.downSoln < currentSoln then p.downIdx
    else idx
  else
    if p.upSoln > currentSoln then p.upIdx
    else if p.downSoln > currentSoln then p.downIdx
    else idx

/-- The variables the loop over the dimensions updates. -/
structure LoopState where
  nextIdxs : List Int
  didUpdate : Bool
  evals : Nat

/-- The loop `for i, idx := range idxs` of `followGradient`; the list argument is
the part of `idxs` still to visit and `i` the position of its head. -/
def loop (c : Config) (idxs : List Int) (currentSoln : ℚ) (minimize : Bool) :
    Nat → List Int → LoopState → Option LoopState
  | _, [], s => some s
  | i, idx :: rest, s =>
    match probe c idxs currentSoln i idx with
    | none => none
    | some p =>
      loop c idxs currentSoln minimize (i + 1) rest
        ⟨s.nextIdxs.set i (choose minimize currentSoln idx p),
          s.didUpdate || decide (choose minimize currentSoln idx p ≠ idx),
          s.evals + p.evals⟩

/-- What one round of `followGradient` computes before its exit test. -/
structure Round where
  nextIdxs : List Int
  didUpdate : Bool
  nextSoln : ℚ
  evals : Nat
deriving DecidableEq

/-- One round of `followGradient`: the loop over the dimensions, then the
evaluation of the composed candidate. -/
def round (c : Config) (idxs : List Int) (currentSoln : ℚ) (minimize : Bool) :
    Option Round :=
  match loop c idxs currentSoln minimize 0 idxs ⟨idxs, false, 0⟩ with
  | none => none
  | some s =>
    match valsFromIndexes c s.nextIdxs with
    | none => none
    | some nextVals => some ⟨s.nextIdxs, s.didUpdate, c.Model nextVals, s.evals + 1⟩

/-- The exit test `!didUpdate || (minimize && currentSoln < nextSoln) ||
(!minimize && currentSoln > nextSoln)` of `followGradient`. -/
def stops (r : Round) (currentSoln : ℚ) (minimize : Bool) : Bool :=
  !r.didUpdate || (minimize && decide (currentSoln < r.nextSoln)) ||
    (!minimize && decide (currentSoln > r.nextSoln))

/-- The method `followGradient`.  The recursion is the one of the source: it is
accepted because `count` grows by one at each call and a call with
`count > c.MaxIteration` returns at once. -/
def followGradient (c : Config) (idxs : List Int) (currentSoln : ℚ) (minimize : Bool)
    (count : Int) : Option Walk :=
  if count > c.MaxIteration then
    some ⟨idxs, .cap, 0, 0⟩
  else
    match round c idxs currentSoln minimize with
    | none => none
    | some r =>
      if stops r currentSoln minimize then
        some ⟨idxs, .converged, 1, r.evals⟩
      else
        match followGradient c r.nextIdxs r.nextSoln minimize (count + 1) with
        | none => none
        | some w => some ⟨w.idxs, w.exit, w.rounds + 1, w.evals + r.evals⟩
termination_by (c.MaxIteration + 1 - count).toNat
decreasing_by omega

/-- The method `solveOne`. -/
def solveOne (c : Config) (minimize : Bool) (rnd : Nat → Nat) : Option Trial :=
  match getRandomIndexes c rnd with
  | none => none
  | some idxs =>
    match valsFromIndexes c idxs with
    | none => none
    | some vals =>
      match followGradient c idxs (c.Model vals) minimize 0 with
      | none => none
      | some w =>
        match valsFromIndexes c w.idxs with
        | none => none
        | some bestVals =>
          some ⟨c.Model bestVals, bestVals, w.idxs, w.exit, w.rounds, w.evals + 2⟩

/-! ## Orchestration and aggregation -/

/-- The config as `solveN` leaves it before it starts the trials: lengths
cached, non-positive `NumTests` and `MaxIteration` replaced by the defaults. -/
def withDefaults (c : Config) : Config :=
  let c1 := setParamLens c
  let c2 := if c1.NumTests ≤ 0 then { c1 with NumTests := DEFAULT_NUM_TESTS } else c1
  if c2.MaxIteration ≤ 0 then { c2 with MaxIteration := DEFAULT_MAX_MODEL_ITERATION } else c2

/-- All results of a list of trials, or `none` when one of them panicked. -/
def collect : List (Option Trial) → Option (List Trial)
  | [] => some []
  | none :: _ => none
  | some t :: rest =>
    match collect rest with
    | none => none
    | some ts => some (t :: ts)

/-- The trials `solveN` runs, in the order of the slots of `solutions`; trial
`k` draws from `rnds k`. -/
def runTrials (c : Config) (minimize : Bool) (rnds : Nat → Nat → Nat) : Option (List Trial) :=
  collect ((List.range (withDefaults c).NumTests.toNat).map fun k =>
    solveOne (withDefaults c) minimize (rnds k))

/-- The method `solveN`: slot `k` of `solutions` holds the pair trial `k` returned. -/
def solveN (c : Config) (minimize : Bool) (rnds : Nat → Nat → Nat) : Option (List solution) :=
  match runTrials c minimize rnds with
  | none => none
  | some ts => some (ts.map fun t => ⟨.fin t.soln, t.vals⟩)

/-- The loop of `Minimize` over `solutions`, seeded with `+Inf` and no values. -/
def minScan (solutions : List solution) : solution :=
  solutions.foldl (fun bestSoln s => if F64.lt s.soln bestSoln.soln then s else bestSoln)
    ⟨.posInf, []⟩

/-- The loop of `Maximize` over `solutions`, seeded with `-Inf` and no values. -/
def maxScan (solutions : List solution) : solution :=
  solutions.foldl (fun bestSoln s => if F64.lt bestSoln.soln s.soln then s else bestSoln)
    ⟨.negInf, []⟩

/-- The function `Minimize`. -/
def Minimize (c : Config) (rnds : Nat → Nat → Nat) : Option (F64 × List ℚ) :=
  match solveN c true rnds with
  | none => none
  | some solutions => some ((minScan solutions).soln, (minScan solutions).vals)

/-- The function `Maximize`. -/
def Maximize (c : Config) (rnds : Nat → Nat → Nat) : Option (F64 × List ℚ) :=
  match solveN c false rnds with
  | none => none
  | some solutions => some ((maxScan solutions).soln, (maxScan solutions).vals)

/-! ## Example programs -/

/-- The grid every dimension of both example programs uses: -3 to 3 in steps of 0.5. -/
def grid13 : List ℚ := [-3, -5/2, -2, -3/2, -1, -1/2, 0, 1/2, 1, 3/2, 2, 5/2, 3]

/-- The function `parabola` of `examples/parabolic`: `math.Pow(x, 2) + 2`. -/
def parabola (x : ℚ) : ℚ := x ^ 2 + 2

/-- The model of `examples/parabolic`; Go reads `xyz[0]`, `xyz[1]`, `xyz[2]`, and the
library only ever passes it a vector with one entry per dimension. -/
def parabolicModel : List ℚ → ℚ
  | x :: y :: z :: _ => parabola x + parabola y + parabola z
  | _ => 0

/-- The config of `examples/parabolic`. -/
def parabolicConfig : Config :=
  { Params := [grid13, grid13, grid13], Model := parabolicModel, NumTests := 10,
    MaxIteration := 0, paramLens := [] }

/-- The function `poly` of `examples/local`: `x^4 - 3x^2 + 2x`. -/
def poly (x : ℚ) : ℚ := x ^ 4 - 3 * x ^ 2 + 2 * x

/-- The model of `minimize` in `examples/local`: `f += poly(val)` over the values. -/
def localMinModel (vals : List ℚ) : ℚ :=
  vals.foldl (fun f val => f + poly val) 0

/-- The model of `maximize` in `examples/local`: `f -= poly(val)` over the values. -/
def localMaxModel (vals : List ℚ) : ℚ :=
  vals.foldl (fun f val => f - poly val) 0

/-- The parameter space `paramSpace` of `examples/local`: eight copies of the grid. -/
def localParamSpace : List (List ℚ) := List.replicate 8 grid13

/-- The config of `minimize` in `examples/local`. -/
def localMinConfig : Config :=
  { Params := localParamSpace, Model := localMinModel, NumTests := 1,
    MaxIteration := 0, paramLens := [] }

/-- The config of `maximize` in `examples/local`. -/
def localMaxConfig : Config :=
  { Params := localParamSpace, Model := localMaxModel, NumTests := 100,
    MaxIteration := 0, paramLens := [] }

/-- A one-dimensional config with a flat objective and an iteration cap of 1. -/
def flatConfig : Config :=
  { Params := [[0, 1, 2]], Model := fun _ => 0, NumTests := 1, MaxIteration := 1,
    paramLens := [3] }

/-- A two-by-two grid on which each single move from (0, 0) improves the
objective (1 to 0) while the two moves together make it worse (1 to 2). -/
def saddleConfig : Config :=
  { Params := [[0, 1], [0, 1]],
    Model := fun vals =>
      match vals with
      | [x, y] => 3 * x * y - x - y + 1
      | _ => 0,
    NumTests := 1, MaxIteration := 100, paramLens := [2, 2] }

/-- A two-by-two grid on which the composed candidate always ties with the
current point (1 at (0, 0) and (1, 1), 0 at the other two points), with an
iteration cap of 1. -/
def cycleConfig : Config :=
  { Params := [[0, 1], [0, 1]],
    Model := fun vals =>
      match vals with
      | [x, y] => 1 - x - y + 2 * x * y
      | _ => 0,
    NumTests := 1, MaxIteration := 1, paramLens := [2, 2] }

/-- A config without any dimension, with the constant objective 7. -/
def emptyConfig : Config :=
  { Params := [], Model := fun _ => 7, NumTests := 1, MaxIteration := 0, paramLens := [] }

/-- A config whose second dimension is empty. -/
def holeConfig : Config :=
  { Params := [[0, 1], []], Model := fun _ => 7, NumTests := 2, MaxIteration := 0,
    paramLens := [] }

/-- A one-dimensional grid of three points with the objective values 0, 2, 1:
from the middle both neighbours improve when minimizing, the lower one more. -/
def tiltConfig : Config :=
  { Params := [[0, 1, 2]],
    Model := fun vals =>
      match vals with
      | [x] => (7 * x - 3 * x ^ 2) / 2
      | _ => 0,
    NumTests := 1, MaxIteration := 100, paramLens := [3] }

/-- A one-dimensional grid of four points with a strictly decreasing objective
and an iteration cap of 1. -/
def lineConfig : Config :=
  { Params := [[0, 1, 2, 3]],
    Model := fun vals =>
      match vals with
      | [x] => -x
      | _ => 0,
    NumTests := 1, MaxIteration := 1, paramLens := [4] }

/-! ## Notions the properties are stated with -/

/-- An index vector is in range: one entry per dimension, each a valid index. -/
def InRange (params : List (List ℚ)) (idxs : List Int) : Prop :=
  List.Forall₂ (fun (param : List ℚ) (idx : Int) => 0 ≤ idx ∧ idx < param.length) params idxs

/-- Strict improvement of the scalar `a` over `b` in the direction of the search. -/
def better (minimize : Bool) (a b : ℚ) : Bool :=
  if minimize then decide (a < b) else decide (a > b)

/-- The objective at an index vector, when the lookup succeeds. -/
def objAt (c : Config) (idxs : List Int) : Option ℚ :=
  match valsFromIndexes c idxs with
  | none => none
  | some vals => some (c.Model vals)

/-- Is the objective at `idxs` with dimension `i` moved to index `j` strictly
better than `currentSoln`?  A move off the grid never is. -/
def moveBeats (c : Config) (minimize : Bool) (idxs : List Int) (currentSoln : ℚ) (i : Nat)
    (j : Int) : Bool :=
  match objAt c (idxs.set i j) with
  | some there => better minimize there currentSoln
  | none => false

/-- Does moving dimension `i` of `idxs` by `d` give a grid point that is
strictly better than `idxs` itself? -/
def moveImproves (c : Config) (minimize : Bool) (idxs : List Int) (i : Nat) (d : Int) : Bool :=
  match idxs[i]?, objAt c idxs with
  | some idx, some here => moveBeats c minimize idxs here i (idx + d)
  | _, _ => false

/-- The reference decision for dimension `i`: the upper neighbour if it exists
and is strictly better than `currentSoln`, else the lower neighbour if it exists
and is strictly better, else the old index. -/
def refNext (c : Config) (idxs : List Int) (currentSoln : ℚ) (minimize : Bool) (i : Nat)
    (idx : Int) : Int :=
  if moveBeats c minimize idxs currentSoln i (idx + 1) then idx + 1
  else if moveBeats c minimize idxs currentSoln i (idx - 1) then idx - 1
  else idx

/-- Convergence in the sense of the glossary: no move of a single dimension to
an adjacent grid index strictly improves the objective. -/
def converged (c : Config) (minimize : Bool) (idxs : List Int) : Bool :=
  (List.range idxs.length).all fun i =>
    !moveImproves c minimize idxs i 1 && !moveImproves c minimize idxs i (-1)

/-- The walk of `followGradient` told by the number of rounds still allowed
instead of by `count`; `followGradient_eq_walkN` shows it is the same function. -/
def walkN (c : Config) (minimize : Bool) : Nat → List Int → ℚ → Option Walk
  | 0, idxs, _ => some ⟨idxs, .cap, 0, 0⟩
  | n + 1, idxs, currentSoln =>
    match round c idxs currentSoln minimize with
    | none => none
    | some r =>
      if stops r currentSoln minimize then
        some ⟨idxs, .converged, 1, r.evals⟩
      else
        match walkN c minimize n r.nextIdxs r.nextSoln with
        | none => none
        | some w => some ⟨w.idxs, w.exit, w.rounds + 1, w.evals + r.evals⟩

/-- The index `followGradient` picks for dimension `i` (the old one if the probe panics). -/
def nextAt (c : Config) (idxs : List Int) (currentSoln : ℚ) (minimize : Bool) (i : Nat)
    (idx : Int) : Int :=
  match probe c idxs currentSoln i idx with
  | none => idx
  | some p => choose minimize currentSoln idx p

/-- The number of `c.Model` calls for dimension `i`. -/
def evalsAt (c : Config) (idxs : List Int) (currentSoln : ℚ) (i : Nat) (idx : Int) : Nat :=
  match probe c idxs currentSoln i idx with
  | none => 0
  | some p => p.evals

/-- The indexes picked for the dimensions `i, i+1, ...` holding `rest`. -/
def nextFrom (c : Config) (idxs : List Int) (currentSoln : ℚ) (minimize : Bool) :
    Nat → List Int → List Int
  | _, [] => []
  | i, idx :: rest =>
    nextAt c idxs currentSoln minimize i idx :: nextFrom c idxs currentSoln minimize (i + 1) rest

/-- The number of `c.Model` calls for the dimensions `i, i+1, ...` holding `rest`. -/
def evalsFrom (c : Config) (idxs : List Int) (currentSoln : ℚ) : Nat → List Int → Nat
  | _, [] => 0
  | i, idx :: rest => evalsAt c idxs currentSoln i idx + evalsFrom c idxs currentSoln (i + 1) rest

/-- The method `solveOne` with the walk told by `walkN`; `solveOne_eq_solveOneN`
shows it is the same function. -/
def solveOneN (c : Config) (minimize : Bool) (rnd : Nat → Nat) : Option Trial :=
  match getRandomIndexes c rnd with
  | none => none
  | some idxs =>
    match valsFromIndexes c idxs with
    | none => none
    | some vals =>
      match walkN c minimize (c.MaxIteration + 1).toNat idxs (c.Model vals) with
      | none => none
      | some w =>
        match valsFromIndexes c w.idxs with
        | none => none
        | some bestVals =>
          some ⟨c.Model bestVals, bestVals, w.idxs, w.exit, w.rounds, w.evals + 2⟩

/-- Along one dimension `prm` of a separable objective with summand `g`: is the
grid value at index `j` strictly better than the value `x`?  An index off the
grid never is. -/
def beats1 (minimize : Bool) (g : ℚ → ℚ) (prm : List ℚ) (x : ℚ) (j : Int) : Bool :=
  match at? prm j with
  | none => false
  | some y => better minimize (g y) (g x)

/-- The move of one dimension of a separable objective: up if the upper
neighbour has a strictly better `g`, else down if the lower one has, else stay. -/
def step1 (minimize : Bool) (g : ℚ → ℚ) (prm : List ℚ) (idx : Int) : Int :=
  match at? prm idx with
  | none => idx
  | some x =>
    if beats1 minimize g prm x (idx + 1) then idx + 1
    else if beats1 minimize g prm x (idx - 1) then idx - 1
    else idx

/-- The moves of all dimensions of a separable objective. -/
def stepAll (minimize : Bool) (g : ℚ → ℚ) (params : List (List ℚ)) (idxs : List Int) :
    List Int :=
  List.zipWith (step1 minimize g) params idxs

/-- The number of grid values of `prm` with a strictly better `g` than the value
at `idx`: it bounds the moves the dimension can still make. -/
def rank1 (minimize : Bool) (g : ℚ → ℚ) (prm : List ℚ) (idx : Int) : Nat :=
  match at? prm idx with
  | none => 0
  | some x => prm.countP fun y => better minimize (g y) (g x)

/-- Index `idx` is a local minimum of `g` along `prm`: neither adjacent grid
value has a strictly smaller `g`. -/
def LocalMin1 (g : ℚ → ℚ) (prm : List ℚ) (idx : Int) : Prop :=
  ∀ x, at? prm idx = some x →
    (∀ u, at? prm (idx + 1) = some u → ¬ g u < g x) ∧
      (∀ d, at? prm (idx - 1) = some d → ¬ g d < g x)

/-- The config with the sign of the objective flipped: the model `-f` for the model `f`. -/
def negate (c : Config) : Config :=
  { c with Model := fun vals => -(c.Model vals) }

/-- The float64 negation. -/
def F64.neg : F64 → F64
  | .fin q => .fin (-q)
  | .posInf => .negInf
  | .negInf => .posInf
  | .nan => .nan

/-- A trial result with the sign of its scalar flipped. -/
def negTrial (t : Trial) : Trial :=
  ⟨-t.soln, t.vals, t.idxs, t.exit, t.rounds, t.evals⟩

/-- A solution with the sign of its scalar flipped. -/
def negSolution (s : solution) : solution :=
  ⟨F64.neg s.soln, s.vals⟩

/-! ## The machine-level model: float64 values, int64 counter, bounded stack

The definitions above idealise three things: the objective is exact and
finite, Go `int` does not wrap, and the recursion of `followGradient` has
unlimited depth.  The definitions below drop the three idealisations.  The
objective returns an `F64` (a finite value, an infinity or NaN) and every
comparison is the float64 `<`; `count + 1` wraps at 64 bits; and every
nested call of `followGradient` takes one of the `stack` frames the goroutine
has room for.  A run ends in a result, in a run-time panic, or in a stack
overflow.  Grid values stay rationals: they are finite float64 values that the
library hands to the objective and never compares.  Heap memory is not limited. -/

/-- The position of the leading bit of `n`, by halving at most `fuel` times. -/
def bitPos : Nat → Nat → Nat
  | 0, _ => 0
  | fuel + 1, n => if n < 2 then 0 else bitPos fuel (n / 2) + 1

/-- The position of the leading bit of the positive rational `n / d`: the `e`
with `2^e ≤ n / d < 2^(e+1)`. -/
def ilog2 (n d : Nat) : Int :=
  let e : Int := (bitPos n n : Int) - (bitPos d d : Int)
  if d * 2 ^ e.toNat ≤ n * 2 ^ (-e).toNat then e else e - 1

/-- The integer nearest to `(n / d) / 2^k`, ties to even. -/
def roundQuanta (n d : Nat) (k : Int) : Nat :=
  let num := n * 2 ^ (-k).toNat
  let den := d * 2 ^ k.toNat
  let f := num / den
  let r := num % den
  if 2 * r < den then f
  else if den < 2 * r then f + 1
  else if f % 2 = 0 then f
  else f + 1

/-- The rational `m × 2^k`, with the sign of `q`. -/
def scaled (q : ℚ) (m : Nat) (k : Int) : ℚ :=
  (if q < 0 then -1 else 1) * mkRat (m * 2 ^ k.toNat) (2 ^ (-k).toNat)

/-- Rounding to 53 significant bits with unbounded exponent (nearest, ties to
even): what a float64 multiplication of two mantissas in [0.5, 1) returns. -/
def roundSig53 (q : ℚ) : ℚ :=
  if q = 0 then 0
  else
    let k := ilog2 q.num.natAbs q.den - 52
    scaled q (roundQuanta q.num.natAbs q.den k) k

/-- Rounding of a real result to float64 (nearest, ties to even): 53 bits in
the normal range, multiples of `2^-1074` below `2^-1022`, an infinity from
`2^1024` on. -/
def F64.ofRat (q : ℚ) : F64 :=
  if q = 0 then .fin 0
  else
    let k := max (ilog2 q.num.natAbs q.den) (-1022) - 52
    let r := scaled q (roundQuanta q.num.natAbs q.den k) k
    if (2 : ℚ) ^ 1024 ≤ r then .posInf
    else if r ≤ -(2 : ℚ) ^ 1024 then .negInf
    else .fin r

/-- The float64 addition. -/
def F64.add : F64 → F64 → F64
  | .nan, _ => .nan
  | _, .nan => .nan
  | .posInf, .negInf => .nan
  | .negInf, .posInf => .nan
  | .posInf, _ => .posInf
  | _, .posInf => .posInf
  | .negInf, _ => .negInf
  | _, .negInf => .negInf
  | .fin a, .fin b => F64.ofRat (a + b)

/-- The call `math.Pow(x, 2)` on a finite `x`: the square of the mantissa is
rounded to 53 bits and `Ldexp` puts the exponent back, rounding once more only
where the result is subnormal or overflows. -/
def pow2 (x : ℚ) : F64 :=
  F64.ofRat (roundSig53 (x * x))

/-- How a run on the machine ends: with a result, with a run-time panic
(index out of range, `rand.Intn` of a non-positive number), or with the fatal
stack overflow of a goroutine. -/
inductive Run (α : Type) where
  | done (a : α)
  | panic
  | stackOverflow
deriving DecidableEq

/-- A 64-bit two's complement result: what Go's `int` arithmetic returns. -/
def wrap64 (x : Int) : Int :=
  (x + 2 ^ 63) % 2 ^ 64 - 2 ^ 63

/-- The struct `Config` with a float64-valued model. -/
structure Config64 where
  /-- The parameter space: one list of grid values per dimension. -/
  Params : List (List ℚ)
  /-- The model to minimize or maximize. -/
  Model : List ℚ → F64
  /-- The number of tests to run. -/
  NumTests : Int
  /-- The maximum iterations of each test. -/
  MaxIteration : Int
  /-- The cached length of each list of `Params`. -/
  paramLens : List Int

/-- The result of `solveOne` on the machine: the returned pair and bookkeeping. -/
structure Trial64 where
  /-- The returned scalar `c.Model(bestVals)`. -/
  soln : F64
  /-- The returned vector `bestVals`. -/
  vals : List ℚ
  /-- The index vector `bestIdxs` the walk stopped at. -/
  idxs : List Int
  /-- The `return` statement that ended the walk. -/
  exit : Exit
  /-- The number of neighbour-search rounds of the walk. -/
  rounds : Nat
  /-- The number of calls of `c.Model` in the whole trial. -/
  evals : Nat
deriving DecidableEq

/-- The locals `downIdx`, `upIdx`, `downSoln`, `upSoln` of one pass of the loop
over the dimensions, and the number of `c.Model` calls the pass made. -/
structure Probe64 where
  downIdx : Int
  upIdx : Int
  downSoln : F64
  upSoln : F64
  evals : Nat

/-- The boundary analysis of `followGradient` (the `if c.paramLens[i] == 1 ...`
chain) for dimension `i` holding index `idx`. -/
def probe64 (c : Config64) (idxs : List Int) (currentSoln : F64) (i : Nat) (idx : Int) :
    Option Probe64 :=
  match c.paramLens[i]? with
  | none => none
  | some len =>
    if len = 1 then
      some ⟨0, 0, currentSoln, currentSoln, 0⟩
    else if idx = 0 then
      match lookupAll c.Params (idxs.set i 1) with
      | none => none
      | some testVals => some ⟨0, 1, currentSoln, c.Model testVals, 1⟩
    else if idx = len - 1 then
      match lookupAll c.Params (idxs.set i (idx - 1)) with
      | none => none
      | some testVals => some ⟨idx - 1, idx, c.Model testVals, currentSoln, 1⟩
    else
      match lookupAll c.Params (idxs.set i (idx - 1)) with
      | none => none
      | some downVals =>
        match lookupAll c.Params (idxs.set i (idx + 1)) with
        | none => none
        | some upVals => some ⟨idx - 1, idx + 1, c.Model downVals, c.Model upVals, 2⟩

/-- The decision `nextIdx` of `followGradient` (the `if minimize ...` block),
with the float64 comparisons `upSoln < currentSoln` and `upSoln > currentSoln`. -/
def choose64 (minimize : Bool) (currentSoln : F64) (idx : Int) (p : Probe64) : Int :=
  if minimize then
    if F64.lt p.upSoln currentSoln then p.upIdx
    else if F64.lt p.downSoln currentSoln then p.downIdx
    else idx
  else
    if F64.lt currentSoln p.upSoln then p.upIdx
    else if F64.lt currentSoln p.downSoln then p.downIdx
    else idx

/-- The loop `for i, idx := range idxs` of `followGradient`; the list argument is
the part of `idxs` still to visit and `i` the position of its head. -/
def loop64 (c : Config64) (idxs : List Int) (currentSoln : F64) (minimize : Bool) :
    Nat → List Int → LoopState → Option LoopState
  | _, [], s => some s
  | i, idx :: rest, s =>
    match probe64 c idxs currentSoln i idx with
    | none => none
    | some p =>
      loop64 c idxs currentSoln minimize (i + 1) rest
        ⟨s.nextIdxs.set i (choose64 minimize currentSoln idx p),
          s.didUpdate || decide (choose64 minimize currentSoln idx p ≠ idx),
          s.evals + p.evals⟩

/-- What one round of `followGradient` computes before its exit test. -/
structure Round64 where
  nextIdxs : List Int
  didUpdate : Bool
  nextSoln : F64
  evals : Nat
deriving DecidableEq

/-- One round of `followGradient`: the loop over the dimensions, then the
evaluation of the composed candidate. -/
def round64 (c : Config64) (idxs : List Int) (currentSoln : F64) (minimize : Bool) :
    Option Round64 :=
  match loop64 c idxs currentSoln minimize 0 idxs ⟨idxs, false, 0⟩ with
  | none => none
  | some s =>
    match lookupAll c.Params s.nextIdxs with
    | none => none
    | some nextVals => some ⟨s.nextIdxs, s.didUpdate, c.Model nextVals, s.evals + 1⟩

/-- The exit test `!didUpdate || (minimize && currentSoln < nextSoln) ||
(!minimize && currentSoln > nextSoln)` of `followGradient`, in float64. -/
def stops64 (r : Round64) (currentSoln : F64) (minimize : Bool) : Bool :=
  !r.didUpdate || (minimize && F64.lt currentSoln r.nextSoln) ||
    (!minimize && F64.lt r.nextSoln currentSoln)

/-- The method `followGradient` on the machine.  The first argument is the
number of nested calls of `followGradient` the stack of the goroutine still
has room for: the recursive call is not a tail call, so every round that
continues keeps its frame. -/
def followGradient64 (c : Config64) :
    Nat → List Int → F64 → Bool → Int → Run Walk
  | 0, _, _, _, _ => .stackOverflow
  | stack + 1, idxs, currentSoln, minimize, count =>
    if count > c.MaxIteration then
      .done ⟨idxs, .cap, 0, 0⟩
    else
      match round64 c idxs currentSoln minimize with
      | none => .panic
      | some r =>
        if stops64 r currentSoln minimize then
          .done ⟨idxs, .converged, 1, r.evals⟩
        else
          match followGradient64 c stack r.nextIdxs r.nextSoln minimize
              (wrap64 (count + 1)) with
          | .done w => .done ⟨w.idxs, w.exit, w.rounds + 1, w.evals + r.evals⟩
          | .panic => .panic
          | .stackOverflow => .stackOverflow

/-- The method `solveOne` on the machine; `stack` is the room of the goroutine
for nested calls of `followGradient`. -/
def solveOne64 (stack : Nat) (c : Config64) (minimize : Bool) (rnd : Nat → Nat) :
    Run Trial64 :=
  match randomIndexesFrom rnd 0 c.Params with
  | none => .panic
  | some idxs =>
    match lookupAll c.Params idxs with
    | none => .panic
    | some vals =>
      match followGradient64 c stack idxs (c.Model vals) minimize 0 with
      | .panic => .panic
      | .stackOverflow => .stackOverflow
      | .done w =>
        match lookupAll c.Params w.idxs with
        | none => .panic
        | some bestVals =>
          .done ⟨c.Model bestVals, bestVals, w.idxs, w.exit, w.rounds, w.evals + 2⟩

/-- The config as `solveN` leaves it before it starts the trials. -/
def withDefaults64 (c : Config64) : Config64 :=
  { Params := c.Params, Model := c.Model,
    NumTests := if c.NumTests ≤ 0 then DEFAULT_NUM_TESTS else c.NumTests,
    MaxIteration := if c.MaxIteration ≤ 0 then DEFAULT_MAX_MODEL_ITERATION else c.MaxIteration,
    paramLens := c.Params.map fun vals => (vals.length : Int) }

/-- All results of a list of trials; a trial that ends in a panic or a stack
overflow ends the whole program (reported is the fault of the lowest slot). -/
def collect64 : List (Run Trial64) → Run (List solution)
  | [] => .done []
  | .panic :: _ => .panic
  | .stackOverflow :: _ => .stackOverflow
  | .done t :: rest =>
    match collect64 rest with
    | .done ss => .done (⟨t.soln, t.vals⟩ :: ss)
    | .panic => .panic
    | .stackOverflow => .stackOverflow

/-- The method `solveN` on the machine: slot `k` of `solutions` holds the pair
trial `k` returned; every trial runs in a goroutine of its own, with `stack`
frames of room. -/
def solveN64 (stack : Nat) (c : Config64) (minimize : Bool) (rnds : Nat → Nat → Nat) :
    Run (List solution) :=
  collect64 ((List.range (withDefaults64 c).NumTests.toNat).map fun k =>
    solveOne64 stack (withDefaults64 c) minimize (rnds k))

/-- The function `Minimize` on the machine. -/
def Minimize64 (stack : Nat) (c : Config64) (rnds : Nat → Nat → Nat) :
    Run (F64 × List ℚ) :=
  match solveN64 stack c true rnds with
  | .done solutions => .done ((minScan solutions).soln, (minScan solutions).vals)
  | .panic => .panic
  | .stackOverflow => .stackOverflow

/-- The function `Maximize` on the machine. -/
def Maximize64 (stack : Nat) (c : Config64) (rnds : Nat → Nat → Nat) :
    Run (F64 × List ℚ) :=
  match solveN64 stack c false rnds with
  | .done solutions => .done ((maxScan solutions).soln, (maxScan solutions).vals)
  | .panic => .panic
  | .stackOverflow => .stackOverflow

/-- The function `parabola` of `examples/parabolic` in float64:
`math.Pow(x, 2) + 2`. -/
def parabola64 (x : ℚ) : F64 :=
  F64.add (pow2 x) (.fin 2)

/-- The model of `examples/parabolic` in float64:
`parabola(x) + parabola(y) + parabola(z)`, added from the left; the library only
ever passes it a vector with one entry per dimension. -/
def parabolicModel64 : List ℚ → F64
  | x :: y :: z :: _ => F64.add (F64.add (parabola64 x) (parabola64 y)) (parabola64 z)
  | _ => .fin 0

/-- The objective on the two-by-two grid of ties: 1 at (0, 0) and (1, 1), 0 at
the other two points. -/
def tieModel64 (vals : List ℚ) : F64 :=
  if vals = [0, 0] ∨ vals = [1, 1] then .fin 1 else .fin 0

/-- The two-by-two grid of ties with the iteration cap `cap`. -/
def tieConfig64 (cap : Int) : Config64 :=
  { Params := [[0, 1], [0, 1]], Model := tieModel64, NumTests := 1, MaxIteration := cap,
    paramLens := [2, 2] }

/-- The two-by-two grid on which the objective is 1 at (0, 0), 0 at (1, 0) and
(0, 1), and NaN at (1, 1). -/
def nanConfig64 : Config64 :=
  { Params := [[0, 1], [0, 1]],
    Model := fun vals =>
      if vals = [0, 0] then .fin 1 else if vals = [1, 1] then .nan else .fin 0,
    NumTests := 1, MaxIteration := 100, paramLens := [2, 2] }

/-- The config of `examples/parabolic` with `grid` as the list of every one of
its three dimensions. -/
def parabolicConfig64 (grid : List ℚ) : Config64 :=
  { Params := [grid, grid, grid], Model := parabolicModel64, NumTests := 10,
    MaxIteration := 0, paramLens := [] }

/-- A grid around 0 whose points are so small that their squares vanish next to 2. -/
def tinyGrid : List ℚ := [-(1 / 2 ^ 30), 0, 1 / 2 ^ 30]

/-- A grid around 0 whose outer points are so large that their squares overflow. -/
def hugeGrid : List ℚ := [-(2 ^ 600), 0, 2 ^ 600]

/-- A config without any dimension whose objective is NaN at the empty vector. -/
def emptyNanConfig64 : Config64 :=
  { Params := [], Model := fun _ => .nan, NumTests := 0, MaxIteration := 0, paramLens := [] }

/-- The config of the exact model that a machine-level config computes when its
float64 objective is the exact objective `f`. -/
def Config64.exact (c : Config64) (f : List ℚ → ℚ) : Config :=
  { Params := c.Params, Model := f, NumTests := c.NumTests, MaxIteration := c.MaxIteration,
    paramLens := c.paramLens }

/-- The locals of one pass of the exact model, as float64 values. -/
def Probe.toMachine (p : Probe) : Probe64 :=
  ⟨p.downIdx, p.upIdx, .fin p.downSoln, .fin p.upSoln, p.evals⟩

/-- The round of the exact model, as float64 values. -/
def Round.toMachine (r : Round) : Round64 :=
  ⟨r.nextIdxs, r.didUpdate, .fin r.nextSoln, r.evals⟩

/-- The trial of the exact model, as float64 values. -/
def Trial.toMachine (t : Trial) : Trial64 :=
  ⟨.fin t.soln, t.vals, t.idxs, t.exit, t.rounds, t.evals⟩

/-- A run of the exact model (a result or a panic) as a run on the machine. -/
def Run.ofOption {α : Type} : Option α → Run α
  | none => .panic
  | some a => .done a

/-- A machine-level config without any dimension; the objective is the constant 7. -/
def emptyConfig64 : Config64 :=
  { Params := [], Model := fun _ => .fin 7, NumTests := 1, MaxIteration := 0, paramLens := [] }

/-- A machine-level config whose second dimension is empty. -/
def holeConfig64 : Config64 :=
  { Params := [[1, 2], []], Model := fun _ => .fin 0, NumTests := 2, MaxIteration := 5,
    paramLens := [] }

/-! ## Basic facts -/

theorem followGradient_eq_walkN (c : Config) (minimize : Bool) (n : Nat) :
    ∀ (idxs : List Int) (currentSoln : ℚ) (count : Int),
      (c.MaxIteration + 1 - count).toNat = n →
      followGradient c idxs currentSoln minimize count = walkN c minimize n idxs currentSoln := by
  induction n with
  | zero =>
    intro idxs cur count hn
    rw [followGradient]
    have : count > c.MaxIteration := by omega
    simp [this, walkN]
  | succ n ih =>
    intro idxs cur count hn
    rw [followGradient]
    have h1 : ¬ count > c.MaxIteration := by omega
    have h2 : (c.MaxIteration + 1 - (count + 1)).toNat = n := by omega
    simp only [h1, if_false, walkN]
    cases hr : round c idxs cur minimize with
    | none => rfl
    | some r =>
      simp only
      rw [ih r.nextIdxs r.nextSoln (count + 1) h2]

/-! ## The aggregation loops -/

theorem F64_lt_irrefl (a : F64) : F64.lt a a = false := by
  cases a <;> simp [F64.lt]

theorem F64_lt_trans {a b c : F64} (h1 : F64.lt a b = true) (h2 : F64.lt b c = true) :
    F64.lt a c = true := by
  cases a <;> cases b <;> cases c <;> simp [F64.lt] at h1 h2 ⊢
  exact lt_trans h1 h2

/-- The shape both aggregation loops share: keep the running best unless the
next entry beats it under the strict order `R`. -/
theorem scan_spec (R : F64 → F64 → Bool) (hirr : ∀ a, R a a = false)
    (htr : ∀ a b c, R a b = true → R b c = true → R a c = true) :
    ∀ (l : List solution) (b : solution),
      (l.foldl (fun best s => if R s.soln best.soln then s else best) b = b ∧
          ∀ s ∈ l, R s.soln b.soln = false) ∨
      ∃ k, l[k]? = some (l.foldl (fun best s => if R s.soln best.soln then s else best) b) ∧
        R (l.foldl (fun best s => if R s.soln best.soln then s else best) b).soln b.soln = true ∧
        (∀ s ∈ l, R s.soln
          (l.foldl (fun best s => if R s.soln best.soln then s else best) b).soln = false) ∧
        ∀ (j : Nat) (s : solution), j < k → l[j]? = some s →
          s.soln ≠ (l.foldl (fun best s => if R s.soln best.soln then s else best) b).soln := by
  intro l
  induction l with
  | nil => intro b; left; simp
  | cons a t ih =>
    intro b
    simp only [List.foldl_cons]
    by_cases hab : R a.soln b.soln = true
    · rw [if_pos hab]
      rcases ih a with ⟨hr, hall⟩ | ⟨k, hk, hlt, hall, hbefore⟩
      · right
        refine ⟨0, by simp [hr], by rw [hr]; exact hab, ?_, ?_⟩
        · intro s hs
          rw [hr]
          rcases List.mem_cons.1 hs with rfl | hs
          · exact hirr _
          · exact hall s hs
        · intro j s hj; omega
      · right
        refine ⟨k + 1, by simpa using hk, htr _ _ _ hlt hab, ?_, ?_⟩
        · intro s hs
          rcases List.mem_cons.1 hs with rfl | hs
          · cases h : R s.soln (List.foldl (fun best s => if R s.soln best.soln then s else best) s t).soln
            · rfl
            · have := htr _ _ _ h hlt
              rw [hirr] at this; cases this
          · exact hall s hs
        · intro j s hj hs
          cases j with
          | zero =>
            simp at hs
            subst hs
            intro heq
            rw [← heq, hirr] at hlt; cases hlt
          | succ j => exact hbefore j s (by omega) (by simpa using hs)
    · rw [if_neg hab]
      have hab' : R a.soln b.soln = false := by simpa using hab
      rcases ih b with ⟨hr, hall⟩ | ⟨k, hk, hlt, hall, hbefore⟩
      · left
        refine ⟨hr, ?_⟩
        intro s hs
        rcases List.mem_cons.1 hs with rfl | hs
        · exact hab'
        · exact hall s hs
      · right
        refine ⟨k + 1, by simpa using hk, hlt, ?_, ?_⟩
        · intro s hs
          rcases List.mem_cons.1 hs with rfl | hs
          · cases h : R s.soln (List.foldl (fun best s => if R s.soln best.soln then s else best) b t).soln
            · rfl
            · have := htr _ _ _ h hlt
              rw [hab'] at this; cases this
          · exact hall s hs
        · intro j s hj hs
          cases j with
          | zero =>
            simp at hs
            subst hs
            intro heq
            rw [← heq, hab'] at hlt; cases hlt
          | succ j => exact hbefore j s (by omega) (by simpa using hs)

theorem minScan_spec (l : List solution) :
    (minScan l = ⟨.posInf, []⟩ ∧ ∀ s ∈ l, F64.lt s.soln .posInf = false) ∨
      ∃ k, l[k]? = some (minScan l) ∧ F64.lt (minScan l).soln .posInf = true ∧
        (∀ s ∈ l, F64.lt s.soln (minScan l).soln = false) ∧
        ∀ (j : Nat) (s : solution), j < k → l[j]? = some s → s.soln ≠ (minScan l).soln :=
  scan_spec F64.lt F64_lt_irrefl (fun _ _ _ h1 h2 => F64_lt_trans h1 h2) l ⟨.posInf, []⟩

theorem maxScan_spec (l : List solution) :
    (maxScan l = ⟨.negInf, []⟩ ∧ ∀ s ∈ l, F64.lt .negInf s.soln = false) ∨
      ∃ k, l[k]? = some (maxScan l) ∧ F64.lt .negInf (maxScan l).soln = true ∧
        (∀ s ∈ l, F64.lt (maxScan l).soln s.soln = false) ∧
        ∀ (j : Nat) (s : solution), j < k → l[j]? = some s → s.soln ≠ (maxScan l).soln :=
  scan_spec (fun a b => F64.lt b a) F64_lt_irrefl (fun _ _ _ h1 h2 => F64_lt_trans h2 h1) l
    ⟨.negInf, []⟩

/-- C1: for a non-empty list of trial results with finite scalars, the loop of
Minimize returns one of the results, its scalar is at most every scalar of the
list, and it is the earliest entry with that scalar; the loop of Maximize does
the same with at least. -/
theorem C1_aggregation_picks_first_best (sols : List solution) (hne : sols ≠ [])
    (hfin : ∀ s ∈ sols, ∃ q, s.soln = F64.fin q) :
    (∃ k q, sols[k]? = some (minScan sols) ∧ (minScan sols).soln = F64.fin q ∧
        (∀ s ∈ sols, ∃ r, s.soln = F64.fin r ∧ q ≤ r) ∧
        ∀ (j : Nat) (s : solution), j < k → sols[j]? = some s → s.soln ≠ F64.fin q) ∧
    (∃ k q, sols[k]? = some (maxScan sols) ∧ (maxScan sols).soln = F64.fin q ∧
        (∀ s ∈ sols, ∃ r, s.soln = F64.fin r ∧ r ≤ q) ∧
        ∀ (j : Nat) (s : solution), j < k → sols[j]? = some s → s.soln ≠ F64.fin q) := by
  obtain ⟨a, ha⟩ := List.exists_mem_of_ne_nil sols hne
  obtain ⟨qa, hqa⟩ := hfin a ha
  constructor
  · rcases minScan_spec sols with ⟨_, hall⟩ | ⟨k, hk, _, hall, hbefore⟩
    · have := hall a ha
      rw [hqa] at this; simp [F64.lt] at this
    · obtain ⟨q, hq⟩ := hfin _ (List.getElem?_mem hk)
      refine ⟨k, q, hk, hq, ?_, ?_⟩
      · intro s hs
        obtain ⟨r, hr⟩ := hfin s hs
        refine ⟨r, hr, ?_⟩
        have := hall s hs
        rw [hr, hq] at this
        simpa [F64.lt] using this
      · intro j s hj hs
        rw [← hq]; exact hbefore j s hj hs
  · rcases maxScan_spec sols with ⟨_, hall⟩ | ⟨k, hk, _, hall, hbefore⟩
    · have := hall a ha
      rw [hqa] at this; simp [F64.lt] at this
    · obtain ⟨q, hq⟩ := hfin _ (List.getElem?_mem hk)
      refine ⟨k, q, hk, hq, ?_, ?_⟩
      · intro s hs
        obtain ⟨r, hr⟩ := hfin s hs
        refine ⟨r, hr, ?_⟩
        have := hall s hs
        rw [hr, hq] at this
        simpa [F64.lt] using this
      · intro j s hj hs
        rw [← hq]; exact hbefore j s hj hs

/-- Witness for C1: three results, the minimum 1 held by the second and third. -/
theorem C1_aggregation_picks_first_best_witness :
    (∃ k q, [(⟨F64.fin 2, [1]⟩ : solution), ⟨F64.fin 1, [2]⟩, ⟨F64.fin 1, [3]⟩][k]? =
          some (minScan [⟨F64.fin 2, [1]⟩, ⟨F64.fin 1, [2]⟩, ⟨F64.fin 1, [3]⟩]) ∧
        (minScan [⟨F64.fin 2, [1]⟩, ⟨F64.fin 1, [2]⟩, ⟨F64.fin 1, [3]⟩]).soln = F64.fin q ∧
        (∀ s ∈ [(⟨F64.fin 2, [1]⟩ : solution), ⟨F64.fin 1, [2]⟩, ⟨F64.fin 1, [3]⟩],
          ∃ r, s.soln = F64.fin r ∧ q ≤ r) ∧
        ∀ (j : Nat) (s : solution), j < k →
          [(⟨F64.fin 2, [1]⟩ : solution), ⟨F64.fin 1, [2]⟩, ⟨F64.fin 1, [3]⟩][j]? = some s →
          s.soln ≠ F64.fin q) ∧
    (∃ k q, [(⟨F64.fin 2, [1]⟩ : solution), ⟨F64.fin 1, [2]⟩, ⟨F64.fin 1, [3]⟩][k]? =
          some (maxScan [⟨F64.fin 2, [1]⟩, ⟨F64.fin 1, [2]⟩, ⟨F64.fin 1, [3]⟩]) ∧
        (maxScan [⟨F64.fin 2, [1]⟩, ⟨F64.fin 1, [2]⟩, ⟨F64.fin 1, [3]⟩]).soln = F64.fin q ∧
        (∀ s ∈ [(⟨F64.fin 2, [1]⟩ : solution), ⟨F64.fin 1, [2]⟩, ⟨F64.fin 1, [3]⟩],
          ∃ r, s.soln = F64.fin r ∧ r ≤ q) ∧
        ∀ (j : Nat) (s : solution), j < k →
          [(⟨F64.fin 2, [1]⟩ : solution), ⟨F64.fin 1, [2]⟩, ⟨F64.fin 1, [3]⟩][j]? = some s →
          s.soln ≠ F64.fin q) :=
  C1_aggregation_picks_first_best [⟨F64.fin 2, [1]⟩, ⟨F64.fin 1, [2]⟩, ⟨F64.fin 1, [3]⟩]
    (by simp) (by simp)

/-! ## Lookups -/

theorem at?_eq_some_iff (param : List ℚ) (idx : Int) (v : ℚ) :
    at? param idx = some v ↔ 0 ≤ idx ∧ param[idx.toNat]? = some v := by
  unfold at?
  by_cases h : 0 ≤ idx <;> simp [h]

theorem at?_isSome (param : List ℚ) (idx : Int) (h0 : 0 ≤ idx) (h1 : idx < param.length) :
    ∃ v, at? param idx = some v ∧ v ∈ param := by
  have hlt : idx.toNat < param.length := by omega
  refine ⟨param[idx.toNat], ?_, List.getElem_mem _⟩
  simp [at?, h0, List.getElem?_eq_getElem hlt]

theorem at?_eq_none (param : List ℚ) (idx : Int) (h : idx < 0 ∨ (param.length : Int) ≤ idx) :
    at? param idx = none := by
  unfold at?
  by_cases h0 : 0 ≤ idx
  · have : param.length ≤ idx.toNat := by omega
    simp [h0, List.getElem?_eq_none this]
  · simp [h0]

theorem at?_range (param : List ℚ) (idx : Int) (v : ℚ) (h : at? param idx = some v) :
    0 ≤ idx ∧ idx < param.length := by
  rcases (at?_eq_some_iff _ _ _).1 h with ⟨h0, h1⟩
  refine ⟨h0, ?_⟩
  by_contra hc
  have : param.length ≤ idx.toNat := by omega
  rw [List.getElem?_eq_none this] at h1
  cases h1

theorem lookupAll_of_inRange :
    ∀ (params : List (List ℚ)) (idxs : List Int), InRange params idxs →
      ∃ vals, lookupAll params idxs = some vals ∧
        List.Forall₂ (fun (param : List ℚ) (v : ℚ) => v ∈ param) params vals := by
  intro params idxs h
  induction h with
  | nil => exact ⟨[], rfl, List.Forall₂.nil⟩
  | cons hhd _ ih =>
    obtain ⟨vals, hv, hall⟩ := ih
    obtain ⟨v, hv1, hmem⟩ := at?_isSome _ _ hhd.1 hhd.2
    exact ⟨v :: vals, by simp [lookupAll, hv1, hv], List.Forall₂.cons hmem hall⟩

theorem lookupAll_length :
    ∀ (params : List (List ℚ)) (idxs : List Int) (vals : List ℚ),
      lookupAll params idxs = some vals → vals.length = params.length := by
  intro params
  induction params with
  | nil => intro idxs vals h; simp [lookupAll] at h; simp [← h]
  | cons p ps ih =>
    intro idxs vals h
    cases idxs with
    | nil => simp [lookupAll] at h
    | cons i is =>
      simp only [lookupAll] at h
      cases h1 : at? p i with
      | none => simp [h1] at h
      | some v =>
        cases h2 : lookupAll ps is with
        | none => simp [h1, h2] at h
        | some vs =>
          simp [h1, h2] at h
          subst h
          simp [ih is vs h2]

/-- Changing one index changes the looked-up vector in that one place. -/
theorem lookupAll_set :
    ∀ (params : List (List ℚ)) (idxs : List Int) (vals : List ℚ),
      lookupAll params idxs = some vals →
      ∀ (i : Nat) (prm : List ℚ), params[i]? = some prm → ∀ (j : Int),
        lookupAll params (idxs.set i j) =
          match at? prm j with
          | none => none
          | some v => some (vals.set i v) := by
  intro params
  induction params with
  | nil => intro idxs vals _ i prm hp; simp at hp
  | cons p ps ih =>
    intro idxs vals h i prm hp j
    cases idxs with
    | nil => simp [lookupAll] at h
    | cons a is =>
      simp only [lookupAll] at h
      cases h1 : at? p a with
      | none => simp [h1] at h
      | some v =>
        cases h2 : lookupAll ps is with
        | none => simp [h1, h2] at h
        | some vs =>
          simp [h1, h2] at h
          subst h
          cases i with
          | zero =>
            simp at hp
            subst hp
            simp only [List.set_cons_zero, lookupAll, h2]
          | succ i =>
            simp at hp
            simp only [List.set_cons_succ, lookupAll, h1, ih is vs h2 i prm hp j]
            cases at? prm j <;> rfl

theorem inRange_getElem? :
    ∀ (params : List (List ℚ)) (idxs : List Int), InRange params idxs →
      ∀ (i : Nat) (prm : List ℚ), params[i]? = some prm →
        ∃ idx, idxs[i]? = some idx ∧ 0 ≤ idx ∧ idx < prm.length := by
  intro params idxs h
  induction h with
  | nil => intro i prm hp; simp at hp
  | cons hhd _ ih =>
    intro i prm hp
    cases i with
    | zero => simp at hp; subst hp; exact ⟨_, by simp, hhd⟩
    | succ i => simp at hp; simpa using ih i prm hp

theorem inRange_length (params : List (List ℚ)) (idxs : List Int) (h : InRange params idxs) :
    idxs.length = params.length :=
  (List.Forall₂.length_eq h).symm

theorem inRange_set :
    ∀ (params : List (List ℚ)) (idxs : List Int), InRange params idxs →
      ∀ (i : Nat) (prm : List ℚ) (j : Int), params[i]? = some prm → 0 ≤ j → j < prm.length →
        InRange params (idxs.set i j) := by
  intro params idxs h
  induction h with
  | nil => intro i prm j hp; simp at hp
  | cons hhd htl ih =>
    intro i prm j hp h0 h1
    cases i with
    | zero => simp at hp; subst hp; exact List.Forall₂.cons ⟨h0, h1⟩ htl
    | succ i => simp at hp; exact List.Forall₂.cons hhd (ih i prm j hp h0 h1)

/-! ## One dimension of one round -/

theorem paramLens_getElem? (c : Config)
    (hL : c.paramLens = c.Params.map fun vals => (vals.length : Int)) (i : Nat) (prm : List ℚ)
    (hp : c.Params[i]? = some prm) : c.paramLens[i]? = some (prm.length : Int) := by
  rw [hL, List.getElem?_map, hp]; rfl

theorem moveBeats_eq (c : Config) (minimize : Bool) (idxs : List Int) (vals : List ℚ)
    (hv : valsFromIndexes c idxs = some vals) (cur : ℚ) (i : Nat) (prm : List ℚ)
    (hp : c.Params[i]? = some prm) (j : Int) :
    moveBeats c minimize idxs cur i j =
      match at? prm j with
      | none => false
      | some v => better minimize (c.Model (vals.set i v)) cur := by
  unfold moveBeats objAt valsFromIndexes
  rw [lookupAll_set c.Params idxs vals hv i prm hp j]
  cases at? prm j <;> rfl

/-- What the boundary analysis and the decision compute for an in-range vector. -/
theorem probe_spec (c : Config)
    (hL : c.paramLens = c.Params.map fun vals => (vals.length : Int))
    (idxs : List Int) (hR : InRange c.Params idxs) (cur : ℚ) (minimize : Bool) (i : Nat)
    (prm : List ℚ) (hp : c.Params[i]? = some prm) (idx : Int) (hi : idxs[i]? = some idx) :
    ∃ p, probe c idxs cur i idx = some p ∧ p.evals ≤ 2 ∧
      choose minimize cur idx p = refNext c idxs cur minimize i idx ∧
      (0 ≤ p.upIdx ∧ p.upIdx < prm.length) ∧ (0 ≤ p.downIdx ∧ p.downIdx < prm.length) ∧
      (prm.length = 1 → choose minimize cur idx p = idx) := by
  obtain ⟨vals, hv, _⟩ := lookupAll_of_inRange _ _ hR
  obtain ⟨idx', hi', h0, h1⟩ := inRange_getElem? _ _ hR i prm hp
  rw [hi] at hi'; cases hi'
  have hset : ∀ j, valsFromIndexes c (idxs.set i j) =
      match at? prm j with
      | none => none
      | some v => some (vals.set i v) := lookupAll_set c.Params idxs vals hv i prm hp
  have hmb := moveBeats_eq c minimize idxs vals hv cur i prm hp
  unfold probe
  rw [paramLens_getElem? c hL i prm hp]
  simp only
  by_cases hlen : (prm.length : Int) = 1
  · have hidx : idx = 0 := by omega
    subst hidx
    refine ⟨_, by rw [if_pos hlen], by simp, ?_, by simp; omega, by simp; omega, ?_⟩
    · unfold refNext
      rw [hmb, hmb, at?_eq_none prm (0 + 1) (by omega), at?_eq_none prm (0 - 1) (by omega)]
      cases minimize <;> simp [choose]
    · intro _; cases minimize <;> simp [choose]
  · rw [if_neg hlen]
    have hlen' : prm.length ≠ 1 := by omega
    by_cases hz : idx = 0
    · subst hz
      rw [if_pos rfl, hset 1]
      obtain ⟨u, hu, _⟩ := at?_isSome prm 1 (by omega) (by omega)
      rw [hu]
      refine ⟨_, rfl, by simp, ?_, by simp; omega, by simp; omega, fun h => absurd h hlen'⟩
      unfold refNext
      rw [hmb, hmb, at?_eq_none prm (0 - 1) (by omega)]
      simp only [zero_add, hu]
      cases minimize <;> simp [choose, better]
    · rw [if_neg hz]
      obtain ⟨d, hd, _⟩ := at?_isSome prm (idx - 1) (by omega) (by omega)
      by_cases htop : idx = (prm.length : Int) - 1
      · rw [if_pos htop, hset (idx - 1), hd]
        refine ⟨_, rfl, by simp, ?_, by simp; omega, by simp; omega, fun h => absurd h hlen'⟩
        unfold refNext
        rw [hmb, hmb, at?_eq_none prm (idx + 1) (by omega), hd]
        cases minimize <;> simp [choose, better]
      · rw [if_neg htop, hset (idx - 1), hd, hset (idx + 1)]
        obtain ⟨u, hu, _⟩ := at?_isSome prm (idx + 1) (by omega) (by omega)
        rw [hu]
        refine ⟨_, rfl, by simp, ?_, by simp; omega, by simp; omega, fun h => absurd h hlen'⟩
        unfold refNext
        rw [hmb, hmb, hu, hd]
        cases minimize <;> simp [choose, better]

theorem probe_evals_le (c : Config) (idxs : List Int) (cur : ℚ) (i : Nat) (idx : Int)
    (p : Probe) (h : probe c idxs cur i idx = some p) : p.evals ≤ 2 := by
  unfold probe at h
  split at h
  · cases h
  · split_ifs at h
    · cases h; simp
    all_goals
      revert h
      repeat' split
      all_goals intro h; cases h <;> simp

theorem choose_cases (minimize : Bool) (cur : ℚ) (idx : Int) (p : Probe) :
    choose minimize cur idx p = p.upIdx ∨ choose minimize cur idx p = p.downIdx ∨
      choose minimize cur idx p = idx := by
  unfold choose
  split_ifs <;> simp

/-- The decision for one dimension of an in-range vector. -/
theorem nextAt_spec (c : Config)
    (hL : c.paramLens = c.Params.map fun vals => (vals.length : Int))
    (idxs : List Int) (hR : InRange c.Params idxs) (cur : ℚ) (minimize : Bool) (i : Nat)
    (prm : List ℚ) (hp : c.Params[i]? = some prm) (idx : Int) (hi : idxs[i]? = some idx) :
    (∃ p, probe c idxs cur i idx = some p) ∧
      nextAt c idxs cur minimize i idx = refNext c idxs cur minimize i idx ∧
      (0 ≤ nextAt c idxs cur minimize i idx ∧
        nextAt c idxs cur minimize i idx < prm.length) ∧
      (prm.length = 1 → nextAt c idxs cur minimize i idx = idx) := by
  obtain ⟨p, hpr, _, hch, hup, hdown, hone⟩ :=
    probe_spec c hL idxs hR cur minimize i prm hp idx hi
  obtain ⟨idx', hi', h0, h1⟩ := inRange_getElem? _ _ hR i prm hp
  rw [hi] at hi'; cases hi'
  have hn : nextAt c idxs cur minimize i idx = choose minimize cur idx p := by
    simp [nextAt, hpr]
  refine ⟨⟨p, hpr⟩, by rw [hn, hch], ?_, by rw [hn]; exact hone⟩
  rw [hn]
  rcases choose_cases minimize cur idx p with h | h | h <;> rw [h]
  · exact hup
  · exact hdown
  · exact ⟨h0, h1⟩

/-! ## The loop over the dimensions -/

theorem nextFrom_length (c : Config) (idxs : List Int) (cur : ℚ) (minimize : Bool) :
    ∀ (rest : List Int) (i : Nat), (nextFrom c idxs cur minimize i rest).length = rest.length := by
  intro rest
  induction rest with
  | nil => intro i; rfl
  | cons a t ih => intro i; simp [nextFrom, ih]

theorem nextFrom_getElem? (c : Config) (idxs : List Int) (cur : ℚ) (minimize : Bool) :
    ∀ (rest : List Int) (i k : Nat),
      (nextFrom c idxs cur minimize i rest)[k]? =
        match rest[k]? with
        | none => none
        | some idx => some (nextAt c idxs cur minimize (i + k) idx) := by
  intro rest
  induction rest with
  | nil => intro i k; simp [nextFrom]
  | cons a t ih =>
    intro i k
    cases k with
    | zero => simp [nextFrom]
    | succ k =>
      simp only [nextFrom, List.getElem?_cons_succ, ih (i + 1) k]
      have : i + 1 + k = i + (k + 1) := by omega
      rw [this]

theorem evalsFrom_le (c : Config) (idxs : List Int) (cur : ℚ) :
    ∀ (rest : List Int) (i : Nat), evalsFrom c idxs cur i rest ≤ 2 * rest.length := by
  intro rest
  induction rest with
  | nil => intro i; simp [evalsFrom]
  | cons a t ih =>
    intro i
    have h1 : evalsAt c idxs cur i a ≤ 2 := by
      unfold evalsAt
      cases h : probe c idxs cur i a with
      | none => simp
      | some p => exact probe_evals_le c idxs cur i a p h
    have h2 := ih (i + 1)
    simp only [evalsFrom, List.length_cons]
    omega

/-- The loop, run on a vector all of whose probes succeed. -/
theorem loop_eq (c : Config) (idxs : List Int) (cur : ℚ) (minimize : Bool) :
    ∀ (rest : List Int) (i : Nat) (done : List Int) (b : Bool) (e : Nat),
      done.length = i →
      (∀ (k : Nat) (idx : Int), rest[k]? = some idx →
        ∃ p, probe c idxs cur (i + k) idx = some p) →
      loop c idxs cur minimize i rest ⟨done ++ rest, b, e⟩ =
        some ⟨done ++ nextFrom c idxs cur minimize i rest,
          b || decide (nextFrom c idxs cur minimize i rest ≠ rest),
          e + evalsFrom c idxs cur i rest⟩ := by
  intro rest
  induction rest with
  | nil => intro i done b e _ _; simp [loop, nextFrom, evalsFrom]
  | cons a t ih =>
    intro i done b e hlen hprobe
    obtain ⟨p, hp⟩ := hprobe 0 a (by simp)
    have hp0 : probe c idxs cur i a = some p := by simpa using hp
    have hset : (done ++ a :: t).set i (choose minimize cur a p) =
        (done ++ [choose minimize cur a p]) ++ t := by
      rw [List.set_append_right _ _ (by omega)]
      simp [hlen]
    simp only [loop, hp0, hset]
    rw [ih (i + 1) (done ++ [choose minimize cur a p]) _ _ (by simp [hlen])]
    · have hn : nextAt c idxs cur minimize i a = choose minimize cur a p := by
        simp [nextAt, hp0]
      have he : evalsAt c idxs cur i a = p.evals := by simp [evalsAt, hp0]
      simp only [nextFrom, evalsFrom, hn, he, List.append_assoc, List.singleton_append,
        Option.some.injEq, LoopState.mk.injEq, true_and]
      constructor
      · by_cases h1 : choose minimize cur a p = a <;>
          by_cases h2 : nextFrom c idxs cur minimize (i + 1) t = t <;> simp [h1, h2]
      · omega
    · intro k idx hk
      have := hprobe (k + 1) idx (by simpa using hk)
      have h3 : i + 1 + k = i + (k + 1) := by omega
      rw [h3]; exact this

/-- The loop never makes more than two calls of the model per dimension and
keeps the length of the candidate. -/
theorem loop_bounds (c : Config) (idxs : List Int) (cur : ℚ) (minimize : Bool) :
    ∀ (rest : List Int) (i : Nat) (s s' : LoopState),
      loop c idxs cur minimize i rest s = some s' →
      s'.evals ≤ s.evals + 2 * rest.length ∧ s'.nextIdxs.length = s.nextIdxs.length := by
  intro rest
  induction rest with
  | nil => intro i s s' h; simp [loop] at h; subst h; simp
  | cons a t ih =>
    intro i s s' h
    simp only [loop] at h
    cases hp : probe c idxs cur i a with
    | none => simp [hp] at h
    | some p =>
      simp only [hp] at h
      obtain ⟨h1, h2⟩ := ih _ _ _ h
      have := probe_evals_le c idxs cur i a p hp
      simp only [List.length_cons, List.length_set] at *
      exact ⟨by omega, h2⟩

theorem nextFrom_inRange (c : Config) (idxs : List Int) (cur : ℚ) (minimize : Bool) :
    ∀ (ps : List (List ℚ)) (rest : List Int), InRange ps rest → ∀ (i : Nat),
      (∀ (k : Nat) (prm : List ℚ) (idx : Int), ps[k]? = some prm → rest[k]? = some idx →
        0 ≤ nextAt c idxs cur minimize (i + k) idx ∧
          nextAt c idxs cur minimize (i + k) idx < prm.length) →
      InRange ps (nextFrom c idxs cur minimize i rest) := by
  intro ps rest h
  induction h with
  | nil => intro i _; exact List.Forall₂.nil
  | cons hhd _ ih =>
    intro i hall
    refine List.Forall₂.cons ?_ (ih (i + 1) ?_)
    · simpa using hall 0 _ _ (by simp) (by simp)
    · intro k prm idx hp hi
      have := hall (k + 1) prm idx (by simpa using hp) (by simpa using hi)
      have h3 : i + 1 + k = i + (k + 1) := by omega
      rw [h3]; exact this

/-! ## One round -/

/-- One round on an in-range vector: it succeeds, and its candidate is the
vector of the per-dimension decisions, which is in range again. -/
theorem round_eq (c : Config)
    (hL : c.paramLens = c.Params.map fun vals => (vals.length : Int))
    (idxs : List Int) (hR : InRange c.Params idxs) (cur : ℚ) (minimize : Bool) :
    InRange c.Params (nextFrom c idxs cur minimize 0 idxs) ∧
    ∃ nextVals, valsFromIndexes c (nextFrom c idxs cur minimize 0 idxs) = some nextVals ∧
      round c idxs cur minimize =
        some ⟨nextFrom c idxs cur minimize 0 idxs,
          decide (nextFrom c idxs cur minimize 0 idxs ≠ idxs),
          c.Model nextVals, evalsFrom c idxs cur 0 idxs + 1⟩ := by
  have hlenEq := inRange_length _ _ hR
  have hnr : InRange c.Params (nextFrom c idxs cur minimize 0 idxs) := by
    refine nextFrom_inRange c idxs cur minimize _ _ hR 0 ?_
    intro k prm idx hp hi
    rw [Nat.zero_add]
    exact (nextAt_spec c hL idxs hR cur minimize k prm hp idx hi).2.2.1
  refine ⟨hnr, ?_⟩
  obtain ⟨nv, hnv0, _⟩ := lookupAll_of_inRange _ _ hnr
  have hnv : valsFromIndexes c (nextFrom c idxs cur minimize 0 idxs) = some nv := hnv0
  refine ⟨nv, hnv, ?_⟩
  have hloop := loop_eq c idxs cur minimize idxs 0 [] false 0 rfl (by
    intro k idx hk
    rw [Nat.zero_add]
    have hlt : k < c.Params.length := by
      rw [← hlenEq]
      by_contra hc
      rw [List.getElem?_eq_none (by omega)] at hk
      cases hk
    exact (nextAt_spec c hL idxs hR cur minimize k _ (List.getElem?_eq_getElem hlt) idx hk).1)
  simp only [List.nil_append, Bool.false_or, Nat.zero_add] at hloop
  unfold round
  rw [hloop]
  simp only
  rw [hnv]

theorem round_bounds (c : Config) (idxs : List Int) (cur : ℚ) (minimize : Bool) (r : Round)
    (h : round c idxs cur minimize = some r) :
    r.evals ≤ 2 * idxs.length + 1 ∧ r.nextIdxs.length = idxs.length := by
  unfold round at h
  cases hl : loop c idxs cur minimize 0 idxs ⟨idxs, false, 0⟩ with
  | none => simp [hl] at h
  | some s =>
    simp only [hl] at h
    obtain ⟨h1, h2⟩ := loop_bounds c idxs cur minimize idxs 0 _ s hl
    cases hv : valsFromIndexes c s.nextIdxs with
    | none => simp [hv] at h
    | some nv =>
      simp only [hv, Option.some.injEq] at h
      subst h
      simp only at h1 h2 ⊢
      exact ⟨by omega, h2⟩

/-! ## The walk -/

/-- Bounds that hold for every walk that returns: the rounds never exceed the
rounds allowed, each round costs at most two calls per dimension and one for
the candidate, and the vector keeps its length. -/
theorem walkN_bounds (c : Config) (minimize : Bool) :
    ∀ (n : Nat) (idxs : List Int) (cur : ℚ) (w : Walk),
      walkN c minimize n idxs cur = some w →
      w.rounds ≤ n ∧ w.evals ≤ w.rounds * (2 * idxs.length + 1) ∧
        w.idxs.length = idxs.length ∧ (w.exit = Exit.cap → w.rounds = n) := by
  intro n
  induction n with
  | zero => intro idxs cur w h; simp [walkN] at h; subst h; simp
  | succ n ih =>
    intro idxs cur w h
    simp only [walkN] at h
    cases hr : round c idxs cur minimize with
    | none => simp [hr] at h
    | some r =>
      simp only [hr] at h
      obtain ⟨hre, hrl⟩ := round_bounds c idxs cur minimize r hr
      by_cases hs : stops r cur minimize = true
      · rw [if_pos hs] at h
        simp only [Option.some.injEq] at h
        subst h
        simp only [one_mul]
        exact ⟨by omega, hre, trivial, by simp⟩
      · rw [if_neg hs] at h
        cases hw : walkN c minimize n r.nextIdxs r.nextSoln with
        | none => simp [hw] at h
        | some w' =>
          simp only [hw, Option.some.injEq] at h
          subst h
          obtain ⟨h1, h2, h3, h4⟩ := ih _ _ _ hw
          rw [hrl] at h2 h3
          refine ⟨by simp only; omega, ?_, h3, fun hc => by simp only at hc ⊢; rw [h4 hc]⟩
          simp only
          calc w'.evals + r.evals
              ≤ w'.rounds * (2 * idxs.length + 1) + (2 * idxs.length + 1) := by omega
            _ = (w'.rounds + 1) * (2 * idxs.length + 1) := by ring

/-- A walk from an in-range vector returns, stays in range, and never moves a
dimension of length 1. -/
theorem walkN_inRange (c : Config)
    (hL : c.paramLens = c.Params.map fun vals => (vals.length : Int)) (minimize : Bool) :
    ∀ (n : Nat) (idxs : List Int) (cur : ℚ), InRange c.Params idxs →
      ∃ w, walkN c minimize n idxs cur = some w ∧ InRange c.Params w.idxs ∧
        ∀ (i : Nat) (prm : List ℚ), c.Params[i]? = some prm → prm.length = 1 →
          w.idxs[i]? = idxs[i]? := by
  intro n
  induction n with
  | zero => intro idxs cur hR; exact ⟨_, rfl, hR, fun _ _ _ _ => rfl⟩
  | succ n ih =>
    intro idxs cur hR
    obtain ⟨hnr, nv, _, hround⟩ := round_eq c hL idxs hR cur minimize
    simp only [walkN, hround]
    split_ifs with hs
    · exact ⟨_, rfl, hR, fun _ _ _ _ => rfl⟩
    · obtain ⟨w, hw, hwr, hone⟩ := ih _ (c.Model nv) hnr
      rw [hw]
      refine ⟨_, rfl, hwr, ?_⟩
      intro i prm hp h1
      rw [hone i prm hp h1, nextFrom_getElem?]
      obtain ⟨idx, hi, _, _⟩ := inRange_getElem? _ _ hR i prm hp
      rw [hi]
      simp only [Nat.zero_add]
      rw [(nextAt_spec c hL idxs hR cur minimize i prm hp idx hi).2.2.2 h1]

/-! ## Random starts and trials -/

theorem randomIndexesFrom_length (rnd : Nat → Nat) :
    ∀ (params : List (List ℚ)) (i : Nat) (idxs : List Int),
      randomIndexesFrom rnd i params = some idxs → idxs.length = params.length := by
  intro params
  induction params with
  | nil => intro i idxs h; simp [randomIndexesFrom] at h; subst h; rfl
  | cons p ps ih =>
    intro i idxs h
    simp only [randomIndexesFrom] at h
    split_ifs at h
    cases hr : randomIndexesFrom rnd (i + 1) ps with
    | none => simp [hr] at h
    | some is =>
      simp only [hr, Option.some.injEq] at h
      subst h
      simp [ih _ _ hr]

theorem randomIndexesFrom_inRange (rnd : Nat → Nat) :
    ∀ (params : List (List ℚ)) (i : Nat), (∀ p ∈ params, p ≠ []) →
      ∃ idxs, randomIndexesFrom rnd i params = some idxs ∧ InRange params idxs := by
  intro params
  induction params with
  | nil => intro i _; exact ⟨[], rfl, List.Forall₂.nil⟩
  | cons p ps ih =>
    intro i hne
    obtain ⟨is, his, hR⟩ := ih (i + 1) (fun q hq => hne q (List.mem_cons_of_mem _ hq))
    have hp : p.length ≠ 0 := by
      have := hne p (List.mem_cons_self _ _)
      simpa using this
    refine ⟨((rnd i % p.length : Nat) : Int) :: is,
      by simp only [randomIndexesFrom, if_neg hp, his], List.Forall₂.cons ⟨?_, ?_⟩ hR⟩
    · exact Int.ofNat_nonneg _
    · exact_mod_cast Nat.mod_lt _ (Nat.pos_of_ne_zero hp)

/-- A trial of a config with cached lengths and no empty dimension, step by step. -/
theorem solveOne_eq (c : Config)
    (hL : c.paramLens = c.Params.map fun vals => (vals.length : Int))
    (hne : ∀ p ∈ c.Params, p ≠ []) (minimize : Bool) (rnd : Nat → Nat) :
    ∃ idxs vals w bestVals, getRandomIndexes c rnd = some idxs ∧ InRange c.Params idxs ∧
      valsFromIndexes c idxs = some vals ∧
      walkN c minimize (c.MaxIteration + 1).toNat idxs (c.Model vals) = some w ∧
      InRange c.Params w.idxs ∧ valsFromIndexes c w.idxs = some bestVals ∧
      List.Forall₂ (fun (param : List ℚ) (v : ℚ) => v ∈ param) c.Params bestVals ∧
      solveOne c minimize rnd =
        some ⟨c.Model bestVals, bestVals, w.idxs, w.exit, w.rounds, w.evals + 2⟩ := by
  obtain ⟨idxs, hidx, hR⟩ := randomIndexesFrom_inRange rnd c.Params 0 hne
  obtain ⟨vals, hv, _⟩ := lookupAll_of_inRange _ _ hR
  obtain ⟨w, hw, hwR, _⟩ := walkN_inRange c hL minimize (c.MaxIteration + 1).toNat idxs
    (c.Model vals) hR
  obtain ⟨bv, hbv, hmem⟩ := lookupAll_of_inRange _ _ hwR
  refine ⟨idxs, vals, w, bv, hidx, hR, hv, hw, hwR, hbv, hmem, ?_⟩
  have hfg : followGradient c idxs (c.Model vals) minimize 0 = some w := by
    rw [followGradient_eq_walkN c minimize (c.MaxIteration + 1).toNat idxs _ 0 (by simp)]
    exact hw
  unfold solveOne
  rw [show getRandomIndexes c rnd = some idxs from hidx]
  simp only
  rw [show valsFromIndexes c idxs = some vals from hv]
  simp only
  rw [hfg]
  simp only
  rw [show valsFromIndexes c w.idxs = some bv from hbv]

/-- A trial, whatever the config, is the bounded walk from the drawn start. -/
theorem solveOne_some (c : Config) (minimize : Bool) (rnd : Nat → Nat) (t : Trial)
    (h : solveOne c minimize rnd = some t) :
    ∃ idxs vals w bestVals, getRandomIndexes c rnd = some idxs ∧
      valsFromIndexes c idxs = some vals ∧
      walkN c minimize (c.MaxIteration + 1).toNat idxs (c.Model vals) = some w ∧
      valsFromIndexes c w.idxs = some bestVals ∧
      t = ⟨c.Model bestVals, bestVals, w.idxs, w.exit, w.rounds, w.evals + 2⟩ := by
  unfold solveOne at h
  cases h1 : getRandomIndexes c rnd with
  | none => simp [h1] at h
  | some idxs =>
    simp only [h1] at h
    cases h2 : valsFromIndexes c idxs with
    | none => simp [h2] at h
    | some vals =>
      simp only [h2] at h
      rw [followGradient_eq_walkN c minimize (c.MaxIteration + 1).toNat idxs _ 0 (by simp)] at h
      cases h3 : walkN c minimize (c.MaxIteration + 1).toNat idxs (c.Model vals) with
      | none => simp [h3] at h
      | some w =>
        simp only [h3] at h
        cases h4 : valsFromIndexes c w.idxs with
        | none => simp [h4] at h
        | some bv =>
          simp only [h4, Option.some.injEq] at h
          exact ⟨idxs, vals, w, bv, rfl, h2, h3, h4, h.symm⟩

/-! ## Every in-range start can be drawn -/

theorem randomIndexesFrom_covers :
    ∀ (params : List (List ℚ)) (idxs : List Int), InRange params idxs →
      ∀ (i : Nat) (rnd : Nat → Nat),
        (∀ (k : Nat) (idx : Int), idxs[k]? = some idx → rnd (i + k) = idx.toNat) →
        randomIndexesFrom rnd i params = some idxs := by
  intro params idxs h
  induction h with
  | nil => intro i rnd _; rfl
  | @cons p a ps is hhd _ ih =>
    intro i rnd hrnd
    have hp : p.length ≠ 0 := by omega
    have h0 : rnd i = a.toNat := by simpa using hrnd 0 a (by simp)
    have hmod : ((rnd i % p.length : Nat) : Int) = a := by
      rw [h0, Nat.mod_eq_of_lt (by omega)]
      omega
    simp only [randomIndexesFrom, if_neg hp]
    rw [ih (i + 1) rnd (fun k idx hk => by
      have := hrnd (k + 1) idx (by simpa using hk)
      rw [← this]; congr 1; omega), hmod]

/-- The random draws can produce every in-range start vector. -/
theorem getRandomIndexes_covers (c : Config) (idxs : List Int) (hR : InRange c.Params idxs) :
    ∃ rnd, getRandomIndexes c rnd = some idxs :=
  ⟨fun k => (idxs.getD k 0).toNat, randomIndexesFrom_covers _ _ hR 0 _ (by
    intro k idx hk
    simp only [Nat.zero_add, List.getD_eq_getElem?_getD, hk, Option.getD_some])⟩

/-! ## The ensemble -/

theorem withDefaults_Params (c : Config) : (withDefaults c).Params = c.Params := by
  unfold withDefaults setParamLens
  simp only
  split_ifs <;> rfl

theorem withDefaults_Model (c : Config) : (withDefaults c).Model = c.Model := by
  unfold withDefaults setParamLens
  simp only
  split_ifs <;> rfl

theorem withDefaults_paramLens (c : Config) :
    (withDefaults c).paramLens =
      (withDefaults c).Params.map fun vals => (vals.length : Int) := by
  unfold withDefaults setParamLens
  simp only
  split_ifs <;> rfl

theorem withDefaults_NumTests (c : Config) :
    (withDefaults c).NumTests = if c.NumTests ≤ 0 then DEFAULT_NUM_TESTS else c.NumTests := by
  unfold withDefaults setParamLens
  simp only
  split_ifs <;> rfl

theorem withDefaults_MaxIteration (c : Config) :
    (withDefaults c).MaxIteration =
      if c.MaxIteration ≤ 0 then DEFAULT_MAX_MODEL_ITERATION else c.MaxIteration := by
  unfold withDefaults setParamLens
  simp only
  split_ifs <;> rfl

theorem withDefaults_NumTests_pos (c : Config) : 1 ≤ (withDefaults c).NumTests.toNat := by
  rw [withDefaults_NumTests]
  unfold DEFAULT_NUM_TESTS
  split_ifs <;> omega

theorem collect_map (f : Nat → Option Trial) :
    ∀ (l : List Nat), (∀ k ∈ l, ∃ t, f k = some t) →
      ∃ ts, collect (l.map f) = some ts ∧ List.Forall₂ (fun k t => f k = some t) l ts := by
  intro l
  induction l with
  | nil => intro _; exact ⟨[], rfl, List.Forall₂.nil⟩
  | cons a l ih =>
    intro h
    obtain ⟨t, ht⟩ := h a (List.mem_cons_self _ _)
    obtain ⟨ts, hts, hall⟩ := ih (fun k hk => h k (List.mem_cons_of_mem _ hk))
    exact ⟨t :: ts, by simp only [List.map_cons, ht, collect, hts], List.Forall₂.cons ht hall⟩

/-- The ensemble of a config without an empty dimension: every trial returns. -/
theorem runTrials_eq (c : Config) (hne : ∀ p ∈ c.Params, p ≠ []) (minimize : Bool)
    (rnds : Nat → Nat → Nat) :
    ∃ ts, runTrials c minimize rnds = some ts ∧
      List.Forall₂ (fun k t => solveOne (withDefaults c) minimize (rnds k) = some t)
        (List.range (withDefaults c).NumTests.toNat) ts := by
  unfold runTrials
  apply collect_map
  intro k _
  have hne' : ∀ p ∈ (withDefaults c).Params, p ≠ [] := by
    rw [withDefaults_Params]; exact hne
  obtain ⟨_, _, _, _, _, _, _, _, _, _, _, h⟩ :=
    solveOne_eq (withDefaults c) (withDefaults_paramLens c) hne' minimize (rnds k)
  exact ⟨_, h⟩

theorem Minimize_eq (c : Config) (hne : ∀ p ∈ c.Params, p ≠ []) (rnds : Nat → Nat → Nat) :
    ∃ ts, List.Forall₂ (fun k t => solveOne (withDefaults c) true (rnds k) = some t)
        (List.range (withDefaults c).NumTests.toNat) ts ∧
      Minimize c rnds =
        some ((minScan (ts.map fun t => ⟨F64.fin t.soln, t.vals⟩)).soln,
          (minScan (ts.map fun t => ⟨F64.fin t.soln, t.vals⟩)).vals) := by
  obtain ⟨ts, hts, hall⟩ := runTrials_eq c hne true rnds
  exact ⟨ts, hall, by simp only [Minimize, solveN, hts]⟩

theorem Maximize_eq (c : Config) (hne : ∀ p ∈ c.Params, p ≠ []) (rnds : Nat → Nat → Nat) :
    ∃ ts, List.Forall₂ (fun k t => solveOne (withDefaults c) false (rnds k) = some t)
        (List.range (withDefaults c).NumTests.toNat) ts ∧
      Maximize c rnds =
        some ((maxScan (ts.map fun t => ⟨F64.fin t.soln, t.vals⟩)).soln,
          (maxScan (ts.map fun t => ⟨F64.fin t.soln, t.vals⟩)).vals) := by
  obtain ⟨ts, hts, hall⟩ := runTrials_eq c hne false rnds
  exact ⟨ts, hall, by simp only [Maximize, solveN, hts]⟩

/-! ## Index safety (C2) -/

/-- C2: in a config with cached lengths and no empty dimension, from an in-range
index vector every lookup of followGradient succeeds: the neighbour indexes of
every dimension, the composed candidate and the returned vector are in range, a
dimension of length 1 keeps its index, and solveOne returns one value per
dimension, each taken from that dimension's list. -/
theorem C2_indexes_stay_in_range (c : Config)
    (hL : c.paramLens = c.Params.map fun vals => (vals.length : Int))
    (hne : ∀ p ∈ c.Params, p ≠ []) (idxs : List Int) (hR : InRange c.Params idxs)
    (currentSoln : ℚ) (minimize : Bool) (count : Int) (rnd : Nat → Nat) :
    (∀ (i : Nat) (prm : List ℚ) (idx : Int), c.Params[i]? = some prm → idxs[i]? = some idx →
      ∃ p, probe c idxs currentSoln i idx = some p ∧
        InRange c.Params (idxs.set i p.upIdx) ∧ InRange c.Params (idxs.set i p.downIdx)) ∧
    (∃ r, round c idxs currentSoln minimize = some r ∧ InRange c.Params r.nextIdxs) ∧
    (∃ w, followGradient c idxs currentSoln minimize count = some w ∧
      InRange c.Params w.idxs ∧
      ∀ (i : Nat) (prm : List ℚ), c.Params[i]? = some prm → prm.length = 1 →
        w.idxs[i]? = idxs[i]?) ∧
    (∃ t, solveOne c minimize rnd = some t ∧
      List.Forall₂ (fun (param : List ℚ) (v : ℚ) => v ∈ param) c.Params t.vals) := by
  refine ⟨?_, ?_, ?_, ?_⟩
  · intro i prm idx hp hi
    obtain ⟨p, hpr, _, _, hup, hdown, _⟩ :=
      probe_spec c hL idxs hR currentSoln minimize i prm hp idx hi
    exact ⟨p, hpr, inRange_set _ _ hR i prm _ hp hup.1 hup.2,
      inRange_set _ _ hR i prm _ hp hdown.1 hdown.2⟩
  · obtain ⟨hnr, nv, _, hround⟩ := round_eq c hL idxs hR currentSoln minimize
    exact ⟨_, hround, hnr⟩
  · rw [followGradient_eq_walkN c minimize _ idxs currentSoln count rfl]
    exact walkN_inRange c hL minimize _ idxs currentSoln hR
  · obtain ⟨_, _, _, _, _, _, _, _, _, _, hmem, h⟩ := solveOne_eq c hL hne minimize rnd
    exact ⟨_, h, hmem⟩

/-- Witness for C2: the paraboloid example from the start (0, 12, 3). -/
theorem C2_indexes_stay_in_range_witness :
    (∃ w, followGradient (setParamLens parabolicConfig) [0, 12, 3] 0 true 0 = some w ∧
      InRange parabolicConfig.Params w.idxs) ∧
    ∃ t, solveOne (setParamLens parabolicConfig) true (fun i => 5 * i) = some t ∧
      List.Forall₂ (fun (param : List ℚ) (v : ℚ) => v ∈ param) parabolicConfig.Params t.vals :=
  have h := C2_indexes_stay_in_range (setParamLens parabolicConfig) rfl
    (by decide) [0, 12, 3]
    (List.Forall₂.cons (by decide) (List.Forall₂.cons (by decide)
      (List.Forall₂.cons (by decide) List.Forall₂.nil))) 0 true 0 (fun i => 5 * i)
  ⟨⟨h.2.2.1.choose, h.2.2.1.choose_spec.1, h.2.2.1.choose_spec.2.1⟩, h.2.2.2⟩

theorem solveOne_eq_solveOneN (c : Config) (minimize : Bool) (rnd : Nat → Nat) :
    solveOne c minimize rnd = solveOneN c minimize rnd := by
  simp only [solveOne, solveOneN,
    followGradient_eq_walkN c minimize (c.MaxIteration + 1).toNat _ _ 0 (by simp)]

/-! ## Cost (C3) -/

/-- The claim of C3 fails: on a one-dimensional grid of three points with a flat
objective and an iteration cap of 1, the trial that starts in the middle makes
five calls of the model (start, two neighbours, candidate, result), more than
1 × 1 × 2 + 2 = 4; and on the two-by-two grid of ties with cap 1 the trial from
(0, 0) runs two rounds and makes eight calls, more than 1 × 2 × 2 + 2 = 6 and
more than 1 × (2 × 2 + 1) + 2 = 7. -/
theorem C3_counterexample :
    (∃ t, solveOne flatConfig true (fun _ => 1) = some t ∧ t.evals = 5 ∧
      ¬ t.evals ≤ flatConfig.MaxIteration.toNat * flatConfig.Params.length * 2 + 2) ∧
    ∃ t, solveOne cycleConfig true (fun _ => 0) = some t ∧ t.rounds = 2 ∧ t.evals = 8 ∧
      ¬ t.evals ≤ cycleConfig.MaxIteration.toNat * cycleConfig.Params.length * 2 + 2 ∧
      ¬ t.evals ≤ cycleConfig.MaxIteration.toNat * (2 * cycleConfig.Params.length + 1) + 2 := by
  rw [solveOne_eq_solveOneN, solveOne_eq_solveOneN]
  exact ⟨⟨⟨0, [1], [1], Exit.converged, 1, 5⟩, by decide!, rfl, by decide⟩,
    ⟨⟨1, [0, 0], [0, 0], Exit.cap, 2, 8⟩, by decide!, rfl, rfl, by decide, by decide⟩⟩

/-- C3 (amended): a trial that returns after R neighbour-search rounds has made
at most R × (2 D + 1) + 2 calls of the model, D being the number of
dimensions: two per dimension and one for the candidate in each round, plus
the start and the result; R is at most MaxIteration + 1, so the calls are at
most (MaxIteration + 1) × (2 D + 1) + 2; and with cached lengths and no empty
dimension the trial does return. -/
theorem C3_evaluations_bounded (c : Config) (minimize : Bool) (rnd : Nat → Nat) :
    (∀ t, solveOne c minimize rnd = some t →
      t.evals ≤ t.rounds * (2 * c.Params.length + 1) + 2 ∧
        t.rounds ≤ (c.MaxIteration + 1).toNat ∧
        t.evals ≤ (c.MaxIteration + 1).toNat * (2 * c.Params.length + 1) + 2) ∧
    ((c.paramLens = c.Params.map fun vals => (vals.length : Int)) →
      (∀ p ∈ c.Params, p ≠ []) → ∃ t, solveOne c minimize rnd = some t) := by
  constructor
  · intro t ht
    obtain ⟨idxs, vals, w, bv, h1, _, h3, _, rfl⟩ := solveOne_some c minimize rnd t ht
    obtain ⟨hr, he, _, _⟩ := walkN_bounds c minimize _ idxs _ w h3
    rw [randomIndexesFrom_length rnd c.Params 0 idxs h1] at he
    simp only
    have : w.rounds * (2 * c.Params.length + 1) ≤
        (c.MaxIteration + 1).toNat * (2 * c.Params.length + 1) :=
      Nat.mul_le_mul_right _ hr
    exact ⟨by omega, hr, by omega⟩
  · intro hL hne
    obtain ⟨_, _, _, _, _, _, _, _, _, _, _, h⟩ := solveOne_eq c hL hne minimize rnd
    exact ⟨_, h⟩

/-- Witness for C3: the flat one-dimensional config. -/
theorem C3_evaluations_bounded_witness :
    ∃ t, solveOne flatConfig true (fun _ => 1) = some t ∧
      t.evals ≤ t.rounds * (2 * flatConfig.Params.length + 1) + 2 :=
  have h := C3_evaluations_bounded flatConfig true (fun _ => 1)
  ⟨(h.2 rfl (by decide)).choose, (h.2 rfl (by decide)).choose_spec,
    (h.1 _ (h.2 rfl (by decide)).choose_spec).1⟩

/-! ## The convergence exit (C5, C6) -/

theorem round_nextSoln (c : Config) (idxs : List Int) (cur : ℚ) (minimize : Bool) (r : Round)
    (h : round c idxs cur minimize = some r) :
    ∃ nextVals, valsFromIndexes c r.nextIdxs = some nextVals ∧ r.nextSoln = c.Model nextVals := by
  unfold round at h
  cases hl : loop c idxs cur minimize 0 idxs ⟨idxs, false, 0⟩ with
  | none => simp [hl] at h
  | some s =>
    simp only [hl] at h
    cases hv : valsFromIndexes c s.nextIdxs with
    | none => simp [hv] at h
    | some nv =>
      simp only [hv, Option.some.injEq] at h
      subst h
      exact ⟨nv, hv, rfl⟩

/-- A walk that ends by the convergence exit ends with a round, run at the
returned vector and its objective value, whose exit test holds. -/
theorem walkN_exit_round (c : Config) (minimize : Bool) :
    ∀ (n : Nat) (idxs : List Int) (vals : List ℚ) (w : Walk),
      valsFromIndexes c idxs = some vals →
      walkN c minimize n idxs (c.Model vals) = some w → w.exit = Exit.converged →
      ∃ bestVals r, valsFromIndexes c w.idxs = some bestVals ∧
        round c w.idxs (c.Model bestVals) minimize = some r ∧
        stops r (c.Model bestVals) minimize = true := by
  intro n
  induction n with
  | zero =>
    intro idxs vals w _ h hex
    simp only [walkN, Option.some.injEq] at h
    subst h
    cases hex
  | succ n ih =>
    intro idxs vals w hv h hex
    simp only [walkN] at h
    cases hr : round c idxs (c.Model vals) minimize with
    | none => simp [hr] at h
    | some r =>
      simp only [hr] at h
      by_cases hs : stops r (c.Model vals) minimize = true
      · rw [if_pos hs] at h
        simp only [Option.some.injEq] at h
        subst h
        exact ⟨vals, r, hv, hr, hs⟩
      · rw [if_neg hs] at h
        obtain ⟨nv, hnv, hsoln⟩ := round_nextSoln c idxs _ minimize r hr
        rw [hsoln] at h
        cases hw : walkN c minimize n r.nextIdxs (c.Model nv) with
        | none => simp [hw] at h
        | some w' =>
          simp only [hw, Option.some.injEq] at h
          subst h
          exact ih r.nextIdxs nv w' hnv hw hex

theorem refNext_eq_self (c : Config) (idxs : List Int) (cur : ℚ) (minimize : Bool) (i : Nat)
    (idx : Int) (h : refNext c idxs cur minimize i idx = idx) :
    moveBeats c minimize idxs cur i (idx + 1) = false ∧
      moveBeats c minimize idxs cur i (idx - 1) = false := by
  unfold refNext at h
  split_ifs at h with h1 h2
  · omega
  · omega
  · exact ⟨by simpa using h1, by simpa using h2⟩

/-- A round that changes no dimension was run at a converged point. -/
theorem converged_of_no_update (c : Config)
    (hL : c.paramLens = c.Params.map fun vals => (vals.length : Int))
    (idxs : List Int) (hR : InRange c.Params idxs) (vals : List ℚ)
    (hv : valsFromIndexes c idxs = some vals) (minimize : Bool)
    (hfix : nextFrom c idxs (c.Model vals) minimize 0 idxs = idxs) :
    converged c minimize idxs = true := by
  unfold converged
  rw [List.all_eq_true]
  intro i hi
  have hlt : i < idxs.length := List.mem_range.1 hi
  have hlt' : i < c.Params.length := by rw [← inRange_length _ _ hR]; exact hlt
  obtain ⟨idx, hidx, _, _⟩ := inRange_getElem? _ _ hR i _ (List.getElem?_eq_getElem hlt')
  have hnext : nextAt c idxs (c.Model vals) minimize i idx = idx := by
    have h1 := nextFrom_getElem? c idxs (c.Model vals) minimize idxs 0 i
    rw [hfix, hidx] at h1
    simp only [Nat.zero_add, Option.some.injEq] at h1
    exact h1.symm
  rw [(nextAt_spec c hL idxs hR (c.Model vals) minimize i _
    (List.getElem?_eq_getElem hlt') idx hidx).2.1] at hnext
  obtain ⟨hup, hdown⟩ := refNext_eq_self c idxs _ minimize i idx hnext
  have hobj : objAt c idxs = some (c.Model vals) := by simp [objAt, hv]
  simp only [moveImproves, hidx, hobj, hup, Bool.not_false, Bool.and_true, Bool.true_and,
    Bool.not_eq_true']
  exact hdown

/-- The claim of C5 fails: on the saddle grid the walk from (0, 0) leaves by the
convergence exit at (0, 0), because the composed candidate (1, 1) is worse,
although each single move improves the objective. -/
theorem C5_counterexample :
    followGradient saddleConfig [0, 0] 1 true 0 = some ⟨[0, 0], Exit.converged, 1, 3⟩ ∧
      objAt saddleConfig [0, 0] = some 1 ∧ converged saddleConfig true [0, 0] = false := by
  rw [followGradient_eq_walkN saddleConfig true 101 [0, 0] 1 0 (by decide)]
  decide!

/-- C5 (amended): when a walk from an in-range vector, started with the
objective value of that vector, leaves by the convergence exit, then either no
move of a single dimension to an adjacent grid index strictly improves the
objective at the returned point, or the round at the returned point changed
some dimension and its composed candidate is strictly worse than the
returned point. -/
theorem C5_convergence_exit (c : Config)
    (hL : c.paramLens = c.Params.map fun vals => (vals.length : Int))
    (idxs : List Int) (hR : InRange c.Params idxs) (vals : List ℚ)
    (hv : valsFromIndexes c idxs = some vals) (minimize : Bool) (count : Int) (w : Walk)
    (hw : followGradient c idxs (c.Model vals) minimize count = some w)
    (hexit : w.exit = Exit.converged) :
    converged c minimize w.idxs = true ∨
      ∃ bestVals r, valsFromIndexes c w.idxs = some bestVals ∧
        round c w.idxs (c.Model bestVals) minimize = some r ∧ r.didUpdate = true ∧
        better minimize (c.Model bestVals) r.nextSoln = true := by
  rw [followGradient_eq_walkN c minimize _ idxs _ count rfl] at hw
  obtain ⟨bv, r, hbv, hr, hs⟩ := walkN_exit_round c minimize _ idxs vals w hv hw hexit
  obtain ⟨w', hw', hwR, _⟩ := walkN_inRange c hL minimize
    (c.MaxIteration + 1 - count).toNat idxs (c.Model vals) hR
  rw [hw] at hw'
  cases Option.some.inj hw'
  obtain ⟨_, nv, _, hround⟩ := round_eq c hL w.idxs hwR (c.Model bv) minimize
  rw [hr] at hround
  cases hd : r.didUpdate with
  | false =>
    left
    apply converged_of_no_update c hL w.idxs hwR bv hbv minimize
    have := Option.some.inj hround
    rw [this] at hd
    simpa using hd
  | true =>
    right
    refine ⟨bv, r, hbv, hr, hd, ?_⟩
    unfold stops at hs
    rw [hd] at hs
    cases minimize <;> simpa [better] using hs

/-- Witness for C5: the paraboloid example, whose walk from (0, 12, 3) ends at (6, 6, 6). -/
theorem C5_convergence_exit_witness :
    converged (withDefaults parabolicConfig) true [6, 6, 6] = true ∨
      ∃ bestVals r, valsFromIndexes (withDefaults parabolicConfig) [6, 6, 6] = some bestVals ∧
        round (withDefaults parabolicConfig) [6, 6, 6]
          ((withDefaults parabolicConfig).Model bestVals) true = some r ∧
        r.didUpdate = true ∧
        better true ((withDefaults parabolicConfig).Model bestVals) r.nextSoln = true :=
  C5_convergence_exit (withDefaults parabolicConfig) (withDefaults_paramLens _) [0, 12, 3]
    (List.Forall₂.cons (by decide) (List.Forall₂.cons (by decide)
      (List.Forall₂.cons (by decide) List.Forall₂.nil)))
    [-3, 3, -3 / 2] (by decide!) true 0 ⟨[6, 6, 6], Exit.converged, 7, 47⟩
    (by rw [followGradient_eq_walkN (withDefaults parabolicConfig) true 101 _ _ 0 (by decide)]
        decide!)
    rfl

/-- C6: if followGradient, started at count 0 with the objective value of its
start vector, returns v by the convergence exit, then started again at v with
the objective value of v and count 0 it returns v, again by the convergence
exit and after a single round. -/
theorem C6_convergence_idempotent (c : Config) (idxs : List Int) (vals : List ℚ)
    (hv : valsFromIndexes c idxs = some vals) (minimize : Bool) (w : Walk)
    (hw : followGradient c idxs (c.Model vals) minimize 0 = some w)
    (hexit : w.exit = Exit.converged) :
    ∃ bestVals evals, valsFromIndexes c w.idxs = some bestVals ∧
      followGradient c w.idxs (c.Model bestVals) minimize 0 =
        some ⟨w.idxs, Exit.converged, 1, evals⟩ := by
  have hcap : ¬ (0 : Int) > c.MaxIteration := by
    intro hc
    rw [followGradient, if_pos hc] at hw
    cases Option.some.inj hw
    cases hexit
  rw [followGradient_eq_walkN c minimize _ idxs _ 0 rfl] at hw
  obtain ⟨bv, r, hbv, hr, hs⟩ := walkN_exit_round c minimize _ idxs vals w hv hw hexit
  refine ⟨bv, r.evals, hbv, ?_⟩
  obtain ⟨n, hn⟩ : ∃ n, (c.MaxIteration + 1 - 0).toNat = n + 1 :=
    ⟨(c.MaxIteration + 1 - 0).toNat - 1, by omega⟩
  rw [followGradient_eq_walkN c minimize _ w.idxs _ 0 hn]
  simp only [walkN, hr, hs, if_true]

/-- Witness for C6: the paraboloid example, whose walk from (0, 12, 3) ends at (6, 6, 6). -/
theorem C6_convergence_idempotent_witness :
    ∃ bestVals evals, valsFromIndexes (withDefaults parabolicConfig) [6, 6, 6] = some bestVals ∧
      followGradient (withDefaults parabolicConfig) [6, 6, 6]
        ((withDefaults parabolicConfig).Model bestVals) true 0 =
        some ⟨[6, 6, 6], Exit.converged, 1, evals⟩ :=
  C6_convergence_idempotent (withDefaults parabolicConfig) [0, 12, 3]
    [-3, 3, -3 / 2] (by decide!) true ⟨[6, 6, 6], Exit.converged, 7, 47⟩
    (by rw [followGradient_eq_walkN (withDefaults parabolicConfig) true 101 _ _ 0 (by decide)]
        decide!)
    rfl

/-! ## Order of the ensemble (C7) -/

theorem minStep_comm (z x y : F64) :
    (if F64.lt y (if F64.lt x z then x else z) then y else (if F64.lt x z then x else z)) =
      (if F64.lt x (if F64.lt y z then y else z) then x else (if F64.lt y z then y else z)) := by
  cases z <;> cases x <;> cases y <;> split_ifs <;>
    simp only [F64.lt, decide_eq_true_eq, Bool.false_eq_true, not_true_eq_false,
      not_false_eq_true] at * <;>
    first | rfl | (exfalso; linarith) | (congr 1; linarith)

theorem maxStep_comm (z x y : F64) :
    (if F64.lt (if F64.lt z x then x else z) y then y else (if F64.lt z x then x else z)) =
      (if F64.lt (if F64.lt z y then y else z) x then x else (if F64.lt z y then y else z)) := by
  cases z <;> cases x <;> cases y <;> split_ifs <;>
    simp only [F64.lt, decide_eq_true_eq, Bool.false_eq_true, not_true_eq_false,
      not_false_eq_true] at * <;>
    first | rfl | (exfalso; linarith) | (congr 1; linarith)

theorem minScan_soln (l : List solution) :
    ∀ b : solution,
      (l.foldl (fun bestSoln s => if F64.lt s.soln bestSoln.soln then s else bestSoln) b).soln =
        (l.map fun s => s.soln).foldl (fun best x => if F64.lt x best then x else best) b.soln := by
  induction l with
  | nil => intro b; rfl
  | cons a t ih =>
    intro b
    simp only [List.foldl_cons, List.map_cons]
    rw [ih]
    congr 1
    split_ifs <;> rfl

theorem maxScan_soln (l : List solution) :
    ∀ b : solution,
      (l.foldl (fun bestSoln s => if F64.lt bestSoln.soln s.soln then s else bestSoln) b).soln =
        (l.map fun s => s.soln).foldl (fun best x => if F64.lt best x then x else best) b.soln := by
  induction l with
  | nil => intro b; rfl
  | cons a t ih =>
    intro b
    simp only [List.foldl_cons, List.map_cons]
    rw [ih]
    congr 1
    split_ifs <;> rfl

/-- The best scalar of the loop of Minimize does not depend on the order. -/
theorem minScan_soln_perm (l l' : List solution) (hp : l.Perm l') :
    (minScan l').soln = (minScan l).soln := by
  unfold minScan
  rw [minScan_soln, minScan_soln]
  exact ((hp.map _).foldl_eq' (fun x _ y _ z => minStep_comm z x y) _).symm

/-- The best scalar of the loop of Maximize does not depend on the order. -/
theorem maxScan_soln_perm (l l' : List solution) (hp : l.Perm l') :
    (maxScan l').soln = (maxScan l).soln := by
  unfold maxScan
  rw [maxScan_soln, maxScan_soln]
  exact ((hp.map _).foldl_eq' (fun x _ y _ z => maxStep_comm z x y) _).symm

/-- The claim of C7 fails: two trials with the same scalar 1 and the vectors
(-1) and (1), aggregated in the two possible orders, give different vectors,
both when minimizing and when maximizing. -/
theorem C7_counterexample :
    List.Perm [(⟨F64.fin 1, [-1]⟩ : solution), ⟨F64.fin 1, [1]⟩]
        [⟨F64.fin 1, [1]⟩, ⟨F64.fin 1, [-1]⟩] ∧
      (minScan [⟨F64.fin 1, [-1]⟩, ⟨F64.fin 1, [1]⟩]).vals = [-1] ∧
      (minScan [⟨F64.fin 1, [1]⟩, ⟨F64.fin 1, [-1]⟩]).vals = [1] ∧
      (maxScan [⟨F64.fin 1, [-1]⟩, ⟨F64.fin 1, [1]⟩]).vals = [-1] ∧
      (maxScan [⟨F64.fin 1, [1]⟩, ⟨F64.fin 1, [-1]⟩]).vals = [1] :=
  ⟨List.Perm.swap _ _ _, by decide!, by decide!, by decide!, by decide!⟩

/-- C7 (amended): for every ensemble and every permutation of it, the loops of
Minimize and Maximize select the same best scalar; they select the same value
vector whenever all trial results that carry the best scalar carry the same
value vector (among different vectors with the best scalar the earliest in the
list is selected). -/
theorem C7_aggregation_order (l l' : List solution) (hp : l.Perm l') :
    ((minScan l').soln = (minScan l).soln ∧
      ((∀ s ∈ l, ∀ t ∈ l, s.soln = (minScan l).soln → t.soln = (minScan l).soln →
          s.vals = t.vals) →
        (minScan l').vals = (minScan l).vals)) ∧
    ((maxScan l').soln = (maxScan l).soln ∧
      ((∀ s ∈ l, ∀ t ∈ l, s.soln = (maxScan l).soln → t.soln = (maxScan l).soln →
          s.vals = t.vals) →
        (maxScan l').vals = (maxScan l).vals)) := by
  have hmin := minScan_soln_perm l l' hp
  have hmax := maxScan_soln_perm l l' hp
  refine ⟨⟨hmin, fun hsame => ?_⟩, ⟨hmax, fun hsame => ?_⟩⟩
  · rcases minScan_spec l with ⟨hr, _⟩ | ⟨k, hk, hlt, _, _⟩ <;>
      rcases minScan_spec l' with ⟨hr', _⟩ | ⟨k', hk', hlt', _, _⟩
    · rw [hr, hr']
    · rw [hmin, hr] at hlt'; cases hlt'
    · rw [← hmin, hr'] at hlt; cases hlt
    · exact hsame _ (hp.mem_iff.2 (List.getElem?_mem hk')) _ (List.getElem?_mem hk) hmin rfl
  · rcases maxScan_spec l with ⟨hr, _⟩ | ⟨k, hk, hlt, _, _⟩ <;>
      rcases maxScan_spec l' with ⟨hr', _⟩ | ⟨k', hk', hlt', _, _⟩
    · rw [hr, hr']
    · rw [hmax, hr] at hlt'; cases hlt'
    · rw [← hmax, hr'] at hlt; cases hlt
    · exact hsame _ (hp.mem_iff.2 (List.getElem?_mem hk')) _ (List.getElem?_mem hk) hmax rfl

/-- Witness for C7: two results in both orders. -/
theorem C7_aggregation_order_witness :
    (minScan [⟨F64.fin 2, [0]⟩, ⟨F64.fin 1, [1]⟩]).soln =
        (minScan [⟨F64.fin 1, [1]⟩, ⟨F64.fin 2, [0]⟩]).soln ∧
      (maxScan [⟨F64.fin 2, [0]⟩, ⟨F64.fin 1, [1]⟩]).soln =
        (maxScan [⟨F64.fin 1, [1]⟩, ⟨F64.fin 2, [0]⟩]).soln :=
  ⟨(C7_aggregation_order [⟨F64.fin 1, [1]⟩, ⟨F64.fin 2, [0]⟩]
      [⟨F64.fin 2, [0]⟩, ⟨F64.fin 1, [1]⟩] (List.Perm.swap _ _ _)).1.1,
    (C7_aggregation_order [⟨F64.fin 1, [1]⟩, ⟨F64.fin 2, [0]⟩]
      [⟨F64.fin 2, [0]⟩, ⟨F64.fin 1, [1]⟩] (List.Perm.swap _ _ _)).2.1⟩

/-! ## Separable objectives -/

theorem lookupAll_getElem? :
    ∀ (params : List (List ℚ)) (idxs : List Int) (vals : List ℚ),
      lookupAll params idxs = some vals →
      ∀ (i : Nat) (prm : List ℚ) (idx : Int), params[i]? = some prm → idxs[i]? = some idx →
        vals[i]? = at? prm idx := by
  intro params
  induction params with
  | nil => intro idxs vals _ i prm idx hp; simp at hp
  | cons p ps ih =>
    intro idxs vals h i prm idx hp hi
    cases idxs with
    | nil => simp at hi
    | cons a is =>
      simp only [lookupAll] at h
      cases h1 : at? p a with
      | none => simp [h1] at h
      | some v =>
        cases h2 : lookupAll ps is with
        | none => simp [h1, h2] at h
        | some vs =>
          simp [h1, h2] at h
          subst h
          cases i with
          | zero =>
            simp at hp hi
            subst hp; subst hi
            simp [h1]
          | succ i =>
            simp at hp hi
            simpa using ih is vs h2 i prm idx hp hi

theorem sum_map_set (g : ℚ → ℚ) :
    ∀ (vals : List ℚ) (i : Nat) (x v : ℚ), vals[i]? = some x →
      ((vals.set i v).map g).sum = (vals.map g).sum - g x + g v := by
  intro vals
  induction vals with
  | nil => intro i x v h; simp at h
  | cons a t ih =>
    intro i x v h
    cases i with
    | zero =>
      simp at h; subst h
      simp only [List.set_cons_zero, List.map_cons, List.sum_cons]
      ring
    | succ i =>
      simp at h
      simp only [List.set_cons_succ, List.map_cons, List.sum_cons, ih i x v h]
      ring

theorem better_shift (minimize : Bool) (s a b : ℚ) :
    better minimize (s - a + b) s = better minimize b a := by
  cases minimize <;> simp only [better, Bool.false_eq_true, if_true, if_false] <;>
    rw [decide_eq_decide] <;> constructor <;> intro h <;> linarith

/-- For a separable objective the decision of a dimension looks at that
dimension alone. -/
theorem sep_nextAt (c : Config)
    (hL : c.paramLens = c.Params.map fun vals => (vals.length : Int)) (g : ℚ → ℚ)
    (hsep : ∀ v : List ℚ, v.length = c.Params.length → c.Model v = (v.map g).sum)
    (idxs : List Int) (hR : InRange c.Params idxs) (vals : List ℚ)
    (hv : valsFromIndexes c idxs = some vals) (minimize : Bool) (i : Nat)
    (prm : List ℚ) (hp : c.Params[i]? = some prm) (idx : Int) (hi : idxs[i]? = some idx) :
    nextAt c idxs (c.Model vals) minimize i idx = step1 minimize g prm idx := by
  rw [(nextAt_spec c hL idxs hR (c.Model vals) minimize i prm hp idx hi).2.1]
  have hvi := lookupAll_getElem? c.Params idxs vals hv i prm idx hp hi
  obtain ⟨idx', hi', h0, h1⟩ := inRange_getElem? _ _ hR i prm hp
  rw [hi] at hi'; cases hi'
  obtain ⟨x, hx, _⟩ := at?_isSome prm idx h0 h1
  rw [hx] at hvi
  have hlen := lookupAll_length c.Params idxs vals hv
  have hmb : ∀ j, moveBeats c minimize idxs (c.Model vals) i j = beats1 minimize g prm x j := by
    intro j
    rw [moveBeats_eq c minimize idxs vals hv _ i prm hp j]
    unfold beats1
    cases at? prm j with
    | none => rfl
    | some y =>
      simp only
      rw [hsep _ (by rw [List.length_set]; exact hlen), hsep _ hlen,
        sum_map_set g vals i x y hvi, better_shift]
  unfold refNext step1
  rw [hx, hmb, hmb]

theorem better_irrefl (minimize : Bool) (a : ℚ) : better minimize a a = false := by
  cases minimize <;> simp [better]

theorem better_trans (minimize : Bool) (a b c : ℚ) (h1 : better minimize a b = true)
    (h2 : better minimize b c = true) : better minimize a c = true := by
  cases minimize <;> simp only [better, Bool.false_eq_true, if_true, if_false,
    decide_eq_true_eq] at * <;> linarith

theorem better_add (minimize : Bool) (a b s t : ℚ) (h1 : better minimize a b = false)
    (h2 : better minimize s t = false) : better minimize (a + s) (b + t) = false := by
  cases minimize <;> simp only [better, Bool.false_eq_true, if_true, if_false,
    decide_eq_false_iff_not] at * <;> linarith

theorem better_asymm (minimize : Bool) (a b : ℚ) (h : better minimize a b = true) :
    better minimize b a = false := by
  cases minimize <;> simp only [better, Bool.false_eq_true, if_true, if_false,
    decide_eq_true_eq, decide_eq_false_iff_not] at * <;> linarith

/-- What a move of one dimension does: it stays, or it reaches a grid value
with a strictly better summand. -/
theorem step1_spec (minimize : Bool) (g : ℚ → ℚ) (prm : List ℚ) (idx : Int) (x : ℚ)
    (hx : at? prm idx = some x) :
    step1 minimize g prm idx = idx ∨
      ∃ y, at? prm (step1 minimize g prm idx) = some y ∧ better minimize (g y) (g x) = true := by
  unfold step1
  rw [hx]
  simp only
  split_ifs with h1 h2
  · right
    unfold beats1 at h1
    cases hu : at? prm (idx + 1) with
    | none => simp [hu] at h1
    | some u => exact ⟨u, rfl, by simpa [hu] using h1⟩
  · right
    unfold beats1 at h2
    cases hd : at? prm (idx - 1) with
    | none => simp [hd] at h2
    | some d => exact ⟨d, rfl, by simpa [hd] using h2⟩
  · left; rfl

theorem step1_inRange (minimize : Bool) (g : ℚ → ℚ) (prm : List ℚ) (idx : Int)
    (h0 : 0 ≤ idx) (h1 : idx < prm.length) :
    0 ≤ step1 minimize g prm idx ∧ step1 minimize g prm idx < prm.length := by
  obtain ⟨x, hx, _⟩ := at?_isSome prm idx h0 h1
  rcases step1_spec minimize g prm idx x hx with h | ⟨y, hy, _⟩
  · rw [h]; exact ⟨h0, h1⟩
  · exact at?_range prm _ y hy

theorem countP_lt_of_imp (p q : ℚ → Bool) :
    ∀ (l : List ℚ), (∀ y ∈ l, p y = true → q y = true) →
      (∃ y ∈ l, q y = true ∧ p y = false) → l.countP p < l.countP q := by
  intro l
  induction l with
  | nil => intro _ h; obtain ⟨y, hy, _⟩ := h; simp at hy
  | cons a t ih =>
    intro himp hex
    have hle : t.countP p ≤ t.countP q :=
      List.countP_mono_left fun y hy => himp y (List.mem_cons_of_mem _ hy)
    rw [List.countP_cons, List.countP_cons]
    obtain ⟨y, hy, hq, hp⟩ := hex
    rcases List.mem_cons.1 hy with rfl | hyt
    · simp only [hq, hp, if_true, Bool.false_eq_true, if_false]
      omega
    · have := ih (fun y hy => himp y (List.mem_cons_of_mem _ hy)) ⟨y, hyt, hq, hp⟩
      have ha := himp a (List.mem_cons_self _ _)
      cases hpa : p a <;> cases hqa : q a
      · simp only [Bool.false_eq_true, if_false]; omega
      · simp only [Bool.false_eq_true, if_false, if_true]; omega
      · rw [hpa, hqa] at ha; exact absurd (ha rfl) (by simp)
      · simp only [if_true]; omega

theorem rank1_lt_length (minimize : Bool) (g : ℚ → ℚ) (prm : List ℚ) (idx : Int)
    (h0 : 0 ≤ idx) (h1 : idx < prm.length) : rank1 minimize g prm idx + 1 ≤ prm.length := by
  obtain ⟨x, hx, hmem⟩ := at?_isSome prm idx h0 h1
  unfold rank1
  rw [hx]
  have := countP_lt_of_imp (fun y => better minimize (g y) (g x)) (fun _ => true) prm
    (fun _ _ _ => rfl) ⟨x, hmem, rfl, better_irrefl minimize (g x)⟩
  have hall : prm.countP (fun _ => true) = prm.length := by
    rw [List.countP_eq_length]; intro _ _; rfl
  simp only at this ⊢
  omega

/-- A move strictly lowers the number of better grid values. -/
theorem rank1_step1_lt (minimize : Bool) (g : ℚ → ℚ) (prm : List ℚ) (idx : Int)
    (h0 : 0 ≤ idx) (h1 : idx < prm.length) (hmove : step1 minimize g prm idx ≠ idx) :
    rank1 minimize g prm (step1 minimize g prm idx) < rank1 minimize g prm idx := by
  obtain ⟨x, hx, _⟩ := at?_isSome prm idx h0 h1
  rcases step1_spec minimize g prm idx x hx with h | ⟨y, hy, hb⟩
  · exact absurd h hmove
  · unfold rank1
    rw [hy, hx]
    obtain ⟨hy0, hy1⟩ := at?_range prm _ y hy
    obtain ⟨y', hy', hmem⟩ := at?_isSome prm _ hy0 hy1
    rw [hy] at hy'; cases hy'
    exact countP_lt_of_imp _ _ prm
      (fun z _ hz => better_trans minimize _ _ _ hz hb)
      ⟨y, hmem, hb, better_irrefl minimize (g y)⟩

/-- For a separable objective the candidate of a round is the vector of the
moves of the single dimensions. -/
theorem sep_nextFrom (c : Config)
    (hL : c.paramLens = c.Params.map fun vals => (vals.length : Int)) (g : ℚ → ℚ)
    (hsep : ∀ v : List ℚ, v.length = c.Params.length → c.Model v = (v.map g).sum)
    (idxs : List Int) (hR : InRange c.Params idxs) (vals : List ℚ)
    (hv : valsFromIndexes c idxs = some vals) (minimize : Bool) :
    nextFrom c idxs (c.Model vals) minimize 0 idxs = stepAll minimize g c.Params idxs := by
  apply List.ext_getElem?
  intro k
  unfold stepAll
  rw [nextFrom_getElem?, List.getElem?_zipWith]
  have hlen := inRange_length _ _ hR
  by_cases hk : k < c.Params.length
  · obtain ⟨idx, hi, _, _⟩ := inRange_getElem? _ _ hR k _ (List.getElem?_eq_getElem hk)
    rw [hi, List.getElem?_eq_getElem hk]
    simp only [Nat.zero_add]
    rw [sep_nextAt c hL g hsep idxs hR vals hv minimize k _ (List.getElem?_eq_getElem hk) idx hi]
  · rw [List.getElem?_eq_none (by omega), List.getElem?_eq_none (by omega)]

theorem stepAll_getElem? (minimize : Bool) (g : ℚ → ℚ) (params : List (List ℚ))
    (idxs : List Int) (i : Nat) (prm : List ℚ) (idx : Int) (hp : params[i]? = some prm)
    (hi : idxs[i]? = some idx) :
    (stepAll minimize g params idxs)[i]? = some (step1 minimize g prm idx) := by
  unfold stepAll
  rw [List.getElem?_zipWith, hp, hi]

/-- The moves of the single dimensions never make a separable objective worse. -/
theorem sep_sum_not_worse (minimize : Bool) (g : ℚ → ℚ) :
    ∀ (params : List (List ℚ)) (idxs : List Int), InRange params idxs →
      ∀ (vals vals' : List ℚ), lookupAll params idxs = some vals →
        lookupAll params (stepAll minimize g params idxs) = some vals' →
        better minimize (vals.map g).sum (vals'.map g).sum = false := by
  intro params idxs h
  induction h with
  | nil =>
    intro vals vals' h1 h2
    simp only [lookupAll, Option.some.injEq] at h1 h2
    subst h1; subst h2
    exact better_irrefl minimize _
  | @cons p a ps is hhd _ ih =>
    intro vals vals' h1 h2
    simp only [stepAll, List.zipWith_cons_cons, lookupAll] at h1 h2
    cases hx : at? p a with
    | none => simp [hx] at h1
    | some x =>
      cases hvs : lookupAll ps is with
      | none => simp [hx, hvs] at h1
      | some vs =>
        simp only [hx, hvs, Option.some.injEq] at h1
        subst h1
        cases hy : at? p (step1 minimize g p a) with
        | none => simp [hy] at h2
        | some y =>
          cases hvs' : lookupAll ps (List.zipWith (step1 minimize g) ps is) with
          | none => simp [hy, hvs'] at h2
          | some vs' =>
            simp only [hy, hvs', Option.some.injEq] at h2
            subst h2
            simp only [List.map_cons, List.sum_cons]
            apply better_add
            · rcases step1_spec minimize g p a x hx with hs | ⟨y', hy', hb⟩
              · rw [hs, hx] at hy; cases hy
                exact better_irrefl minimize _
              · rw [hy] at hy'; cases hy'
                exact better_asymm minimize _ _ hb
            · exact ih vs vs' hvs hvs'

theorem stops_eq (r : Round) (cur : ℚ) (minimize : Bool) :
    stops r cur minimize = (!r.didUpdate || better minimize cur r.nextSoln) := by
  cases minimize <;> simp [stops, better]

/-- The walk on a separable objective.  If every dimension either rests or has
fewer better grid values than rounds are left, the walk returns a vector at
which every dimension rests; a property of single indexes that the moves
preserve holds at the end if it held at the start. -/
theorem sep_walk (c : Config)
    (hL : c.paramLens = c.Params.map fun vals => (vals.length : Int)) (g : ℚ → ℚ)
    (hsep : ∀ v : List ℚ, v.length = c.Params.length → c.Model v = (v.map g).sum)
    (minimize : Bool) (P : List ℚ → Int → Prop)
    (hP : ∀ prm ∈ c.Params, ∀ idx : Int, 0 ≤ idx → idx < prm.length → P prm idx →
      P prm (step1 minimize g prm idx)) :
    ∀ (n : Nat) (idxs : List Int) (vals : List ℚ), InRange c.Params idxs →
      valsFromIndexes c idxs = some vals →
      (∀ (i : Nat) (prm : List ℚ) (idx : Int), c.Params[i]? = some prm → idxs[i]? = some idx →
        P prm idx ∧ (step1 minimize g prm idx = idx ∨ rank1 minimize g prm idx + 1 ≤ n)) →
      ∃ w, walkN c minimize n idxs (c.Model vals) = some w ∧ InRange c.Params w.idxs ∧
        ∀ (i : Nat) (prm : List ℚ) (idx : Int), c.Params[i]? = some prm →
          w.idxs[i]? = some idx → P prm idx ∧ step1 minimize g prm idx = idx := by
  intro n
  induction n with
  | zero =>
    intro idxs vals hR _ hall
    refine ⟨_, rfl, hR, ?_⟩
    intro i prm idx hp hi
    obtain ⟨h1, h2⟩ := hall i prm idx hp hi
    exact ⟨h1, h2.resolve_right (by omega)⟩
  | succ n ih =>
    intro idxs vals hR hv hall
    obtain ⟨hnr, nv, hnv, hround⟩ := round_eq c hL idxs hR (c.Model vals) minimize
    rw [sep_nextFrom c hL g hsep idxs hR vals hv minimize] at hnr hnv hround
    simp only [walkN, hround, stops_eq]
    by_cases hfix : stepAll minimize g c.Params idxs = idxs
    · simp only [hfix, ne_eq, not_true_eq_false, decide_False, Bool.not_false, Bool.true_or,
        if_true]
      refine ⟨_, rfl, hR, ?_⟩
      intro i prm idx hp hi
      refine ⟨(hall i prm idx hp hi).1, ?_⟩
      have := stepAll_getElem? minimize g c.Params idxs i prm idx hp hi
      rw [hfix, hi] at this
      exact (Option.some.inj this).symm
    · have hnw : better minimize (c.Model vals) (c.Model nv) = false := by
        rw [hsep _ (lookupAll_length _ _ _ hv), hsep _ (lookupAll_length _ _ _ hnv)]
        exact sep_sum_not_worse minimize g _ _ hR vals nv hv hnv
      simp only [hfix, ne_eq, not_false_eq_true, decide_True, Bool.not_true, hnw, Bool.or_self,
        Bool.false_eq_true, if_false]
      obtain ⟨w, hw, hwR, hwall⟩ := ih (stepAll minimize g c.Params idxs) nv hnr hnv (by
        intro i prm idx' hp hi'
        obtain ⟨idx, hi, h0, h1⟩ := inRange_getElem? _ _ hR i prm hp
        have hs := stepAll_getElem? minimize g c.Params idxs i prm idx hp hi
        rw [hi'] at hs
        have hs' : idx' = step1 minimize g prm idx := Option.some.inj hs
        obtain ⟨hPi, hrest⟩ := hall i prm idx hp hi
        refine ⟨by rw [hs']; exact hP prm (List.getElem?_mem hp) idx h0 h1 hPi, ?_⟩
        by_cases hmove : step1 minimize g prm idx = idx
        · left; rw [hs', hmove, hmove]
        · right
          have h2 := rank1_step1_lt minimize g prm idx h0 h1 hmove
          have h3 := hrest.resolve_left hmove
          rw [hs']; omega)
      rw [hw]
      exact ⟨_, rfl, hwR, hwall⟩

/-- A trial on a separable objective whose dimensions are no longer than the
rounds the cap allows: it returns a grid point at which every dimension rests. -/
theorem sep_solveOne (c : Config)
    (hL : c.paramLens = c.Params.map fun vals => (vals.length : Int))
    (hne : ∀ p ∈ c.Params, p ≠ []) (g : ℚ → ℚ)
    (hsep : ∀ v : List ℚ, v.length = c.Params.length → c.Model v = (v.map g).sum)
    (hcap : ∀ p ∈ c.Params, (p.length : Int) ≤ c.MaxIteration + 1)
    (minimize : Bool) (rnd : Nat → Nat) (P : List ℚ → Int → Prop)
    (hP : ∀ prm ∈ c.Params, ∀ idx : Int, 0 ≤ idx → idx < prm.length → P prm idx →
      P prm (step1 minimize g prm idx)) :
    ∃ start t, getRandomIndexes c rnd = some start ∧ InRange c.Params start ∧
      solveOne c minimize rnd = some t ∧ InRange c.Params t.idxs ∧
      valsFromIndexes c t.idxs = some t.vals ∧ t.soln = (t.vals.map g).sum ∧
      ∀ (i : Nat) (prm : List ℚ) (idx : Int), c.Params[i]? = some prm → t.idxs[i]? = some idx →
        step1 minimize g prm idx = idx ∧
          ((∀ (j : Nat) (q : List ℚ) (s : Int), c.Params[j]? = some q → start[j]? = some s →
            P q s) → P prm idx) := by
  obtain ⟨idxs, vals, w, bv, h1, hR, hv, hw, hwR, hbv, _, hsolve⟩ :=
    solveOne_eq c hL hne minimize rnd
  refine ⟨idxs, _, h1, hR, hsolve, hwR, hbv, hsep _ (lookupAll_length _ _ _ hbv), ?_⟩
  intro i prm idx hp hi
  let Q : List ℚ → Int → Prop := fun q s =>
    (∀ (j : Nat) (q' : List ℚ) (s' : Int), c.Params[j]? = some q' → idxs[j]? = some s' →
      P q' s') → P q s
  have hQ : ∀ prm ∈ c.Params, ∀ idx : Int, 0 ≤ idx → idx < prm.length → Q prm idx →
      Q prm (step1 minimize g prm idx) :=
    fun prm hprm idx h0 h1 hq hstart => hP prm hprm idx h0 h1 (hq hstart)
  obtain ⟨w', hw', _, hall⟩ := sep_walk c hL g hsep minimize Q hQ
    (c.MaxIteration + 1).toNat idxs vals hR hv (by
    intro j q s hq hs
    refine ⟨fun hstart => hstart j q s hq hs, Or.inr ?_⟩
    obtain ⟨s', hs', h0, h1⟩ := inRange_getElem? _ _ hR j q hq
    rw [hs] at hs'; cases hs'
    have := rank1_lt_length minimize g q s h0 h1
    have := hcap q (List.getElem?_mem hq)
    omega)
  rw [hw] at hw'
  cases Option.some.inj hw'
  obtain ⟨hq, hfix⟩ := hall i prm idx hp hi
  exact ⟨hfix, hq⟩

/-! ## Local minima of separable objectives (C9) -/

theorem localMin1_of_step1 (g : ℚ → ℚ) (prm : List ℚ) (idx : Int)
    (h : step1 true g prm idx = idx) : LocalMin1 g prm idx := by
  intro x hx
  unfold step1 at h
  rw [hx] at h
  simp only at h
  split_ifs at h with h1 h2
  · omega
  · omega
  · constructor
    · intro u hu hlt
      apply h1
      simp [beats1, hu, better, hlt]
    · intro d hd hlt
      apply h2
      simp [beats1, hd, better, hlt]

theorem localMinModel_eq (vals : List ℚ) : localMinModel vals = (vals.map poly).sum := by
  have h : ∀ (l : List ℚ) (a : ℚ),
      l.foldl (fun f val => f + poly val) a = a + (l.map poly).sum := by
    intro l
    induction l with
    | nil => intro a; simp
    | cons x t ih => intro a; simp only [List.foldl_cons, ih, List.map_cons, List.sum_cons]; ring
  unfold localMinModel
  rw [h, zero_add]

/-- Along the example grid the summand `poly` rests, when minimized, at the
indexes 3 (value -1.5) and 8 (value 1) only. -/
theorem poly_rest (idx : Int) (h0 : 0 ≤ idx) (h1 : idx < 13)
    (h : step1 true poly grid13 idx = idx) : idx = 3 ∨ idx = 8 := by
  have key : ∀ k : Fin 13, step1 true poly grid13 ((k : Nat) : Int) = ((k : Nat) : Int) →
      ((k : Nat) : Int) = 3 ∨ ((k : Nat) : Int) = 8 := by decide!
  have := key ⟨idx.toNat, by omega⟩
  simp only [Int.toNat_of_nonneg h0] at this
  exact this h

theorem mem_localParamSpace (prm : List ℚ) (h : prm ∈ localParamSpace) : prm = grid13 :=
  (List.mem_replicate.1 h).2

/-- Reading a value of a looked-up vector back to its dimension and index. -/
theorem lookupAll_mem (params : List (List ℚ)) (idxs : List Int) (vals : List ℚ)
    (hR : InRange params idxs) (hv : lookupAll params idxs = some vals) (x : ℚ)
    (hx : x ∈ vals) :
    ∃ (i : Nat) (prm : List ℚ) (idx : Int), params[i]? = some prm ∧ idxs[i]? = some idx ∧
      at? prm idx = some x := by
  obtain ⟨i, hi⟩ := List.getElem?_of_mem hx
  have hlen := lookupAll_length _ _ _ hv
  have hlt : i < params.length := by
    rw [← hlen]
    by_contra hc
    rw [List.getElem?_eq_none (by omega)] at hi
    cases hi
  obtain ⟨idx, hidx, _, _⟩ := inRange_getElem? _ _ hR i _ (List.getElem?_eq_getElem hlt)
  refine ⟨i, _, idx, List.getElem?_eq_getElem hlt, hidx, ?_⟩
  rw [← lookupAll_getElem? params idxs vals hv i _ idx (List.getElem?_eq_getElem hlt) hidx]
  exact hi

/-- C9: a minimizing trial on a separable objective (the sum of g over the
coordinates), in a config with cached lengths whose dimensions are non-empty and
no longer than the iteration cap, returns a grid point at which in every
dimension neither adjacent grid value has a strictly smaller g, and its scalar
is the sum of g over the returned values; the example of examples/local (eight
dimensions, grid -3..3 in steps of 0.5, one trial) therefore returns a vector
whose coordinates are all 1 or -1.5. -/
theorem C9_separable_local_minimum (c : Config) (g : ℚ → ℚ) (rnd : Nat → Nat)
    (hL : c.paramLens = c.Params.map fun vals => (vals.length : Int))
    (hne : ∀ p ∈ c.Params, p ≠ [])
    (hsep : ∀ v : List ℚ, v.length = c.Params.length → c.Model v = (v.map g).sum)
    (hcap : ∀ p ∈ c.Params, (p.length : Int) ≤ c.MaxIteration) :
    (∃ t, solveOne c true rnd = some t ∧ InRange c.Params t.idxs ∧
      valsFromIndexes c t.idxs = some t.vals ∧
      (∀ (i : Nat) (prm : List ℚ) (idx : Int), c.Params[i]? = some prm →
        t.idxs[i]? = some idx → LocalMin1 g prm idx) ∧
      t.soln = (t.vals.map g).sum) ∧
    ∀ rnds : Nat → Nat → Nat, ∃ s vals, Minimize localMinConfig rnds = some (F64.fin s, vals) ∧
      vals.length = 8 ∧ (∀ x ∈ vals, x = 1 ∨ x = -3 / 2) ∧ s = (vals.map poly).sum := by
  constructor
  · obtain ⟨_, t, _, _, hsolve, htR, htv, hsoln, hall⟩ :=
      sep_solveOne c hL hne g hsep (fun p hp => by have := hcap p hp; omega) true rnd
        (fun _ _ => True) (fun _ _ _ _ _ _ => trivial)
    exact ⟨t, hsolve, htR, htv,
      fun i prm idx hp hi => localMin1_of_step1 g prm idx (hall i prm idx hp hi).1, hsoln⟩
  · intro rnds
    have hPar : (withDefaults localMinConfig).Params = localParamSpace :=
      withDefaults_Params _
    have hne' : ∀ p ∈ localMinConfig.Params, p ≠ [] := by decide
    obtain ⟨ts, hts, hmin⟩ := Minimize_eq localMinConfig hne' rnds
    have hn : (withDefaults localMinConfig).NumTests.toNat = 1 := by decide
    rw [hn] at hts
    have hts' : ∃ t, ts = [t] ∧
        solveOne (withDefaults localMinConfig) true (rnds 0) = some t := by
      cases hts with
      | cons h htl => cases htl; exact ⟨_, rfl, h⟩
    obtain ⟨t, rfl, ht⟩ := hts'
    obtain ⟨_, t', _, _, hsolve, htR, htv, hsoln, hall⟩ :=
      sep_solveOne (withDefaults localMinConfig) (withDefaults_paramLens _)
        (by rw [hPar]; decide) poly
        (fun v _ => by rw [withDefaults_Model]; exact localMinModel_eq v)
        (by rw [hPar]; decide) true (rnds 0) (fun _ _ => True) (fun _ _ _ _ _ _ => trivial)
    rw [ht] at hsolve
    cases Option.some.inj hsolve
    refine ⟨t.soln, t.vals, ?_, ?_, ?_, hsoln⟩
    · rw [hmin]; simp [minScan, F64.lt]
    · rw [lookupAll_length _ _ _ htv, hPar]; rfl
    · intro x hx
      obtain ⟨i, prm, idx, hp, hi, hat⟩ := lookupAll_mem _ _ _ htR htv x hx
      have hprm : prm = grid13 :=
        mem_localParamSpace prm (by rw [← hPar]; exact List.getElem?_mem hp)
      subst hprm
      obtain ⟨h0, h1⟩ := at?_range _ _ _ hat
      rcases poly_rest idx h0 h1 (hall i _ idx hp hi).1 with h | h
      · subst h
        right
        have : at? grid13 3 = some (-3 / 2) := by decide!
        rw [this] at hat
        exact (Option.some.inj hat).symm
      · subst h
        left
        have : at? grid13 8 = some 1 := by decide!
        rw [this] at hat
        exact (Option.some.inj hat).symm

/-- Witness for C9: the minimize config of examples/local with its defaults filled in. -/
theorem C9_separable_local_minimum_witness :
    (∃ t, solveOne (withDefaults localMinConfig) true (fun i => 2 * i) = some t ∧
      InRange (withDefaults localMinConfig).Params t.idxs ∧
      valsFromIndexes (withDefaults localMinConfig) t.idxs = some t.vals ∧
      (∀ (i : Nat) (prm : List ℚ) (idx : Int),
        (withDefaults localMinConfig).Params[i]? = some prm →
        t.idxs[i]? = some idx → LocalMin1 poly prm idx) ∧
      t.soln = (t.vals.map poly).sum) :=
  (C9_separable_local_minimum (withDefaults localMinConfig) poly (fun i => 2 * i)
    (withDefaults_paramLens _) (by decide)
    (fun v _ => localMinModel_eq v) (by decide)).1

/-! ## The paraboloid in the exact model -/

theorem parabolicModel_eq (v : List ℚ) (h : v.length = 3) :
    parabolicModel v = (v.map parabola).sum := by
  match v, h with
  | [x, y, z], _ => simp [parabolicModel]; ring

theorem sorted_getElem?_lt (prm : List ℚ) (hs : List.Sorted (· < ·) prm) (i j : Nat) (a b : ℚ)
    (hi : prm[i]? = some a) (hj : prm[j]? = some b) (hij : i < j) : a < b := by
  obtain ⟨hi', rfl⟩ := List.getElem?_eq_some.1 hi
  obtain ⟨hj', rfl⟩ := List.getElem?_eq_some.1 hj
  exact List.pairwise_iff_getElem.1 hs i j hi' hj' hij

/-- On a strictly increasing grid that contains 0 the summand `parabola` rests,
when minimized, only where the grid value is 0. -/
theorem parabola_rest (prm : List ℚ) (hs : List.Sorted (· < ·) prm) (hz : (0 : ℚ) ∈ prm)
    (idx : Int) (x : ℚ) (hx : at? prm idx = some x)
    (h : step1 true parabola prm idx = idx) : x = 0 := by
  obtain ⟨hup, hdown⟩ := localMin1_of_step1 parabola prm idx h x hx
  obtain ⟨z, hz⟩ := List.getElem?_of_mem hz
  obtain ⟨h0, h1⟩ := at?_range prm idx x hx
  have hxk : prm[idx.toNat]? = some x := ((at?_eq_some_iff _ _ _).1 hx).2
  have hzlt : z < prm.length := (List.getElem?_eq_some.1 hz).1
  rcases Nat.lt_trichotomy idx.toNat z with hlt | heq | hgt
  · exfalso
    obtain ⟨u, hu, _⟩ := at?_isSome prm (idx + 1) (by omega) (by omega)
    have huk : prm[idx.toNat + 1]? = some u := by
      have := ((at?_eq_some_iff _ _ _).1 hu).2
      rwa [show (idx + 1).toNat = idx.toNat + 1 by omega] at this
    have hxu : x < u := sorted_getElem?_lt prm hs _ _ x u hxk huk (by omega)
    have hu0 : u ≤ 0 := by
      rcases Nat.lt_or_ge (idx.toNat + 1) z with h2 | h2
      · exact le_of_lt (sorted_getElem?_lt prm hs _ _ u 0 huk hz h2)
      · have : idx.toNat + 1 = z := by omega
        rw [this, hz] at huk
        exact le_of_eq (Option.some.inj huk).symm
    apply hup u hu
    unfold parabola
    nlinarith
  · rw [heq, hz] at hxk
    exact (Option.some.inj hxk).symm
  · exfalso
    obtain ⟨d, hd, _⟩ := at?_isSome prm (idx - 1) (by omega) (by omega)
    have hdk : prm[idx.toNat - 1]? = some d := by
      have := ((at?_eq_some_iff _ _ _).1 hd).2
      rwa [show (idx - 1).toNat = idx.toNat - 1 by omega] at this
    have hdx : d < x := sorted_getElem?_lt prm hs _ _ d x hdk hxk (by omega)
    have hd0 : 0 ≤ d := by
      rcases Nat.lt_or_ge z (idx.toNat - 1) with h2 | h2
      · exact le_of_lt (sorted_getElem?_lt prm hs _ _ 0 d hz hdk h2)
      · have : idx.toNat - 1 = z := by omega
        rw [this, hz] at hdk
        exact le_of_eq (Option.some.inj hdk)
    apply hdown d hd
    unfold parabola
    nlinarith

theorem forall₂_mem_right {α β : Type} (R : α → β → Prop) :
    ∀ (l₁ : List α) (l₂ : List β), List.Forall₂ R l₁ l₂ → ∀ b ∈ l₂, ∃ a ∈ l₁, R a b := by
  intro l₁ l₂ h
  induction h with
  | nil => intro b hb; simp at hb
  | cons hhd _ ih =>
    intro b hb
    rcases List.mem_cons.1 hb with rfl | hb
    · exact ⟨_, List.mem_cons_self _ _, hhd⟩
    · obtain ⟨a, ha, hr⟩ := ih b hb
      exact ⟨a, List.mem_cons_of_mem _ ha, hr⟩

theorem forall₂_mem_left {α β : Type} (R : α → β → Prop) :
    ∀ (l₁ : List α) (l₂ : List β), List.Forall₂ R l₁ l₂ → ∀ a ∈ l₁, ∃ b ∈ l₂, R a b := by
  intro l₁ l₂ h
  induction h with
  | nil => intro a ha; simp at ha
  | cons hhd _ ih =>
    intro a ha
    rcases List.mem_cons.1 ha with rfl | ha
    · exact ⟨_, List.mem_cons_self _ _, hhd⟩
    · obtain ⟨b, hb, hr⟩ := ih a ha
      exact ⟨b, List.mem_cons_of_mem _ hb, hr⟩

/-- The loop of Minimize on a non-empty list of copies of one finite result. -/
theorem minScan_const (l : List solution) (hne : l ≠ []) (q : ℚ) (vals : List ℚ)
    (hall : ∀ s ∈ l, s = ⟨F64.fin q, vals⟩) : minScan l = ⟨F64.fin q, vals⟩ := by
  rcases minScan_spec l with ⟨_, hno⟩ | ⟨k, hk, _⟩
  · obtain ⟨a, ha⟩ := List.exists_mem_of_ne_nil l hne
    have := hno a ha
    rw [hall a ha] at this
    simp [F64.lt] at this
  · exact hall _ (List.getElem?_mem hk)

/-- In the exact model, for the objective x² + y² + z² + 6 of examples/parabolic
over three dimensions, each strictly increasing, containing 0 and with at most
as many points as the effective iteration cap, Minimize returns 6 at (0, 0, 0)
for every trial count and every outcome of the random draws. -/
theorem paraboloid_minimum_exact (c : Config) (px py pz : List ℚ)
    (hParams : c.Params = [px, py, pz]) (hModel : c.Model = parabolicModel)
    (hgrid : ∀ prm ∈ c.Params, List.Sorted (· < ·) prm ∧ (0 : ℚ) ∈ prm ∧
      (prm.length : Int) ≤ (withDefaults c).MaxIteration)
    (rnds : Nat → Nat → Nat) :
    Minimize c rnds = some (F64.fin 6, [0, 0, 0]) := by
  have hne : ∀ p ∈ c.Params, p ≠ [] := fun p hp => List.ne_nil_of_mem (hgrid p hp).2.1
  have hPar : (withDefaults c).Params = c.Params := withDefaults_Params c
  obtain ⟨ts, hts, hmin⟩ := Minimize_eq c hne rnds
  have hall : ∀ t ∈ ts, (⟨F64.fin t.soln, t.vals⟩ : solution) = ⟨F64.fin 6, [0, 0, 0]⟩ := by
    intro t ht
    obtain ⟨k, _, hk⟩ := forall₂_mem_right _ _ _ hts t ht
    obtain ⟨_, t', _, _, hsolve, htR, htv, hsoln, hrest⟩ :=
      sep_solveOne (withDefaults c) (withDefaults_paramLens c) (by rw [hPar]; exact hne)
        parabola
        (fun v hv => by
          rw [withDefaults_Model, hModel]
          exact parabolicModel_eq v (by rw [hv, hPar, hParams]; rfl))
        (fun p hp => by rw [hPar] at hp; have := (hgrid p hp).2.2; omega)
        true (rnds k) (fun _ _ => True) (fun _ _ _ _ _ _ => trivial)
    rw [hk] at hsolve
    cases Option.some.inj hsolve
    have hzero : ∀ x ∈ t.vals, x = 0 := by
      intro x hx
      obtain ⟨i, prm, idx, hp, hi, hat⟩ := lookupAll_mem _ _ _ htR htv x hx
      have hprm : prm ∈ c.Params := by rw [← hPar]; exact List.getElem?_mem hp
      exact parabola_rest prm (hgrid prm hprm).1 (hgrid prm hprm).2.1 idx x hat
        (hrest i prm idx hp hi).1
    have hlen : t.vals.length = 3 := by
      rw [lookupAll_length _ _ _ htv, hPar, hParams]; rfl
    have hvals : t.vals = [0, 0, 0] := by
      have := List.eq_replicate_iff.2 ⟨hlen, hzero⟩
      rw [this]; rfl
    have hs6 : t.soln = 6 := by
      rw [hsoln, hvals]; norm_num [parabola]
    rw [hs6, hvals]
  rw [hmin]
  have hne' : (ts.map fun t => (⟨F64.fin t.soln, t.vals⟩ : solution)) ≠ [] := by
    have h1 := withDefaults_NumTests_pos c
    have h2 := List.Forall₂.length_eq hts
    rw [List.length_range] at h2
    intro hnil
    have := congrArg List.length hnil
    simp at this
    rw [this] at h2
    simp at h2
    omega
  rw [minScan_const _ hne' 6 [0, 0, 0] (by
    intro s hs
    obtain ⟨t, ht, rfl⟩ := List.mem_map.1 hs
    exact hall t ht)]

/-! ## The eight-dimensional maximum (C10) -/

theorem localMaxModel_eq (vals : List ℚ) :
    localMaxModel vals = (vals.map fun x => -poly x).sum := by
  have h : ∀ (l : List ℚ) (a : ℚ),
      l.foldl (fun f val => f - poly val) a = a + (l.map fun x => -poly x).sum := by
    intro l
    induction l with
    | nil => intro a; simp
    | cons x t ih => intro a; simp only [List.foldl_cons, ih, List.map_cons, List.sum_cons]; ring
  unfold localMaxModel
  rw [h, zero_add]

/-- On the example grid the summand `-poly` is at most 75/16, with equality at
-1.5 only. -/
theorem negPoly_bound : ∀ x ∈ grid13, -poly x ≤ 75 / 16 ∧ (-poly x = 75 / 16 → x = -3 / 2) := by
  decide!

theorem negPoly_sum_bound :
    ∀ (vals : List ℚ), (∀ x ∈ vals, x ∈ grid13) →
      (vals.map fun x => -poly x).sum ≤ vals.length * (75 / 16) ∧
        ((vals.map fun x => -poly x).sum = vals.length * (75 / 16) → ∀ x ∈ vals, x = -3 / 2) := by
  intro vals
  induction vals with
  | nil => intro _; simp
  | cons a t ih =>
    intro h
    obtain ⟨h1, h2⟩ := ih (fun x hx => h x (List.mem_cons_of_mem _ hx))
    obtain ⟨h3, h4⟩ := negPoly_bound a (h a (List.mem_cons_self _ _))
    simp only [List.map_cons, List.sum_cons, List.length_cons, Nat.cast_add, Nat.cast_one]
    refine ⟨by linarith, ?_⟩
    intro heq x hx
    rcases List.mem_cons.1 hx with rfl | hx
    · exact h4 (by linarith)
    · exact h2 (by linarith) x hx

/-- Maximizing `-poly` along the example grid from an index at most 6 (a value
at most 0): the moves stay at most 6, and the only resting index there is 3. -/
theorem negPoly_moves :
    ∀ k : Fin 13, (k : Nat) ≤ 6 →
      step1 false (fun x => -poly x) grid13 ((k : Nat) : Int) ≤ 6 ∧
        (step1 false (fun x => -poly x) grid13 ((k : Nat) : Int) = ((k : Nat) : Int) →
          (k : Nat) = 3) := by
  decide!

theorem grid13_nonpos : ∀ k : Fin 13, grid13.getD (k : Nat) 0 ≤ 0 → (k : Nat) ≤ 6 := by
  decide!

/-- The result of Maximize on the example of examples/local as soon as one
trial starts at values that are all at most 0. -/
theorem localMax_result (rnds : Nat → Nat → Nat) (k : Nat) (hk : k < 100)
    (start : List Int) (vals0 : List ℚ)
    (hstart : getRandomIndexes (withDefaults localMaxConfig) (rnds k) = some start)
    (hvals0 : valsFromIndexes (withDefaults localMaxConfig) start = some vals0)
    (hle : ∀ x ∈ vals0, x ≤ 0) :
    Maximize localMaxConfig rnds = some (F64.fin (75 / 2), List.replicate 8 (-3 / 2)) := by
  have hPar : (withDefaults localMaxConfig).Params = localParamSpace := withDefaults_Params _
  have hne' : ∀ p ∈ localMaxConfig.Params, p ≠ [] := by decide
  obtain ⟨ts, hts, hmax⟩ := Maximize_eq localMaxConfig hne' rnds
  have hn : (withDefaults localMaxConfig).NumTests.toNat = 100 := by decide
  rw [hn] at hts
  have hsep : ∀ v : List ℚ, v.length = (withDefaults localMaxConfig).Params.length →
      (withDefaults localMaxConfig).Model v = (v.map fun x => -poly x).sum :=
    fun v _ => by rw [withDefaults_Model]; exact localMaxModel_eq v
  have htrial : ∀ (j : Nat) (P : List ℚ → Int → Prop),
      (∀ prm ∈ (withDefaults localMaxConfig).Params, ∀ idx : Int, 0 ≤ idx →
        idx < prm.length → P prm idx → P prm (step1 false (fun x => -poly x) prm idx)) →
      ∃ st t, getRandomIndexes (withDefaults localMaxConfig) (rnds j) = some st ∧
        InRange (withDefaults localMaxConfig).Params st ∧
        solveOne (withDefaults localMaxConfig) false (rnds j) = some t ∧
        InRange (withDefaults localMaxConfig).Params t.idxs ∧
        valsFromIndexes (withDefaults localMaxConfig) t.idxs = some t.vals ∧
        t.soln = (t.vals.map fun x => -poly x).sum ∧
        ∀ (i : Nat) (prm : List ℚ) (idx : Int),
          (withDefaults localMaxConfig).Params[i]? = some prm → t.idxs[i]? = some idx →
          step1 false (fun x => -poly x) prm idx = idx ∧
            ((∀ (j : Nat) (q : List ℚ) (s : Int),
              (withDefaults localMaxConfig).Params[j]? = some q → st[j]? = some s → P q s) →
              P prm idx) :=
    fun j P hP => sep_solveOne (withDefaults localMaxConfig) (withDefaults_paramLens _)
      (by rw [hPar]; decide) _ hsep (by rw [hPar]; decide) false (rnds j) P hP
  -- every trial returns grid values, so its scalar is at most 75/2
  have hall : ∀ t ∈ ts, t.vals.length = 8 ∧ t.soln ≤ 75 / 2 ∧
      (t.soln = 75 / 2 → t.vals = List.replicate 8 (-3 / 2)) := by
    intro t ht
    obtain ⟨j, _, hj⟩ := forall₂_mem_right _ _ _ hts t ht
    obtain ⟨_, t', _, _, hsolve, htR, htv, hsoln, _⟩ :=
      htrial j (fun _ _ => True) (fun _ _ _ _ _ _ => trivial)
    rw [hj] at hsolve
    cases Option.some.inj hsolve
    have hlen : t.vals.length = 8 := by
      rw [lookupAll_length _ _ _ htv, hPar]; rfl
    have hgrid : ∀ x ∈ t.vals, x ∈ grid13 := by
      intro x hx
      obtain ⟨i, prm, idx, hp, _, hat⟩ := lookupAll_mem _ _ _ htR htv x hx
      have hprm : prm = grid13 :=
        mem_localParamSpace prm (by rw [← hPar]; exact List.getElem?_mem hp)
      rw [← hprm]
      exact List.getElem?_mem ((at?_eq_some_iff _ _ _).1 hat).2
    obtain ⟨h1, h2⟩ := negPoly_sum_bound t.vals hgrid
    rw [hlen] at h1 h2
    refine ⟨hlen, by rw [hsoln]; norm_num at h1 ⊢; linarith, ?_⟩
    intro heq
    exact List.eq_replicate_iff.2 ⟨hlen, h2 (by rw [← hsoln, heq]; norm_num)⟩
  -- trial k reaches -1.5 in every dimension
  have hbest : ∃ t ∈ ts, t.soln = 75 / 2 := by
    obtain ⟨t, ht, hsolve'⟩ := forall₂_mem_left _ _ _ hts k (List.mem_range.2 hk)
    refine ⟨t, ht, ?_⟩
    obtain ⟨st, t', hst, hstR, hsolve, htR, htv, hsoln, hrest⟩ :=
      htrial k (fun _ idx => idx ≤ 6) (by
        intro prm hprm idx h0 h1 h6
        have hprm' : prm = grid13 := mem_localParamSpace prm (by rw [← hPar]; exact hprm)
        subst hprm'
        have := (negPoly_moves ⟨idx.toNat, by
          have : (grid13.length : Int) = 13 := rfl
          omega⟩ (by simp only; omega)).1
        simpa [Int.toNat_of_nonneg h0] using this)
    rw [hsolve'] at hsolve
    cases Option.some.inj hsolve
    rw [hstart] at hst
    cases Option.some.inj hst
    have hthree : ∀ x ∈ t.vals, x = -3 / 2 := by
      intro x hx
      obtain ⟨i, prm, idx, hp, hi, hat⟩ := lookupAll_mem _ _ _ htR htv x hx
      have hprm : prm = grid13 :=
        mem_localParamSpace prm (by rw [← hPar]; exact List.getElem?_mem hp)
      subst hprm
      obtain ⟨hfix, hP⟩ := hrest i _ idx hp hi
      have h6 : idx ≤ 6 := by
        apply hP
        intro j q s hq hs
        have hq' : q = grid13 :=
          mem_localParamSpace q (by rw [← hPar]; exact List.getElem?_mem hq)
        subst hq'
        obtain ⟨s', hs', h0, h1⟩ := inRange_getElem? _ _ hstR j _ hq
        rw [hs] at hs'; cases hs'
        have hv := lookupAll_getElem? _ _ _ hvals0 j _ s hq hs
        obtain ⟨y, hy, _⟩ := at?_isSome grid13 s h0 h1
        rw [hy] at hv
        have hy0 : y ≤ 0 := hle y (List.getElem?_mem hv)
        have hyk : grid13[s.toNat]? = some y := ((at?_eq_some_iff _ _ _).1 hy).2
        have := grid13_nonpos ⟨s.toNat, by
          have : (grid13.length : Int) = 13 := rfl
          omega⟩ (by rw [List.getD_eq_getElem?_getD, hyk]; exact hy0)
        simp only at this
        omega
      obtain ⟨h0, h1⟩ := at?_range _ _ _ hat
      have h3 := (negPoly_moves ⟨idx.toNat, by
        have : (grid13.length : Int) = 13 := rfl
        omega⟩ (by simp only; omega)).2 (by simpa [Int.toNat_of_nonneg h0] using hfix)
      have hidx : idx = 3 := by simp only at h3; omega
      subst hidx
      have : at? grid13 3 = some (-3 / 2) := by decide!
      rw [this] at hat
      exact (Option.some.inj hat).symm
    have hrep : t.vals = List.replicate 8 (-3 / 2) :=
      List.eq_replicate_iff.2 ⟨(hall t ht).1, hthree⟩
    rw [hsoln, hrep]
    norm_num [poly]
  -- the aggregation picks a result with the greatest scalar
  rw [hmax]
  obtain ⟨tb, htb, hsb⟩ := hbest
  rcases maxScan_spec (ts.map fun t => (⟨F64.fin t.soln, t.vals⟩ : solution)) with
    ⟨_, hno⟩ | ⟨i, hi, _, hge, _⟩
  · have := hno ⟨F64.fin tb.soln, tb.vals⟩ (List.mem_map.2 ⟨tb, htb, rfl⟩)
    simp [F64.lt] at this
  · obtain ⟨t, ht, heq⟩ := List.mem_map.1 (List.getElem?_mem hi)
    rw [← heq] at hge ⊢
    have h1 := hge ⟨F64.fin tb.soln, tb.vals⟩ (List.mem_map.2 ⟨tb, htb, rfl⟩)
    simp only [F64.lt, decide_eq_false_iff_not, not_lt] at h1
    obtain ⟨_, h2, h3⟩ := hall t ht
    have h4 : t.soln = 75 / 2 := le_antisymm h2 (by rw [← hsb]; exact h1)
    simp only [h4, h3 h4]

/-- The claim of C10 fails on the value: with every draw 0 all hundred trials
start at -3 in every dimension, and Maximize returns 37.5 = 8 × 4.6875 at -1.5
in every dimension, not 22.5 = 8 × 2.8125. -/
theorem C10_counterexample :
    getRandomIndexes (withDefaults localMaxConfig) (fun _ => 0) = some (List.replicate 8 0) ∧
      valsFromIndexes (withDefaults localMaxConfig) (List.replicate 8 0) =
        some (List.replicate 8 (-3)) ∧
      Maximize localMaxConfig (fun _ _ => 0) =
        some (F64.fin (75 / 2), List.replicate 8 (-3 / 2)) ∧
      Maximize localMaxConfig (fun _ _ => 0) ≠
        some (F64.fin (45 / 2), List.replicate 8 (-3 / 2)) := by
  have h1 : getRandomIndexes (withDefaults localMaxConfig) (fun _ => 0) =
      some (List.replicate 8 0) := by decide!
  have h2 : valsFromIndexes (withDefaults localMaxConfig) (List.replicate 8 0) =
      some (List.replicate 8 (-3)) := by decide!
  have h3 := localMax_result (fun _ _ => 0) 0 (by decide) _ _ h1 h2 (by decide!)
  refine ⟨h1, h2, h3, ?_⟩
  rw [h3]
  decide!

/-- C10 (amended): for the example of examples/local (eight dimensions, each
the grid -3..3 in steps of 0.5, objective the negated sum of x^4 - 3x^2 + 2x,
default iteration cap, 100 trials), Maximize returns the value
8 × 4.6875 = 37.5 with x = -1.5 in every dimension whenever at least one of its
trials starts with every coordinate at a grid value at most 0. -/
theorem C10_local_maximum (rnds : Nat → Nat → Nat) (k : Nat) (hk : k < 100)
    (start : List Int) (vals0 : List ℚ)
    (hstart : getRandomIndexes (withDefaults localMaxConfig) (rnds k) = some start)
    (hvals0 : valsFromIndexes (withDefaults localMaxConfig) start = some vals0)
    (hle : ∀ x ∈ vals0, x ≤ 0) :
    Maximize localMaxConfig rnds = some (F64.fin (75 / 2), List.replicate 8 (-3 / 2)) :=
  localMax_result rnds k hk start vals0 hstart hvals0 hle

/-- Witness for C10: trial 5 starts at the indexes 0..6, everything else at index 12. -/
theorem C10_local_maximum_witness :
    Maximize localMaxConfig (fun k i => if k = 5 then i % 7 else 12) =
      some (F64.fin (75 / 2), List.replicate 8 (-3 / 2)) :=
  C10_local_maximum (fun k i => if k = 5 then i % 7 else 12) 5 (by decide)
    [0, 1, 2, 3, 4, 5, 6, 0] [-3, -5 / 2, -2, -3 / 2, -1, -1 / 2, 0, -3]
    (by decide!) (by decide!) (by decide!)

/-! ## Maximize as the mirror image of Minimize (C11) -/

theorem probe_negate (c : Config) (idxs : List Int) (cur : ℚ) (i : Nat) (idx : Int) :
    probe (negate c) idxs (-cur) i idx =
      match probe c idxs cur i idx with
      | none => none
      | some p => some ⟨p.downIdx, p.upIdx, -p.downSoln, -p.upSoln, p.evals⟩ := by
  unfold probe
  have hv : ∀ v, valsFromIndexes (negate c) v = valsFromIndexes c v := fun _ => rfl
  have hl : (negate c).paramLens = c.paramLens := rfl
  rw [hl]
  cases c.paramLens[i]? with
  | none => rfl
  | some len =>
    simp only [hv]
    split_ifs
    · rfl
    · cases valsFromIndexes c (idxs.set i 1) <;> rfl
    · cases valsFromIndexes c (idxs.set i (idx - 1)) <;> rfl
    · cases valsFromIndexes c (idxs.set i (idx - 1)) with
      | none => rfl
      | some dv => cases valsFromIndexes c (idxs.set i (idx + 1)) <;> rfl

theorem choose_negate (cur : ℚ) (idx : Int) (p : Probe) :
    choose true (-cur) idx ⟨p.downIdx, p.upIdx, -p.downSoln, -p.upSoln, p.evals⟩ =
      choose false cur idx p := by
  simp only [choose, if_true, Bool.false_eq_true, if_false, neg_lt_neg_iff, gt_iff_lt]

theorem loop_negate (c : Config) (idxs : List Int) (cur : ℚ) :
    ∀ (rest : List Int) (i : Nat) (s : LoopState),
      loop (negate c) idxs (-cur) true i rest s = loop c idxs cur false i rest s := by
  intro rest
  induction rest with
  | nil => intro i s; rfl
  | cons a t ih =>
    intro i s
    simp only [loop, probe_negate]
    cases probe c idxs cur i a with
    | none => rfl
    | some p =>
      simp only [choose_negate]
      exact ih _ _

theorem round_negate (c : Config) (idxs : List Int) (cur : ℚ) :
    round (negate c) idxs (-cur) true =
      match round c idxs cur false with
      | none => none
      | some r => some ⟨r.nextIdxs, r.didUpdate, -r.nextSoln, r.evals⟩ := by
  unfold round
  rw [loop_negate]
  cases loop c idxs cur false 0 idxs ⟨idxs, false, 0⟩ with
  | none => rfl
  | some s =>
    have hv : valsFromIndexes (negate c) s.nextIdxs = valsFromIndexes c s.nextIdxs := rfl
    simp only [hv]
    cases valsFromIndexes c s.nextIdxs <;> rfl

theorem stops_negate (r : Round) (cur : ℚ) :
    stops ⟨r.nextIdxs, r.didUpdate, -r.nextSoln, r.evals⟩ (-cur) true = stops r cur false := by
  simp only [stops, Bool.true_and, Bool.not_true, Bool.false_and, Bool.or_false,
    Bool.not_false, neg_lt_neg_iff, gt_iff_lt]

/-- The minimizing walk on the negated objective is the maximizing walk. -/
theorem walkN_negate (c : Config) :
    ∀ (n : Nat) (idxs : List Int) (cur : ℚ),
      walkN (negate c) true n idxs (-cur) = walkN c false n idxs cur := by
  intro n
  induction n with
  | zero => intro idxs cur; rfl
  | succ n ih =>
    intro idxs cur
    simp only [walkN, round_negate]
    cases round c idxs cur false with
    | none => rfl
    | some r =>
      simp only [stops_negate]
      split_ifs
      · rfl
      · rw [ih]

theorem followGradient_negate (c : Config) (idxs : List Int) (cur : ℚ) (count : Int) :
    followGradient (negate c) idxs (-cur) true count = followGradient c idxs cur false count := by
  rw [followGradient_eq_walkN (negate c) true _ idxs (-cur) count rfl,
    followGradient_eq_walkN c false _ idxs cur count rfl]
  exact walkN_negate c _ idxs cur

theorem solveOne_negate (c : Config) (rnd : Nat → Nat) :
    solveOne (negate c) true rnd =
      match solveOne c false rnd with
      | none => none
      | some t => some ⟨-t.soln, t.vals, t.idxs, t.exit, t.rounds, t.evals⟩ := by
  unfold solveOne
  have hr : getRandomIndexes (negate c) rnd = getRandomIndexes c rnd := rfl
  have hv : ∀ v, valsFromIndexes (negate c) v = valsFromIndexes c v := fun _ => rfl
  have hm : ∀ v, (negate c).Model v = -(c.Model v) := fun _ => rfl
  rw [hr]
  cases getRandomIndexes c rnd with
  | none => rfl
  | some idxs =>
    simp only [hv, hm, followGradient_negate]
    cases valsFromIndexes c idxs with
    | none => rfl
    | some vals =>
      simp only
      cases followGradient c idxs (c.Model vals) false 0 with
      | none => rfl
      | some w =>
        simp only
        cases valsFromIndexes c w.idxs <;> rfl

theorem withDefaults_negate (c : Config) : withDefaults (negate c) = negate (withDefaults c) := by
  unfold withDefaults setParamLens negate
  simp only
  split_ifs <;> rfl

theorem collect_negTrial :
    ∀ (l : List (Option Trial)),
      collect (l.map fun o => match o with
        | none => none
        | some t => some (negTrial t)) =
        match collect l with
        | none => none
        | some ts => some (ts.map negTrial) := by
  intro l
  induction l with
  | nil => rfl
  | cons a l ih =>
    cases a with
    | none => rfl
    | some t =>
      simp only [List.map_cons, collect, ih]
      cases collect l <;> rfl

theorem runTrials_negate (c : Config) (rnds : Nat → Nat → Nat) :
    runTrials (negate c) true rnds =
      match runTrials c false rnds with
      | none => none
      | some ts => some (ts.map negTrial) := by
  unfold runTrials
  rw [withDefaults_negate]
  have hn : (negate (withDefaults c)).NumTests = (withDefaults c).NumTests := rfl
  rw [hn, ← collect_negTrial, List.map_map]
  congr 1
  apply List.map_congr_left
  intro k _
  simp only [Function.comp, solveOne_negate]
  cases solveOne (withDefaults c) false (rnds k) <;> rfl

theorem solveN_negate (c : Config) (rnds : Nat → Nat → Nat) :
    solveN (negate c) true rnds =
      match solveN c false rnds with
      | none => none
      | some solutions => some (solutions.map negSolution) := by
  unfold solveN
  rw [runTrials_negate]
  cases runTrials c false rnds with
  | none => rfl
  | some ts =>
    simp only [List.map_map, Option.some.injEq]
    apply List.map_congr_left
    intro t _
    rfl

theorem F64_lt_neg (a b : F64) : F64.lt (F64.neg a) (F64.neg b) = F64.lt b a := by
  cases a <;> cases b <;> simp [F64.lt, F64.neg]

/-- The loop of Minimize on the negated results selects the negated selection
of the loop of Maximize. -/
theorem minScan_negate (l : List solution) :
    minScan (l.map negSolution) = negSolution (maxScan l) := by
  have h : ∀ (l : List solution) (b : solution),
      (l.map negSolution).foldl
          (fun bestSoln s => if F64.lt s.soln bestSoln.soln then s else bestSoln)
          (negSolution b) =
        negSolution (l.foldl
          (fun bestSoln s => if F64.lt bestSoln.soln s.soln then s else bestSoln) b) := by
    intro l
    induction l with
    | nil => intro b; rfl
    | cons a t ih =>
      intro b
      simp only [List.map_cons, List.foldl_cons]
      have hstep : (if F64.lt (negSolution a).soln (negSolution b).soln then negSolution a
          else negSolution b) = negSolution (if F64.lt b.soln a.soln then a else b) := by
        simp only [negSolution, F64_lt_neg]
        split_ifs <;> rfl
      rw [hstep, ih]
  exact h l ⟨F64.negInf, []⟩

/-- The whole of Minimize on the negated objective, from Maximize. -/
theorem Minimize_negate (c : Config) (rnds : Nat → Nat → Nat) :
    Minimize (negate c) rnds =
      match Maximize c rnds with
      | none => none
      | some r => some (F64.neg r.1, r.2) := by
  unfold Minimize Maximize
  rw [solveN_negate]
  cases solveN c false rnds with
  | none => rfl
  | some solutions =>
    simp only [minScan_negate]
    rfl

theorem F64_neg_neg (a : F64) : F64.neg (F64.neg a) = a := by
  cases a <;> simp [F64.neg]

/-- C11: the maximizing walker on an objective returns what the minimizing
walker on the negated objective returns from the same start (same index
vector, same exit, same number of rounds and of calls); hence with the same
draws Maximize on the objective returns the value vector of Minimize on the
negated objective and the negated scalar, and fails exactly when it fails. -/
theorem C11_maximize_mirrors_minimize (c : Config) (idxs : List Int) (currentSoln : ℚ)
    (count : Int) (rnds : Nat → Nat → Nat) :
    followGradient c idxs currentSoln false count =
        followGradient (negate c) idxs (-currentSoln) true count ∧
      Maximize c rnds =
        match Minimize (negate c) rnds with
        | none => none
        | some r => some (F64.neg r.1, r.2) := by
  refine ⟨(followGradient_negate c idxs currentSoln count).symm, ?_⟩
  rw [Minimize_negate]
  cases Maximize c rnds with
  | none => rfl
  | some r => simp only [F64_neg_neg]

/-! ## Defaults and size of the ensemble (C12) -/

theorem collect_eq_some :
    ∀ (l : List (Option Trial)) (ts : List Trial), collect l = some ts → l = ts.map some := by
  intro l
  induction l with
  | nil => intro ts h; simp only [collect, Option.some.injEq] at h; subst h; rfl
  | cons a l ih =>
    intro ts h
    cases a with
    | none => simp [collect] at h
    | some t =>
      simp only [collect] at h
      cases hc : collect l with
      | none => simp [hc] at h
      | some ts' =>
        simp only [hc, Option.some.injEq] at h
        subst h
        simp only [List.map_cons, ih ts' hc]

/-- What a returning ensemble holds: one trial per slot, in slot order. -/
theorem runTrials_some (c : Config) (minimize : Bool) (rnds : Nat → Nat → Nat)
    (ts : List Trial) (h : runTrials c minimize rnds = some ts) :
    ts.length = (withDefaults c).NumTests.toNat ∧
      ∀ (k : Nat) (t : Trial), ts[k]? = some t →
        solveOne (withDefaults c) minimize (rnds k) = some t := by
  unfold runTrials at h
  have hmap := collect_eq_some _ _ h
  have hlen : ts.length = (withDefaults c).NumTests.toNat := by
    have := congrArg List.length hmap
    simpa using this.symm
  refine ⟨hlen, ?_⟩
  intro k t hk
  have hklt : k < (withDefaults c).NumTests.toNat := by
    rw [← hlen]; exact (List.getElem?_eq_some.1 hk).1
  have h1 := congrArg (fun l => l[k]?) hmap
  simp only [List.getElem?_map, hk, Option.map_some'] at h1
  rw [List.getElem?_range hklt] at h1
  simpa using h1

/-- C12: solveN runs with the trial count 10 when NumTests is not positive and
with the iteration cap 100 when MaxIteration is not positive, and leaves
positive values as they are; a returned list has exactly the effective trial
count as its length, and its entry k is the pair of scalar and vector that
trial k (solveOne on the config with the defaults filled in) returned; without
an empty dimension the list is returned. -/
theorem C12_defaults_and_ensemble_size (c : Config) (minimize : Bool)
    (rnds : Nat → Nat → Nat) :
    withDefaults c =
        { Params := c.Params, Model := c.Model,
          NumTests := if c.NumTests ≤ 0 then 10 else c.NumTests,
          MaxIteration := if c.MaxIteration ≤ 0 then 100 else c.MaxIteration,
          paramLens := c.Params.map fun vals => (vals.length : Int) } ∧
      (∀ solutions, solveN c minimize rnds = some solutions →
        solutions.length = (withDefaults c).NumTests.toNat ∧
          1 ≤ solutions.length ∧
          ∀ (k : Nat) (s : solution), solutions[k]? = some s →
            ∃ t, solveOne (withDefaults c) minimize (rnds k) = some t ∧
              s = ⟨F64.fin t.soln, t.vals⟩) ∧
      ((∀ p ∈ c.Params, p ≠ []) → ∃ solutions, solveN c minimize rnds = some solutions) := by
  refine ⟨?_, ?_, ?_⟩
  · unfold withDefaults setParamLens DEFAULT_NUM_TESTS DEFAULT_MAX_MODEL_ITERATION
    simp only
    split_ifs <;> rfl
  · intro solutions h
    unfold solveN at h
    cases hr : runTrials c minimize rnds with
    | none => simp [hr] at h
    | some ts =>
      simp only [hr, Option.some.injEq] at h
      subst h
      obtain ⟨hlen, hall⟩ := runTrials_some c minimize rnds ts hr
      have hpos := withDefaults_NumTests_pos c
      refine ⟨by simp [hlen], by simp [hlen]; omega, ?_⟩
      intro k s hk
      simp only [List.getElem?_map] at hk
      cases ht : ts[k]? with
      | none => simp [ht] at hk
      | some t =>
        simp only [ht, Option.map_some', Option.some.injEq] at hk
        exact ⟨t, hall k t ht, hk.symm⟩
  · intro hne
    obtain ⟨ts, hts, _⟩ := runTrials_eq c hne minimize rnds
    exact ⟨ts.map fun t => ⟨F64.fin t.soln, t.vals⟩, by simp only [solveN, hts]⟩

/-! ## An empty dimension in the exact model -/

theorem randomIndexesFrom_none (rnd : Nat → Nat) :
    ∀ (params : List (List ℚ)) (i : Nat), (∃ p ∈ params, p = []) →
      randomIndexesFrom rnd i params = none := by
  intro params
  induction params with
  | nil => intro i h; obtain ⟨p, hp, _⟩ := h; simp at hp
  | cons a t ih =>
    intro i h
    simp only [randomIndexesFrom]
    by_cases ha : a.length = 0
    · rw [if_pos ha]
    · rw [if_neg ha]
      obtain ⟨p, hp, hnil⟩ := h
      rcases List.mem_cons.1 hp with rfl | hp
      · subst hnil; simp at ha
      · rw [ih (i + 1) ⟨p, hp, hnil⟩]

/-- With an empty dimension a trial stops at its first statement, the draw of
the start indexes, which comes before every call of the model. -/
theorem solveOne_none (c : Config) (hbad : ∃ p ∈ c.Params, p = []) (minimize : Bool)
    (rnd : Nat → Nat) :
    getRandomIndexes c rnd = none ∧ solveOne c minimize rnd = none := by
  have h : getRandomIndexes c rnd = none := randomIndexesFrom_none rnd c.Params 0 hbad
  exact ⟨h, by simp only [solveOne, h]⟩

theorem runTrials_none (c : Config) (hbad : ∃ p ∈ c.Params, p = []) (minimize : Bool)
    (rnds : Nat → Nat → Nat) : runTrials c minimize rnds = none := by
  unfold runTrials
  have hbad' : ∃ p ∈ (withDefaults c).Params, p = [] := by
    rw [withDefaults_Params]; exact hbad
  obtain ⟨n, hn⟩ : ∃ n, (withDefaults c).NumTests.toNat = n + 1 :=
    ⟨(withDefaults c).NumTests.toNat - 1, by have := withDefaults_NumTests_pos c; omega⟩
  rw [hn, List.range_succ_eq_map, List.map_cons, (solveOne_none _ hbad' minimize (rnds 0)).2]
  rfl

/-! ## The candidate of a round (C14) -/

/-- A move of one dimension beats the current value exactly when its target
index is on the grid and the objective there is strictly better. -/
theorem moveBeats_iff (c : Config) (minimize : Bool) (idxs : List Int)
    (hR : InRange c.Params idxs) (cur : ℚ) (i : Nat) (prm : List ℚ)
    (hp : c.Params[i]? = some prm) (j : Int) :
    moveBeats c minimize idxs cur i j = true ↔
      (0 ≤ j ∧ j < prm.length) ∧
        ∃ v, valsFromIndexes c (idxs.set i j) = some v ∧
          better minimize (c.Model v) cur = true := by
  obtain ⟨vals, hv, _⟩ := lookupAll_of_inRange _ _ hR
  have hset := lookupAll_set c.Params idxs vals hv i prm hp j
  rw [moveBeats_eq c minimize idxs vals hv cur i prm hp j]
  unfold valsFromIndexes
  rw [hset]
  cases hat : at? prm j with
  | none =>
    simp only [Bool.false_eq_true, false_iff, not_and, not_exists]
    intro _ v hv'
    cases hv'
  | some y =>
    simp only [Option.some.injEq]
    constructor
    · intro hb
      exact ⟨at?_range prm j y hat, _, rfl, hb⟩
    · rintro ⟨_, v, rfl, hb⟩
      exact hb

/-- C14: one round on an in-range vector composes exactly the reference
candidate: coordinate i is idx + 1 if that index exists and the objective with
only coordinate i moved there is strictly better than currentSoln, else
idx - 1 under the same condition, else idx. Every dimension is judged against
the same currentSoln; so an upper neighbour that is strictly better is taken
whatever the lower one is, and a dimension whose neighbours are not strictly
better stays. The round reports an update exactly when the candidate differs. -/
theorem C14_round_builds_reference_candidate (c : Config)
    (hL : c.paramLens = c.Params.map fun vals => (vals.length : Int))
    (idxs : List Int) (hR : InRange c.Params idxs) (currentSoln : ℚ) (minimize : Bool) :
    ∃ r, round c idxs currentSoln minimize = some r ∧
      r.nextIdxs.length = idxs.length ∧
      (∀ (i : Nat) (idx : Int), idxs[i]? = some idx →
        r.nextIdxs[i]? = some (refNext c idxs currentSoln minimize i idx) ∧
        (moveBeats c minimize idxs currentSoln i (idx + 1) = true →
          r.nextIdxs[i]? = some (idx + 1)) ∧
        (moveBeats c minimize idxs currentSoln i (idx + 1) = false →
          moveBeats c minimize idxs currentSoln i (idx - 1) = true →
          r.nextIdxs[i]? = some (idx - 1)) ∧
        (moveBeats c minimize idxs currentSoln i (idx + 1) = false →
          moveBeats c minimize idxs currentSoln i (idx - 1) = false →
          r.nextIdxs[i]? = some idx)) ∧
      (∀ (i : Nat) (prm : List ℚ) (j : Int), c.Params[i]? = some prm →
        (moveBeats c minimize idxs currentSoln i j = true ↔
          (0 ≤ j ∧ j < prm.length) ∧
            ∃ v, valsFromIndexes c (idxs.set i j) = some v ∧
              better minimize (c.Model v) currentSoln = true)) ∧
      (r.didUpdate = true ↔ r.nextIdxs ≠ idxs) := by
  obtain ⟨_, nv, _, hround⟩ := round_eq c hL idxs hR currentSoln minimize
  refine ⟨_, hround, ?_, ?_, ?_, ?_⟩
  · exact nextFrom_length c idxs currentSoln minimize idxs 0
  · intro i idx hi
    have hlt : i < c.Params.length := by
      rw [← inRange_length _ _ hR]
      exact (List.getElem?_eq_some.1 hi).1
    have hnext : (nextFrom c idxs currentSoln minimize 0 idxs)[i]? =
        some (refNext c idxs currentSoln minimize i idx) := by
      rw [nextFrom_getElem?, hi]
      simp only [Nat.zero_add]
      rw [(nextAt_spec c hL idxs hR currentSoln minimize i _
        (List.getElem?_eq_getElem hlt) idx hi).2.1]
    simp only
    refine ⟨hnext, ?_, ?_, ?_⟩
    · intro h1; rw [hnext]; simp only [refNext, h1, if_true]
    · intro h1 h2
      rw [hnext]; simp only [refNext, h1, h2, Bool.false_eq_true, if_false, if_true]
    · intro h1 h2
      rw [hnext]; simp only [refNext, h1, h2, Bool.false_eq_true, if_false]
  · intro i prm j hp
    exact moveBeats_iff c minimize idxs hR currentSoln i prm hp j
  · simp only [decide_eq_true_eq]

/-- Witness for C14: on the grid with the values 0, 2, 1 the round from the
middle, minimizing, moves up to the value 1 although the lower neighbour 0 is
better. -/
theorem C14_round_builds_reference_candidate_witness :
    ∃ r, round tiltConfig [1] 2 true = some r ∧ r.nextIdxs[0]? = some 2 ∧
      moveBeats tiltConfig true [1] 2 0 (1 - 1) = true :=
  have h := C14_round_builds_reference_candidate tiltConfig rfl [1]
    (List.Forall₂.cons (by decide) List.Forall₂.nil) 2 true
  ⟨h.choose, h.choose_spec.1,
    ((h.choose_spec.2.2.1 0 1 rfl).2.1 (by decide!)), by decide!⟩

/-! ## One call of the exact walk -/

theorem followGradient_step (c : Config) (idxs : List Int) (cur : ℚ) (minimize : Bool)
    (count : Int) (hcount : ¬ count > c.MaxIteration) (r : Round)
    (hr : round c idxs cur minimize = some r) :
    followGradient c idxs cur minimize count =
      if stops r cur minimize then some ⟨idxs, Exit.converged, 1, r.evals⟩
      else
        match followGradient c r.nextIdxs r.nextSoln minimize (count + 1) with
        | none => none
        | some w => some ⟨w.idxs, w.exit, w.rounds + 1, w.evals + r.evals⟩ := by
  rw [followGradient, if_neg hcount, hr]

/-! ## The iteration cap (C16) -/

/-- C16, the code at the failing input: with an iteration cap of 1 the
minimizing trial on the decreasing line that starts at index 0 runs two
neighbour-search rounds, adopts two candidates and returns index 2, two away
from its start; the walk ends by the cap exit. -/
theorem C16_cap_exceeded_by_one :
    lineConfig.MaxIteration = 1 ∧
      getRandomIndexes lineConfig (fun _ => 0) = some [0] ∧
      solveOne lineConfig true (fun _ => 0) = some ⟨-2, [2], [2], Exit.cap, 2, 7⟩ := by
  rw [solveOne_eq_solveOneN]
  decide!

/-! ## A trial never makes things worse (C17) -/

theorem better_false_trans (minimize : Bool) (a b c : ℚ) (h1 : better minimize a b = false)
    (h2 : better minimize b c = false) : better minimize a c = false := by
  cases minimize <;> simp only [better, Bool.false_eq_true, if_true, if_false,
    decide_eq_false_iff_not] at * <;> linarith

/-- The point a walk returns is never strictly worse than its start. -/
theorem walkN_not_worse (c : Config) (minimize : Bool) :
    ∀ (n : Nat) (idxs : List Int) (vals : List ℚ) (w : Walk),
      valsFromIndexes c idxs = some vals →
      walkN c minimize n idxs (c.Model vals) = some w →
      ∃ bestVals, valsFromIndexes c w.idxs = some bestVals ∧
        better minimize (c.Model vals) (c.Model bestVals) = false := by
  intro n
  induction n with
  | zero =>
    intro idxs vals w hv h
    simp only [walkN, Option.some.injEq] at h
    subst h
    exact ⟨vals, hv, better_irrefl minimize _⟩
  | succ n ih =>
    intro idxs vals w hv h
    simp only [walkN] at h
    cases hr : round c idxs (c.Model vals) minimize with
    | none => simp [hr] at h
    | some r =>
      simp only [hr] at h
      by_cases hs : stops r (c.Model vals) minimize = true
      · rw [if_pos hs] at h
        simp only [Option.some.injEq] at h
        subst h
        exact ⟨vals, hv, better_irrefl minimize _⟩
      · rw [if_neg hs] at h
        obtain ⟨nv, hnv, hsoln⟩ := round_nextSoln c idxs _ minimize r hr
        have hnw : better minimize (c.Model vals) (c.Model nv) = false := by
          rw [stops_eq] at hs
          rw [← hsoln]
          cases hb : better minimize (c.Model vals) r.nextSoln with
          | false => rfl
          | true => rw [hb] at hs; simp at hs
        rw [hsoln] at h
        cases hw : walkN c minimize n r.nextIdxs (c.Model nv) with
        | none => simp [hw] at h
        | some w' =>
          simp only [hw, Option.some.injEq] at h
          subst h
          obtain ⟨bv, hbv, hle⟩ := ih r.nextIdxs nv w' hnv hw
          exact ⟨bv, hbv, better_false_trans minimize _ _ _ hnw hle⟩

/-- C17: in a config with cached lengths and no empty dimension a trial
returns, and its scalar is at most the objective at its start point when
minimizing and at least that value when maximizing, whichever exit ends the
walk. -/
theorem C17_trial_never_worse (c : Config)
    (hL : c.paramLens = c.Params.map fun vals => (vals.length : Int))
    (hne : ∀ p ∈ c.Params, p ≠ []) (minimize : Bool) (rnd : Nat → Nat) :
    ∃ start vals t, getRandomIndexes c rnd = some start ∧ InRange c.Params start ∧
      valsFromIndexes c start = some vals ∧ solveOne c minimize rnd = some t ∧
      if minimize then t.soln ≤ c.Model vals else c.Model vals ≤ t.soln := by
  obtain ⟨idxs, vals, w, bv, h1, hR, hv, hw, _, hbv, _, hsolve⟩ :=
    solveOne_eq c hL hne minimize rnd
  refine ⟨idxs, vals, _, h1, hR, hv, hsolve, ?_⟩
  obtain ⟨bv', hbv', hle⟩ := walkN_not_worse c minimize _ idxs vals w hv hw
  rw [hbv] at hbv'
  cases Option.some.inj hbv'
  cases minimize <;> simpa [better] using hle

/-- Witness for C17: the minimize config of examples/local with its defaults
filled in. -/
theorem C17_trial_never_worse_witness :
    ∃ start vals t, getRandomIndexes (withDefaults localMinConfig) (fun i => 3 * i) =
        some start ∧
      InRange (withDefaults localMinConfig).Params start ∧
      valsFromIndexes (withDefaults localMinConfig) start = some vals ∧
      solveOne (withDefaults localMinConfig) true (fun i => 3 * i) = some t ∧
      if true then t.soln ≤ (withDefaults localMinConfig).Model vals
        else (withDefaults localMinConfig).Model vals ≤ t.soln :=
  C17_trial_never_worse (withDefaults localMinConfig) (withDefaults_paramLens _)
    (by decide) true (fun i => 3 * i)

/-! ## The machine-level model: lookups stay on the grid -/

theorem wrap64_of_range (x : Int) (h0 : -2 ^ 63 ≤ x) (h1 : x ≤ 2 ^ 63 - 1) : wrap64 x = x := by
  unfold wrap64
  norm_num at h0 h1 ⊢
  omega

theorem wrap64_range (x : Int) : -2 ^ 63 ≤ wrap64 x ∧ wrap64 x ≤ 2 ^ 63 - 1 := by
  unfold wrap64
  norm_num
  omega

theorem paramLens64_getElem? (c : Config64)
    (hL : c.paramLens = c.Params.map fun vals => (vals.length : Int)) (i : Nat) (prm : List ℚ)
    (hp : c.Params[i]? = some prm) : c.paramLens[i]? = some (prm.length : Int) := by
  rw [hL, List.getElem?_map, hp]; rfl

theorem choose64_cases (minimize : Bool) (cur : F64) (idx : Int) (p : Probe64) :
    choose64 minimize cur idx p = p.upIdx ∨ choose64 minimize cur idx p = p.downIdx ∨
      choose64 minimize cur idx p = idx := by
  unfold choose64
  split_ifs <;> simp

/-- The boundary analysis on an in-range vector succeeds, and both neighbour
indexes it offers are on the grid. -/
theorem probe64_ok (c : Config64)
    (hL : c.paramLens = c.Params.map fun vals => (vals.length : Int))
    (idxs : List Int) (hR : InRange c.Params idxs) (cur : F64) (minimize : Bool) (i : Nat)
    (prm : List ℚ) (hp : c.Params[i]? = some prm) (idx : Int) (hi : idxs[i]? = some idx) :
    ∃ p, probe64 c idxs cur i idx = some p ∧ p.evals ≤ 2 ∧
      (0 ≤ choose64 minimize cur idx p ∧ choose64 minimize cur idx p < prm.length) := by
  obtain ⟨vals, hv, _⟩ := lookupAll_of_inRange _ _ hR
  obtain ⟨idx', hi', h0, h1⟩ := inRange_getElem? _ _ hR i prm hp
  rw [hi] at hi'; cases hi'
  have hset : ∀ j, lookupAll c.Params (idxs.set i j) =
      match at? prm j with
      | none => none
      | some v => some (vals.set i v) := lookupAll_set c.Params idxs vals hv i prm hp
  have key : ∀ p : Probe64, (0 ≤ p.upIdx ∧ p.upIdx < prm.length) →
      (0 ≤ p.downIdx ∧ p.downIdx < prm.length) →
      (0 ≤ choose64 minimize cur idx p ∧ choose64 minimize cur idx p < prm.length) := by
    intro p hup hdown
    rcases choose64_cases minimize cur idx p with h | h | h <;> rw [h]
    · exact hup
    · exact hdown
    · exact ⟨h0, h1⟩
  unfold probe64
  rw [paramLens64_getElem? c hL i prm hp]
  simp only
  by_cases hlen : (prm.length : Int) = 1
  · rw [if_pos hlen]
    exact ⟨_, rfl, by simp, key _ (by simp; omega) (by simp; omega)⟩
  · rw [if_neg hlen]
    by_cases hz : idx = 0
    · subst hz
      rw [if_pos rfl, hset 1]
      obtain ⟨u, hu, _⟩ := at?_isSome prm 1 (by omega) (by omega)
      rw [hu]
      exact ⟨_, rfl, by simp, key _ (by simp; omega) (by simp; omega)⟩
    · rw [if_neg hz]
      obtain ⟨d, hd, _⟩ := at?_isSome prm (idx - 1) (by omega) (by omega)
      by_cases htop : idx = (prm.length : Int) - 1
      · rw [if_pos htop, hset (idx - 1), hd]
        exact ⟨_, rfl, by simp, key _ (by simp; omega) (by simp; omega)⟩
      · rw [if_neg htop, hset (idx - 1), hd, hset (idx + 1)]
        obtain ⟨u, hu, _⟩ := at?_isSome prm (idx + 1) (by omega) (by omega)
        rw [hu]
        exact ⟨_, rfl, by simp, key _ (by simp; omega) (by simp; omega)⟩

/-- The loop over the dimensions of an in-range vector succeeds and leaves an
in-range candidate. -/
theorem loop64_ok (c : Config64)
    (hL : c.paramLens = c.Params.map fun vals => (vals.length : Int))
    (idxs : List Int) (hR : InRange c.Params idxs) (cur : F64) (minimize : Bool) :
    ∀ (rest : List Int) (i : Nat) (s : LoopState),
      (∀ (k : Nat) (idx : Int), rest[k]? = some idx → idxs[i + k]? = some idx) →
      InRange c.Params s.nextIdxs →
      ∃ s', loop64 c idxs cur minimize i rest s = some s' ∧ InRange c.Params s'.nextIdxs ∧
        s'.evals ≤ s.evals + 2 * rest.length := by
  intro rest
  induction rest with
  | nil => intro i s _ hs; exact ⟨s, rfl, hs, by simp⟩
  | cons a t ih =>
    intro i s hrest hs
    have hi : idxs[i]? = some a := by simpa using hrest 0 a (by simp)
    have hlt : i < c.Params.length := by
      rw [← inRange_length _ _ hR]
      exact (List.getElem?_eq_some.1 hi).1
    obtain ⟨p, hp, hpe, h0, h1⟩ := probe64_ok c hL idxs hR cur minimize i _
      (List.getElem?_eq_getElem hlt) a hi
    simp only [loop64, hp]
    obtain ⟨s', hs', hR', he⟩ := ih (i + 1)
      ⟨s.nextIdxs.set i (choose64 minimize cur a p),
        s.didUpdate || decide (choose64 minimize cur a p ≠ a), s.evals + p.evals⟩
      (fun k idx hk => by
        have := hrest (k + 1) idx (by simpa using hk)
        have h3 : i + 1 + k = i + (k + 1) := by omega
        rw [h3]; exact this)
      (inRange_set _ _ hs i _ _ (List.getElem?_eq_getElem hlt) h0 h1)
    refine ⟨s', hs', hR', ?_⟩
    simp only [List.length_cons] at he ⊢
    omega

/-- One round on an in-range vector succeeds and composes an in-range candidate. -/
theorem round64_ok (c : Config64)
    (hL : c.paramLens = c.Params.map fun vals => (vals.length : Int))
    (idxs : List Int) (hR : InRange c.Params idxs) (cur : F64) (minimize : Bool) :
    ∃ r, round64 c idxs cur minimize = some r ∧ InRange c.Params r.nextIdxs ∧
      r.evals ≤ 2 * idxs.length + 1 := by
  obtain ⟨s, hs, hsR, he⟩ := loop64_ok c hL idxs hR cur minimize idxs 0 ⟨idxs, false, 0⟩
    (fun k idx hk => by rw [Nat.zero_add]; exact hk) hR
  obtain ⟨nv, hnv, _⟩ := lookupAll_of_inRange _ _ hsR
  refine ⟨⟨s.nextIdxs, s.didUpdate, c.Model nv, s.evals + 1⟩, ?_, hsR, ?_⟩
  · unfold round64
    rw [hs]
    simp only
    rw [hnv]
  · simp only at he ⊢
    omega

/-- With room for one frame more than the rounds the counter still allows, the
walk on the machine never overflows its stack, and a walk that returns has run
at most that many rounds. -/
theorem walk64_noOverflow (c : Config64) (hcap : c.MaxIteration < 2 ^ 63 - 1)
    (minimize : Bool) :
    ∀ (stack : Nat) (idxs : List Int) (cur : F64) (count : Int), -2 ^ 63 ≤ count →
      (c.MaxIteration + 1 - count).toNat < stack →
      followGradient64 c stack idxs cur minimize count ≠ Run.stackOverflow ∧
        ∀ w, followGradient64 c stack idxs cur minimize count = Run.done w →
          w.rounds ≤ (c.MaxIteration + 1 - count).toNat := by
  intro stack
  induction stack with
  | zero => intro idxs cur count _ h; omega
  | succ n ih =>
    intro idxs cur count hlo hst
    simp only [followGradient64]
    by_cases hc : count > c.MaxIteration
    · rw [if_pos hc]
      refine ⟨by simp, ?_⟩
      intro w hw
      cases hw
      simp
    · rw [if_neg hc]
      cases hr : round64 c idxs cur minimize with
      | none => exact ⟨by simp, by intro w hw; cases hw⟩
      | some r =>
        simp only
        by_cases hs : stops64 r cur minimize = true
        · rw [if_pos hs]
          refine ⟨by simp, ?_⟩
          intro w hw
          cases hw
          simp only
          omega
        · rw [if_neg hs]
          have hw64 : wrap64 (count + 1) = count + 1 :=
            wrap64_of_range _ (by omega) (by omega)
          rw [hw64]
          obtain ⟨h1, h2⟩ := ih r.nextIdxs r.nextSoln (count + 1) (by omega) (by omega)
          cases hf : followGradient64 c n r.nextIdxs r.nextSoln minimize (count + 1) with
          | stackOverflow => exact absurd hf h1
          | panic => exact ⟨by simp, by intro w hw; cases hw⟩
          | done w' =>
            refine ⟨by simp, ?_⟩
            intro w hw
            cases hw
            have := h2 w' hf
            simp only
            omega

/-- From an in-range vector, with cached lengths and enough stack, the walk on
the machine returns an in-range vector. -/
theorem walk64_ok (c : Config64)
    (hL : c.paramLens = c.Params.map fun vals => (vals.length : Int))
    (hcap : c.MaxIteration < 2 ^ 63 - 1) (minimize : Bool) :
    ∀ (stack : Nat) (idxs : List Int) (cur : F64) (count : Int), -2 ^ 63 ≤ count →
      (c.MaxIteration + 1 - count).toNat < stack → InRange c.Params idxs →
      ∃ w, followGradient64 c stack idxs cur minimize count = Run.done w ∧
        InRange c.Params w.idxs := by
  intro stack
  induction stack with
  | zero => intro idxs cur count _ h; omega
  | succ n ih =>
    intro idxs cur count hlo hst hR
    simp only [followGradient64]
    by_cases hc : count > c.MaxIteration
    · rw [if_pos hc]
      exact ⟨_, rfl, hR⟩
    · rw [if_neg hc]
      obtain ⟨r, hr, hrR, _⟩ := round64_ok c hL idxs hR cur minimize
      rw [hr]
      simp only
      by_cases hs : stops64 r cur minimize = true
      · rw [if_pos hs]
        exact ⟨_, rfl, hR⟩
      · rw [if_neg hs]
        have hw64 : wrap64 (count + 1) = count + 1 :=
          wrap64_of_range _ (by omega) (by omega)
        rw [hw64]
        obtain ⟨w, hw, hwR⟩ := ih r.nextIdxs r.nextSoln (count + 1) (by omega) (by omega) hrR
        rw [hw]
        exact ⟨_, rfl, hwR⟩

/-- A trial on the machine, with cached lengths, no empty dimension and enough
stack, returns. -/
theorem solveOne64_ok (c : Config64)
    (hL : c.paramLens = c.Params.map fun vals => (vals.length : Int))
    (hne : ∀ p ∈ c.Params, p ≠ []) (hcap : c.MaxIteration < 2 ^ 63 - 1) (stack : Nat)
    (hst : (c.MaxIteration + 1).toNat < stack) (minimize : Bool) (rnd : Nat → Nat) :
    ∃ t, solveOne64 stack c minimize rnd = Run.done t := by
  obtain ⟨idxs, hidx, hR⟩ := randomIndexesFrom_inRange rnd c.Params 0 hne
  obtain ⟨vals, hv, _⟩ := lookupAll_of_inRange _ _ hR
  obtain ⟨w, hw, hwR⟩ := walk64_ok c hL hcap minimize stack idxs (c.Model vals) 0
    (by norm_num) (by simpa using hst) hR
  obtain ⟨bv, hbv, _⟩ := lookupAll_of_inRange _ _ hwR
  refine ⟨⟨c.Model bv, bv, w.idxs, w.exit, w.rounds, w.evals + 2⟩, ?_⟩
  unfold solveOne64
  rw [hidx]
  simp only
  rw [hv]
  simp only
  rw [hw]
  simp only
  rw [hbv]

theorem collect64_map (f : Nat → Run Trial64) :
    ∀ (l : List Nat), (∀ k ∈ l, ∃ t, f k = Run.done t) →
      ∃ ss, collect64 (l.map f) = Run.done ss := by
  intro l
  induction l with
  | nil => intro _; exact ⟨[], rfl⟩
  | cons a l ih =>
    intro h
    obtain ⟨t, ht⟩ := h a (List.mem_cons_self _ _)
    obtain ⟨ss, hss⟩ := ih (fun k hk => h k (List.mem_cons_of_mem _ hk))
    exact ⟨⟨t.soln, t.vals⟩ :: ss, by simp only [List.map_cons, ht, collect64, hss]⟩

theorem withDefaults64_MaxIteration_lt (c : Config64) (hcap : c.MaxIteration < 2 ^ 63 - 1) :
    (withDefaults64 c).MaxIteration < 2 ^ 63 - 1 := by
  unfold withDefaults64 DEFAULT_MAX_MODEL_ITERATION
  simp only
  split_ifs
  · norm_num
  · exact hcap

/-- The ensemble on the machine, without an empty dimension and with enough
stack for every trial: all trials return. -/
theorem solveN64_ok (c : Config64) (hne : ∀ p ∈ c.Params, p ≠ [])
    (hcap : c.MaxIteration < 2 ^ 63 - 1) (stack : Nat)
    (hst : ((withDefaults64 c).MaxIteration + 1).toNat < stack) (minimize : Bool)
    (rnds : Nat → Nat → Nat) :
    ∃ ss, solveN64 stack c minimize rnds = Run.done ss := by
  unfold solveN64
  apply collect64_map
  intro k _
  exact solveOne64_ok (withDefaults64 c) rfl hne (withDefaults64_MaxIteration_lt c hcap) stack
    hst minimize (rnds k)

/-! ## Termination on the machine (C4) -/

theorem probe64_congr (c c' : Config64) (hP : c.Params = c'.Params) (hM : c.Model = c'.Model)
    (hL : c.paramLens = c'.paramLens) (idxs : List Int) (cur : F64) (i : Nat) (idx : Int) :
    probe64 c idxs cur i idx = probe64 c' idxs cur i idx := by
  unfold probe64
  rw [hP, hM, hL]

theorem loop64_congr (c c' : Config64) (hP : c.Params = c'.Params) (hM : c.Model = c'.Model)
    (hL : c.paramLens = c'.paramLens) (idxs : List Int) (cur : F64) (minimize : Bool) :
    ∀ (rest : List Int) (i : Nat) (s : LoopState),
      loop64 c idxs cur minimize i rest s = loop64 c' idxs cur minimize i rest s := by
  intro rest
  induction rest with
  | nil => intro i s; rfl
  | cons a t ih =>
    intro i s
    simp only [loop64, probe64_congr c c' hP hM hL, ih]

/-- A round does not look at the iteration cap or the number of tests. -/
theorem round64_congr (c c' : Config64) (hP : c.Params = c'.Params) (hM : c.Model = c'.Model)
    (hL : c.paramLens = c'.paramLens) (idxs : List Int) (cur : F64) (minimize : Bool) :
    round64 c idxs cur minimize = round64 c' idxs cur minimize := by
  unfold round64
  rw [loop64_congr c c' hP hM hL, hP, hM]

/-- On the two-by-two grid of ties the minimizing round at (0, 0) adopts (1, 1)
and the round at (1, 1) adopts (0, 0), both with the value 1 they started from. -/
theorem tie_rounds (cap : Int) :
    round64 (tieConfig64 cap) [0, 0] (F64.fin 1) true = some ⟨[1, 1], true, F64.fin 1, 3⟩ ∧
      round64 (tieConfig64 cap) [1, 1] (F64.fin 1) true = some ⟨[0, 0], true, F64.fin 1, 3⟩ := by
  rw [round64_congr (tieConfig64 cap) (tieConfig64 0) rfl rfl rfl,
    round64_congr (tieConfig64 cap) (tieConfig64 0) rfl rfl rfl]
  decide!

/-- One call of the walk on the grid of ties, below the cap: it always continues. -/
theorem tie_step (cap : Int) (stack : Nat) (idxs : List Int)
    (hpos : idxs = [0, 0] ∨ idxs = [1, 1]) (count : Int) (hc : ¬ count > cap) :
    ∃ idxs', (idxs' = [0, 0] ∨ idxs' = [1, 1]) ∧
      followGradient64 (tieConfig64 cap) (stack + 1) idxs (F64.fin 1) true count =
        match followGradient64 (tieConfig64 cap) stack idxs' (F64.fin 1) true
            (wrap64 (count + 1)) with
        | .done w => .done ⟨w.idxs, w.exit, w.rounds + 1, w.evals + 3⟩
        | .panic => .panic
        | .stackOverflow => .stackOverflow := by
  have hc' : ¬ count > (tieConfig64 cap).MaxIteration := hc
  rcases hpos with rfl | rfl
  · refine ⟨[1, 1], Or.inr rfl, ?_⟩
    simp only [followGradient64]
    rw [if_neg hc', (tie_rounds cap).1]
    rfl
  · refine ⟨[0, 0], Or.inl rfl, ?_⟩
    simp only [followGradient64]
    rw [if_neg hc', (tie_rounds cap).2]
    rfl

/-- On the grid of ties a stack of at most `cap + 1 - count` frames overflows. -/
theorem tie_overflow (cap : Int) (hcap : cap < 2 ^ 63 - 1) :
    ∀ (stack : Nat) (idxs : List Int), (idxs = [0, 0] ∨ idxs = [1, 1]) →
      ∀ (count : Int), -2 ^ 63 ≤ count → count + stack ≤ cap + 1 →
        followGradient64 (tieConfig64 cap) stack idxs (F64.fin 1) true count =
          Run.stackOverflow := by
  intro stack
  induction stack with
  | zero => intro idxs _ count _ _; rfl
  | succ n ih =>
    intro idxs hpos count hlo hle
    obtain ⟨idxs', hpos', hstep⟩ := tie_step cap n idxs hpos count (by push_cast at hle; omega)
    rw [hstep, wrap64_of_range _ (by omega) (by push_cast at hle; omega),
      ih idxs' hpos' (count + 1) (by omega) (by push_cast at hle; omega)]

/-- On the grid of ties with the largest cap an `int` can hold the counter never
exceeds the cap: every stack overflows. -/
theorem tie_overflow_maxInt :
    ∀ (stack : Nat) (idxs : List Int), (idxs = [0, 0] ∨ idxs = [1, 1]) →
      ∀ (count : Int), count ≤ 2 ^ 63 - 1 →
        followGradient64 (tieConfig64 (2 ^ 63 - 1)) stack idxs (F64.fin 1) true count =
          Run.stackOverflow := by
  intro stack
  induction stack with
  | zero => intro idxs _ count _; rfl
  | succ n ih =>
    intro idxs hpos count hle
    obtain ⟨idxs', hpos', hstep⟩ := tie_step (2 ^ 63 - 1) n idxs hpos count (by omega)
    rw [hstep, ih idxs' hpos' _ (wrap64_range _).2]

/-- When the walk from (0, 0) overflows the stack, so does `Minimize` on the grid
of ties with the draws that start there. -/
theorem tie_Minimize64_overflow (cap : Int) (hpos : 0 < cap) (stack : Nat)
    (h : followGradient64 (tieConfig64 cap) stack [0, 0] (F64.fin 1) true 0 =
      Run.stackOverflow) :
    Minimize64 stack (tieConfig64 cap) (fun _ _ => 0) = Run.stackOverflow := by
  have hwd : withDefaults64 (tieConfig64 cap) = tieConfig64 cap := by
    unfold withDefaults64 tieConfig64
    simp only [if_neg (not_le.2 hpos)]
    norm_num
  have hn : (tieConfig64 cap).NumTests.toNat = 1 := rfl
  have hr : List.range 1 = [0] := rfl
  have h1 : randomIndexesFrom (fun _ => 0) 0 (tieConfig64 cap).Params = some [0, 0] := by
    show randomIndexesFrom (fun _ => 0) 0 [[0, 1], [0, 1]] = some [0, 0]
    decide!
  have h2 : lookupAll (tieConfig64 cap).Params [0, 0] = some [0, 0] := by
    show lookupAll [[0, 1], [0, 1]] [0, 0] = some [0, 0]
    decide!
  have h3 : (tieConfig64 cap).Model [0, 0] = F64.fin 1 := by
    show tieModel64 [0, 0] = F64.fin 1
    decide!
  have hs : solveOne64 stack (tieConfig64 cap) true (fun _ => 0) = Run.stackOverflow := by
    unfold solveOne64
    rw [h1]
    simp only
    rw [h2]
    simp only
    rw [h3, h]
  unfold Minimize64 solveN64
  rw [hwd, hn, hr]
  simp only [List.map_cons, List.map_nil]
  rw [hs]
  rfl

/-- The claim of C4 fails on the machine: on the two-by-two grid of ties, where
every round adopts a candidate of equal value, the walk with the cap 3000000
needs 3000002 nested calls, so that a goroutine stack with room for at most
3000001 of them overflows (followGradient and with it Minimize die instead of
returning); and with the cap at the largest int, which count can never exceed,
the walk overflows every stack. No dimension of the config is empty and the
objective is total. -/
theorem C4_counterexample :
    (∀ p ∈ (tieConfig64 3000000).Params, p ≠ []) ∧
    (∀ stack : Nat, stack ≤ 3000001 →
      followGradient64 (tieConfig64 3000000) stack [0, 0] (F64.fin 1) true 0 =
        Run.stackOverflow ∧
      Minimize64 stack (tieConfig64 3000000) (fun _ _ => 0) = Run.stackOverflow) ∧
    (∀ stack : Nat,
      followGradient64 (tieConfig64 (2 ^ 63 - 1)) stack [0, 0] (F64.fin 1) true 0 =
        Run.stackOverflow ∧
      Minimize64 stack (tieConfig64 (2 ^ 63 - 1)) (fun _ _ => 0) = Run.stackOverflow) := by
  refine ⟨by decide, ?_, ?_⟩
  · intro stack hst
    have h := tie_overflow 3000000 (by norm_num) stack [0, 0] (Or.inl rfl) 0 (by norm_num)
      (by push_cast; omega)
    exact ⟨h, tie_Minimize64_overflow 3000000 (by norm_num) stack h⟩
  · intro stack
    have h := tie_overflow_maxInt stack [0, 0] (Or.inl rfl) 0 (by norm_num)
    exact ⟨h, tie_Minimize64_overflow (2 ^ 63 - 1) (by norm_num) stack h⟩

/-- C4 (amended): on the machine (float64 objective, 64-bit counter, bounded
stack), when the iteration cap is below the largest int and the stack has room
for more nested calls than the rounds the counter still allows
(MaxIteration + 1 - count), followGradient never overflows the stack and a call
that returns has run at most that many rounds; with cached lengths, from an
in-range vector it does return, and so does solveOne when no dimension is
empty; Minimize and Maximize return for every such config without an empty
dimension, given stack room for the effective cap plus two calls. The model
limits the counter and the stack; the heap is taken not to run out. -/
theorem C4_walk_terminates (c : Config64) (hcap : c.MaxIteration < 2 ^ 63 - 1) :
    (∀ (minimize : Bool) (stack : Nat) (idxs : List Int) (currentSoln : F64) (count : Int),
      -2 ^ 63 ≤ count → (c.MaxIteration + 1 - count).toNat < stack →
        followGradient64 c stack idxs currentSoln minimize count ≠ Run.stackOverflow ∧
        (∀ w, followGradient64 c stack idxs currentSoln minimize count = Run.done w →
          w.rounds ≤ (c.MaxIteration + 1 - count).toNat) ∧
        ((c.paramLens = c.Params.map fun vals => (vals.length : Int)) →
          InRange c.Params idxs →
          ∃ w, followGradient64 c stack idxs currentSoln minimize count = Run.done w)) ∧
    ((c.paramLens = c.Params.map fun vals => (vals.length : Int)) →
      (∀ p ∈ c.Params, p ≠ []) →
      ∀ (minimize : Bool) (stack : Nat) (rnd : Nat → Nat), (c.MaxIteration + 1).toNat < stack →
        ∃ t, solveOne64 stack c minimize rnd = Run.done t) ∧
    ((∀ p ∈ c.Params, p ≠ []) →
      ∀ (stack : Nat) (rnds : Nat → Nat → Nat),
        ((withDefaults64 c).MaxIteration + 1).toNat < stack →
        (∃ r, Minimize64 stack c rnds = Run.done r) ∧
          ∃ r, Maximize64 stack c rnds = Run.done r) := by
  refine ⟨?_, ?_, ?_⟩
  · intro minimize stack idxs cur count hlo hst
    obtain ⟨h1, h2⟩ := walk64_noOverflow c hcap minimize stack idxs cur count hlo hst
    refine ⟨h1, h2, ?_⟩
    intro hL hR
    obtain ⟨w, hw, _⟩ := walk64_ok c hL hcap minimize stack idxs cur count hlo hst hR
    exact ⟨w, hw⟩
  · intro hL hne minimize stack rnd hst
    exact solveOne64_ok c hL hne hcap stack hst minimize rnd
  · intro hne stack rnds hst
    constructor
    · obtain ⟨ss, hss⟩ := solveN64_ok c hne hcap stack hst true rnds
      exact ⟨((minScan ss).soln, (minScan ss).vals), by simp only [Minimize64, hss]⟩
    · obtain ⟨ss, hss⟩ := solveN64_ok c hne hcap stack hst false rnds
      exact ⟨((maxScan ss).soln, (maxScan ss).vals), by simp only [Maximize64, hss]⟩

/-- Witness for C4: the config of examples/parabolic, whose effective cap is
100, with room for 102 nested calls. -/
theorem C4_walk_terminates_witness :
    (parabolicConfig64 grid13).MaxIteration < 2 ^ 63 - 1 ∧
      (∃ r, Minimize64 102 (parabolicConfig64 grid13) (fun k i => k + i) = Run.done r) ∧
      ∃ r, Maximize64 102 (parabolicConfig64 grid13) (fun k i => k + i) = Run.done r :=
  ⟨by decide,
    ((C4_walk_terminates (parabolicConfig64 grid13) (by decide)).2.2 (by decide) 102
      (fun k i => k + i) (by decide)).1,
    ((C4_walk_terminates (parabolicConfig64 grid13) (by decide)).2.2 (by decide) 102
      (fun k i => k + i) (by decide)).2⟩

/-! ## The exit test of a round on the machine (C15) -/

/-- One call of the walk on the machine that finds its counter below the cap
and has a frame left. -/
theorem followGradient64_step (c : Config64) (stack : Nat) (idxs : List Int) (cur : F64)
    (minimize : Bool) (count : Int) (hcount : ¬ count > c.MaxIteration) (r : Round64)
    (hr : round64 c idxs cur minimize = some r) :
    followGradient64 c (stack + 1) idxs cur minimize count =
      if stops64 r cur minimize then Run.done ⟨idxs, Exit.converged, 1, r.evals⟩
      else
        match followGradient64 c stack r.nextIdxs r.nextSoln minimize (wrap64 (count + 1)) with
        | .done w => .done ⟨w.idxs, w.exit, w.rounds + 1, w.evals + r.evals⟩
        | .panic => .panic
        | .stackOverflow => .stackOverflow := by
  simp only [followGradient64]
  rw [if_neg hcount, hr]

/-- The exit test lets the walk continue exactly when some dimension changed and
the float64 comparison that would stop it is false. -/
theorem stops64_eq_false (r : Round64) (cur : F64) (minimize : Bool) :
    stops64 r cur minimize = false ↔
      r.didUpdate = true ∧
        if minimize then F64.lt cur r.nextSoln = false else F64.lt r.nextSoln cur = false := by
  unfold stops64
  cases minimize <;> cases r.didUpdate <;> simp

theorem F64_lt_fin (a b : ℚ) : F64.lt (F64.fin a) (F64.fin b) = false ↔ b ≤ a := by
  simp [F64.lt]

theorem F64_lt_nan (a b : F64) (h : a = F64.nan ∨ b = F64.nan) : F64.lt a b = false := by
  rcases h with rfl | rfl
  · rfl
  · cases a <;> rfl

/-- The claim of C15 fails on a tie and on a NaN: on the two-by-two grid of
ties the round at (0, 0) composes the candidate (1, 1), whose value 1 equals
the current value, and followGradient adopts it (here, called with count at the
cap, it then returns (1, 1)) instead of returning (0, 0); on the grid with NaN
at (1, 1) the candidate (1, 1) does not improve on the current value 1 either,
and is adopted as well. -/
theorem C15_counterexample :
    round64 (tieConfig64 1) [0, 0] (F64.fin 1) true = some ⟨[1, 1], true, F64.fin 1, 3⟩ ∧
      followGradient64 (tieConfig64 1) 2 [0, 0] (F64.fin 1) true 1 =
        Run.done ⟨[1, 1], Exit.cap, 1, 3⟩ ∧
      round64 nanConfig64 [0, 0] (F64.fin 1) true = some ⟨[1, 1], true, F64.nan, 3⟩ ∧
      followGradient64 nanConfig64 2 [0, 0] (F64.fin 1) true 100 =
        Run.done ⟨[1, 1], Exit.cap, 1, 3⟩ := by
  decide!

/-- C15 (amended): in a round run below the cap with a frame of stack left,
followGradient adopts the composed candidate and continues with it exactly when
some dimension changed and the float64 comparison of the exit test is false
(minimize: not currentSoln < nextSoln; maximize: not currentSoln > nextSoln);
in every other case it returns the index vector it had before the step. For
finite values the comparison is false exactly when the candidate is at most
(minimize) or at least (maximize) currentSoln; so a candidate whose value
equals currentSoln is adopted, and so is every candidate when one of the two
values is NaN. -/
theorem C15_round_exit_rule (c : Config64) (stack : Nat) (idxs : List Int) (currentSoln : F64)
    (minimize : Bool) (count : Int) (hcount : ¬ count > c.MaxIteration) (r : Round64)
    (hr : round64 c idxs currentSoln minimize = some r) :
    ((r.didUpdate = true ∧
        if minimize then F64.lt currentSoln r.nextSoln = false
        else F64.lt r.nextSoln currentSoln = false) →
      followGradient64 c (stack + 1) idxs currentSoln minimize count =
        match followGradient64 c stack r.nextIdxs r.nextSoln minimize (wrap64 (count + 1)) with
        | .done w => .done ⟨w.idxs, w.exit, w.rounds + 1, w.evals + r.evals⟩
        | .panic => .panic
        | .stackOverflow => .stackOverflow) ∧
    (¬ (r.didUpdate = true ∧
        if minimize then F64.lt currentSoln r.nextSoln = false
        else F64.lt r.nextSoln currentSoln = false) →
      followGradient64 c (stack + 1) idxs currentSoln minimize count =
        Run.done ⟨idxs, Exit.converged, 1, r.evals⟩) ∧
    (∀ a b : ℚ, currentSoln = F64.fin a → r.nextSoln = F64.fin b →
      ((if minimize then F64.lt currentSoln r.nextSoln = false
        else F64.lt r.nextSoln currentSoln = false) ↔ if minimize then b ≤ a else a ≤ b)) ∧
    (r.nextSoln = currentSoln ∨ r.nextSoln = F64.nan ∨ currentSoln = F64.nan →
      (if minimize then F64.lt currentSoln r.nextSoln = false
        else F64.lt r.nextSoln currentSoln = false)) := by
  have hstep := followGradient64_step c stack idxs currentSoln minimize count hcount r hr
  refine ⟨?_, ?_, ?_, ?_⟩
  · intro h
    rw [hstep, (stops64_eq_false r currentSoln minimize).2 h]
    simp only [Bool.false_eq_true, if_false]
  · intro h
    have hs : stops64 r currentSoln minimize = true := by
      cases hst : stops64 r currentSoln minimize with
      | true => rfl
      | false => exact absurd ((stops64_eq_false r currentSoln minimize).1 hst) h
    rw [hstep, hs]
    simp only [if_true]
  · intro a b ha hb
    rw [ha, hb]
    cases minimize
    · simp only [Bool.false_eq_true, if_false]; exact F64_lt_fin b a
    · simp only [if_true]; exact F64_lt_fin a b
  · intro h
    have h1 : F64.lt currentSoln r.nextSoln = false := by
      rcases h with h | h | h
      · rw [h]; exact F64_lt_irrefl _
      · exact F64_lt_nan _ _ (Or.inr h)
      · exact F64_lt_nan _ _ (Or.inl h)
    have h2 : F64.lt r.nextSoln currentSoln = false := by
      rcases h with h | h | h
      · rw [h]; exact F64_lt_irrefl _
      · exact F64_lt_nan _ _ (Or.inl h)
      · exact F64_lt_nan _ _ (Or.inr h)
    cases minimize
    · simp only [Bool.false_eq_true, if_false]; exact h2
    · simp only [if_true]; exact h1

/-- Witness for C15: the round at (0, 0) of the two-by-two grid with NaN at
(1, 1), whose candidate (1, 1) is adopted. -/
theorem C15_round_exit_rule_witness :
    followGradient64 nanConfig64 (5 + 1) [0, 0] (F64.fin 1) true 0 =
      match followGradient64 nanConfig64 5 [1, 1] F64.nan true (wrap64 (0 + 1)) with
      | .done w => .done ⟨w.idxs, w.exit, w.rounds + 1, w.evals + 3⟩
      | .panic => .panic
      | .stackOverflow => .stackOverflow :=
  have h := C15_round_exit_rule nanConfig64 5 [0, 0] (F64.fin 1) true 0 (by decide)
    ⟨[1, 1], true, F64.nan, 3⟩ (by decide!)
  h.1 ⟨rfl, h.2.2.2 (Or.inr (Or.inl rfl))⟩

/-! ## The exact model as a description of the machine (C8)

Where the float64 objective returns the exact value at every point of the grid,
the cap is below the largest int and the stack is deep enough, the machine-level
run is the run of the exact model. -/

theorem lookupAll_grid :
    ∀ (params : List (List ℚ)) (idxs : List Int) (vals : List ℚ),
      lookupAll params idxs = some vals →
      List.Forall₂ (fun (param : List ℚ) (v : ℚ) => v ∈ param) params vals := by
  intro params
  induction params with
  | nil => intro idxs vals h; simp [lookupAll] at h; subst h; exact List.Forall₂.nil
  | cons p ps ih =>
    intro idxs vals h
    cases idxs with
    | nil => simp [lookupAll] at h
    | cons i is =>
      simp only [lookupAll] at h
      cases h1 : at? p i with
      | none => simp [h1] at h
      | some v =>
        cases h2 : lookupAll ps is with
        | none => simp [h1, h2] at h
        | some vs =>
          simp [h1, h2] at h
          subst h
          obtain ⟨h0, hk⟩ := (at?_eq_some_iff _ _ _).1 h1
          exact List.Forall₂.cons (List.getElem?_mem hk) (ih is vs h2)

theorem probe64_exact (c : Config64) (f : List ℚ → ℚ)
    (hM : ∀ v, List.Forall₂ (fun (param : List ℚ) (x : ℚ) => x ∈ param) c.Params v →
      c.Model v = F64.fin (f v))
    (idxs : List Int) (cur : ℚ) (i : Nat) (idx : Int) :
    probe64 c idxs (F64.fin cur) i idx =
      (probe (c.exact f) idxs cur i idx).map Probe.toMachine := by
  have hm : ∀ j v, lookupAll c.Params (idxs.set i j) = some v → c.Model v = F64.fin (f v) :=
    fun j v hv => hM v (lookupAll_grid _ _ _ hv)
  unfold probe64 probe valsFromIndexes Config64.exact
  simp only
  cases c.paramLens[i]? with
  | none => rfl
  | some len =>
    simp only
    split_ifs
    · rfl
    · cases h1 : lookupAll c.Params (idxs.set i 1) with
      | none => rfl
      | some v => simp only [Option.map_some', Probe.toMachine, hm 1 v h1]
    · cases h1 : lookupAll c.Params (idxs.set i (idx - 1)) with
      | none => rfl
      | some v => simp only [Option.map_some', Probe.toMachine, hm _ v h1]
    · cases h1 : lookupAll c.Params (idxs.set i (idx - 1)) with
      | none => rfl
      | some v =>
        cases h2 : lookupAll c.Params (idxs.set i (idx + 1)) with
        | none => rfl
        | some u => simp only [Option.map_some', Probe.toMachine, hm _ v h1, hm _ u h2]

theorem choose64_exact (minimize : Bool) (cur : ℚ) (idx : Int) (p : Probe) :
    choose64 minimize (F64.fin cur) idx p.toMachine = choose minimize cur idx p := by
  unfold choose64 choose Probe.toMachine
  simp only [F64.lt, decide_eq_true_eq, gt_iff_lt]

theorem loop64_exact (c : Config64) (f : List ℚ → ℚ)
    (hM : ∀ v, List.Forall₂ (fun (param : List ℚ) (x : ℚ) => x ∈ param) c.Params v →
      c.Model v = F64.fin (f v))
    (idxs : List Int) (cur : ℚ) (minimize : Bool) :
    ∀ (rest : List Int) (i : Nat) (s : LoopState),
      loop64 c idxs (F64.fin cur) minimize i rest s =
        loop (c.exact f) idxs cur minimize i rest s := by
  intro rest
  induction rest with
  | nil => intro i s; rfl
  | cons a t ih =>
    intro i s
    simp only [loop64, loop, probe64_exact c f hM]
    cases probe (c.exact f) idxs cur i a with
    | none => rfl
    | some p =>
      simp only [Option.map_some', choose64_exact, ih]
      rfl

theorem round64_exact (c : Config64) (f : List ℚ → ℚ)
    (hM : ∀ v, List.Forall₂ (fun (param : List ℚ) (x : ℚ) => x ∈ param) c.Params v →
      c.Model v = F64.fin (f v))
    (idxs : List Int) (cur : ℚ) (minimize : Bool) :
    round64 c idxs (F64.fin cur) minimize =
      (round (c.exact f) idxs cur minimize).map Round.toMachine := by
  unfold round64 round valsFromIndexes
  rw [loop64_exact c f hM]
  cases loop (c.exact f) idxs cur minimize 0 idxs ⟨idxs, false, 0⟩ with
  | none => rfl
  | some s =>
    simp only
    show (match lookupAll c.Params s.nextIdxs with
      | none => none
      | some nextVals => some _) =
      Option.map Round.toMachine (match lookupAll c.Params s.nextIdxs with
      | none => none
      | some nextVals => some _)
    cases h1 : lookupAll c.Params s.nextIdxs with
    | none => rfl
    | some v =>
      simp only [Option.map_some', Round.toMachine, hM v (lookupAll_grid _ _ _ h1)]
      rfl

theorem stops64_exact (r : Round) (cur : ℚ) (minimize : Bool) :
    stops64 r.toMachine (F64.fin cur) minimize = stops r cur minimize := by
  unfold stops64 stops Round.toMachine
  simp only [F64.lt, gt_iff_lt]

/-- With a cap below the largest int and enough stack, the walk on the machine
is the walk of the exact model. -/
theorem walk64_exact (c : Config64) (f : List ℚ → ℚ)
    (hM : ∀ v, List.Forall₂ (fun (param : List ℚ) (x : ℚ) => x ∈ param) c.Params v →
      c.Model v = F64.fin (f v))
    (hcap : c.MaxIteration < 2 ^ 63 - 1) (minimize : Bool) :
    ∀ (stack : Nat) (idxs : List Int) (cur : ℚ) (count : Int), -2 ^ 63 ≤ count →
      (c.MaxIteration + 1 - count).toNat < stack →
      followGradient64 c stack idxs (F64.fin cur) minimize count =
        Run.ofOption (followGradient (c.exact f) idxs cur minimize count) := by
  intro stack
  induction stack with
  | zero => intro idxs cur count _ h; omega
  | succ n ih =>
    intro idxs cur count hlo hst
    have hI : (c.exact f).MaxIteration = c.MaxIteration := rfl
    rw [followGradient]
    simp only [followGradient64, hI]
    by_cases hc : count > c.MaxIteration
    · rw [if_pos hc, if_pos hc]; rfl
    · rw [if_neg hc, if_neg hc, round64_exact c f hM]
      cases round (c.exact f) idxs cur minimize with
      | none => rfl
      | some r =>
        simp only [Option.map_some', stops64_exact]
        by_cases hs : stops r cur minimize = true
        · rw [if_pos hs, if_pos hs]; rfl
        · rw [if_neg hs, if_neg hs, wrap64_of_range _ (by omega) (by omega)]
          have := ih r.nextIdxs r.nextSoln (count + 1) (by omega) (by omega)
          simp only [Round.toMachine]
          rw [this]
          cases followGradient (c.exact f) r.nextIdxs r.nextSoln minimize (count + 1) with
          | none => rfl
          | some w => rfl

theorem solveOne64_exact (c : Config64) (f : List ℚ → ℚ)
    (hM : ∀ v, List.Forall₂ (fun (param : List ℚ) (x : ℚ) => x ∈ param) c.Params v →
      c.Model v = F64.fin (f v))
    (hcap : c.MaxIteration < 2 ^ 63 - 1) (stack : Nat)
    (hst : (c.MaxIteration + 1).toNat < stack) (minimize : Bool) (rnd : Nat → Nat) :
    solveOne64 stack c minimize rnd =
      Run.ofOption ((solveOne (c.exact f) minimize rnd).map Trial.toMachine) := by
  unfold solveOne64 solveOne getRandomIndexes valsFromIndexes
  show (match randomIndexesFrom rnd 0 c.Params with
    | none => Run.panic
    | some idxs => _) = Run.ofOption (Option.map Trial.toMachine
      (match randomIndexesFrom rnd 0 c.Params with
      | none => none
      | some idxs => _))
  cases randomIndexesFrom rnd 0 c.Params with
  | none => rfl
  | some idxs =>
    show (match lookupAll c.Params idxs with
      | none => Run.panic
      | some vals => _) = Run.ofOption (Option.map Trial.toMachine
        (match lookupAll c.Params idxs with
        | none => none
        | some vals => _))
    cases h1 : lookupAll c.Params idxs with
    | none => rfl
    | some vals =>
      simp only
      rw [hM vals (lookupAll_grid _ _ _ h1),
        walk64_exact c f hM hcap minimize stack idxs (f vals) 0 (by norm_num) (by simpa using hst)]
      show (match Run.ofOption (followGradient (c.exact f) idxs (f vals) minimize 0) with
        | Run.panic => Run.panic
        | Run.stackOverflow => Run.stackOverflow
        | Run.done w => _) = Run.ofOption (Option.map Trial.toMachine
          (match followGradient (c.exact f) idxs (f vals) minimize 0 with
          | none => none
          | some w => _))
      cases followGradient (c.exact f) idxs (f vals) minimize 0 with
      | none => rfl
      | some w =>
        show (match lookupAll c.Params w.idxs with
          | none => Run.panic
          | some bestVals => _) = Run.ofOption (Option.map Trial.toMachine
            (match lookupAll c.Params w.idxs with
            | none => none
            | some bestVals => _))
        cases h2 : lookupAll c.Params w.idxs with
        | none => rfl
        | some bv =>
          simp only [Option.map_some', Run.ofOption, Trial.toMachine,
            hM bv (lookupAll_grid _ _ _ h2)]
          rfl

theorem withDefaults_exact (c : Config64) (f : List ℚ → ℚ) :
    withDefaults (c.exact f) = (withDefaults64 c).exact f := by
  unfold withDefaults setParamLens Config64.exact withDefaults64
  simp only
  by_cases h1 : c.NumTests ≤ 0 <;> by_cases h2 : c.MaxIteration ≤ 0 <;> simp [h1, h2]

theorem collect64_exact (g : Nat → Option Trial) :
    ∀ (l : List Nat),
      collect64 (l.map fun k => Run.ofOption ((g k).map Trial.toMachine)) =
        Run.ofOption ((collect (l.map g)).map fun ts =>
          ts.map fun t => (⟨F64.fin t.soln, t.vals⟩ : solution)) := by
  intro l
  induction l with
  | nil => rfl
  | cons a l ih =>
    simp only [List.map_cons]
    cases g a with
    | none => rfl
    | some t =>
      show collect64 (Run.done t.toMachine ::
          l.map fun k => Run.ofOption ((g k).map Trial.toMachine)) =
        Run.ofOption ((collect (some t :: l.map g)).map fun ts =>
          ts.map fun t => (⟨F64.fin t.soln, t.vals⟩ : solution))
      unfold collect64 collect
      rw [ih]
      cases collect (l.map g) with
      | none => rfl
      | some ts => rfl

/-- The ensemble on the machine is the ensemble of the exact model. -/
theorem solveN64_exact (c : Config64) (f : List ℚ → ℚ)
    (hM : ∀ v, List.Forall₂ (fun (param : List ℚ) (x : ℚ) => x ∈ param) c.Params v →
      c.Model v = F64.fin (f v))
    (hcap : c.MaxIteration < 2 ^ 63 - 1) (stack : Nat)
    (hst : ((withDefaults64 c).MaxIteration + 1).toNat < stack) (minimize : Bool)
    (rnds : Nat → Nat → Nat) :
    solveN64 stack c minimize rnds = Run.ofOption (solveN (c.exact f) minimize rnds) := by
  have hfun : (fun k => solveOne64 stack (withDefaults64 c) minimize (rnds k)) =
      fun k => Run.ofOption
        ((solveOne (withDefaults (c.exact f)) minimize (rnds k)).map Trial.toMachine) := by
    funext k
    rw [withDefaults_exact]
    exact solveOne64_exact (withDefaults64 c) f hM (withDefaults64_MaxIteration_lt c hcap)
      stack hst minimize (rnds k)
  have hn : (withDefaults (c.exact f)).NumTests = (withDefaults64 c).NumTests := by
    rw [withDefaults_exact]; rfl
  unfold solveN64 solveN runTrials
  rw [hfun, hn, collect64_exact]
  cases collect ((List.range (withDefaults64 c).NumTests.toNat).map fun k =>
      solveOne (withDefaults (c.exact f)) minimize (rnds k)) with
  | none => rfl
  | some ts => rfl

theorem Minimize64_exact (c : Config64) (f : List ℚ → ℚ)
    (hM : ∀ v, List.Forall₂ (fun (param : List ℚ) (x : ℚ) => x ∈ param) c.Params v →
      c.Model v = F64.fin (f v))
    (hcap : c.MaxIteration < 2 ^ 63 - 1) (stack : Nat)
    (hst : ((withDefaults64 c).MaxIteration + 1).toNat < stack) (rnds : Nat → Nat → Nat) :
    Minimize64 stack c rnds = Run.ofOption (Minimize (c.exact f) rnds) := by
  unfold Minimize64 Minimize
  rw [solveN64_exact c f hM hcap stack hst true rnds]
  cases solveN (c.exact f) true rnds with
  | none => rfl
  | some ss => rfl

/-! ## The paraboloid on the machine (C8) -/

/-- The claim of C8 fails in float64. On the grid -2^-30, 0, 2^-30 (strictly
increasing, containing 0, three points) the squares vanish next to the
constant, every point evaluates to 6, no trial ever moves, and Minimize returns
6 at the start of the first trial, here (-2^-30, -2^-30, -2^-30), not at
(0, 0, 0). On the grid -2^600, 0, 2^600 the squares overflow: the trials that
start at the corner stay there with the value +Inf, which is not below the seed
of the aggregation, and Minimize returns +Inf with no values. -/
theorem C8_counterexample :
    (List.Sorted (· < ·) tinyGrid ∧ (0 : ℚ) ∈ tinyGrid ∧
      (tinyGrid.length : Int) ≤ (withDefaults64 (parabolicConfig64 tinyGrid)).MaxIteration) ∧
    Minimize64 200 (parabolicConfig64 tinyGrid) (fun _ _ => 0) =
      Run.done (F64.fin 6, [-(1 / 2 ^ 30), -(1 / 2 ^ 30), -(1 / 2 ^ 30)]) ∧
    (List.Sorted (· < ·) hugeGrid ∧ (0 : ℚ) ∈ hugeGrid ∧
      (hugeGrid.length : Int) ≤ (withDefaults64 (parabolicConfig64 hugeGrid)).MaxIteration) ∧
    Minimize64 200 (parabolicConfig64 hugeGrid) (fun _ _ => 0) = Run.done (F64.posInf, []) := by
  refine ⟨⟨?_, by decide!, by decide⟩, by decide!, ⟨?_, by decide!, by decide⟩, by decide!⟩
  · unfold tinyGrid List.Sorted; decide!
  · unfold hugeGrid List.Sorted; decide!

/-- C8 (amended): on the machine, for the float64 objective of
examples/parabolic (math.Pow(x, 2) + 2 per coordinate, the three added from the
left) over three dimensions, each strictly increasing, containing 0 and with at
most as many points as the effective iteration cap, Minimize returns 6 at
(0, 0, 0) for every trial count and every outcome of the random draws, provided
the float64 objective is exact on the grid (at every grid point it returns the
real number x² + y² + z² + 6), the cap is below the largest int, and the stack
of a goroutine has room for the effective cap plus two nested calls. -/
theorem C8_paraboloid_minimum (c : Config64) (px py pz : List ℚ)
    (hParams : c.Params = [px, py, pz]) (hModel : c.Model = parabolicModel64)
    (hgrid : ∀ prm ∈ c.Params, List.Sorted (· < ·) prm ∧ (0 : ℚ) ∈ prm ∧
      (prm.length : Int) ≤ (withDefaults64 c).MaxIteration)
    (hexact : ∀ x ∈ px, ∀ y ∈ py, ∀ z ∈ pz,
      parabolicModel64 [x, y, z] = F64.fin (x ^ 2 + y ^ 2 + z ^ 2 + 6))
    (hcap : c.MaxIteration < 2 ^ 63 - 1) (stack : Nat)
    (hstack : ((withDefaults64 c).MaxIteration + 1).toNat < stack)
    (rnds : Nat → Nat → Nat) :
    Minimize64 stack c rnds = Run.done (F64.fin 6, [0, 0, 0]) := by
  have hM : ∀ v, List.Forall₂ (fun (param : List ℚ) (x : ℚ) => x ∈ param) c.Params v →
      c.Model v = F64.fin (parabolicModel v) := by
    intro v hv
    rw [hParams] at hv
    rw [hModel]
    match v, hv with
    | [x, y, z], hv =>
      simp only [List.forall₂_cons] at hv
      rw [hexact x hv.1 y hv.2.1 z hv.2.2.1]
      simp only [parabolicModel, parabola]
      congr 1
      ring
  have hMax : (withDefaults (c.exact parabolicModel)).MaxIteration =
      (withDefaults64 c).MaxIteration := by
    rw [withDefaults_exact]; rfl
  rw [Minimize64_exact c parabolicModel hM hcap stack hstack rnds,
    paraboloid_minimum_exact (c.exact parabolicModel) px py pz hParams rfl
      (by rw [hMax]; exact hgrid) rnds]
  rfl

/-- Witness for C8: the config of examples/parabolic (13 points from -3 to 3 in
steps of 0.5, effective cap 100), with room for 102 nested calls. -/
theorem C8_paraboloid_minimum_witness :
    Minimize64 102 (parabolicConfig64 grid13) (fun k i => 7 * k + 3 * i) =
      Run.done (F64.fin 6, [0, 0, 0]) :=
  C8_paraboloid_minimum (parabolicConfig64 grid13) grid13 grid13 grid13 rfl rfl
    (by
      have h : List.Sorted (· < ·) grid13 ∧ (0 : ℚ) ∈ grid13 ∧
          (grid13.length : Int) ≤ (withDefaults64 (parabolicConfig64 grid13)).MaxIteration :=
        ⟨by unfold grid13 List.Sorted; decide!, by decide!, by decide⟩
      intro prm hprm
      have : prm = grid13 := by
        simp only [parabolicConfig64, List.mem_cons, List.mem_singleton, List.not_mem_nil,
          or_false, or_self] at hprm
        exact hprm
      rw [this]; exact h)
    (by decide!) (by decide) 102 (by decide) (fun k i => 7 * k + 3 * i)

/-! ## No dimension, or an empty dimension (C13) -/

/-- The loop of Minimize on a non-empty list of copies of one result. -/
theorem minScan_same (l : List solution) (hne : l ≠ []) (m : F64) (vals : List ℚ)
    (hall : ∀ s ∈ l, s = ⟨m, vals⟩) :
    minScan l = if F64.lt m F64.posInf then ⟨m, vals⟩ else ⟨F64.posInf, []⟩ := by
  rcases minScan_spec l with ⟨hseed, hno⟩ | ⟨k, hk, hlt, _⟩
  · obtain ⟨a, ha⟩ := List.exists_mem_of_ne_nil l hne
    have := hno a ha
    rw [hall a ha] at this
    simp only at this
    rw [this, hseed]
    simp
  · have h := hall _ (List.getElem?_mem hk)
    rw [h] at hlt
    simp only at hlt
    rw [hlt, h]
    simp

/-- The loop of Maximize on a non-empty list of copies of one result. -/
theorem maxScan_same (l : List solution) (hne : l ≠ []) (m : F64) (vals : List ℚ)
    (hall : ∀ s ∈ l, s = ⟨m, vals⟩) :
    maxScan l = if F64.lt F64.negInf m then ⟨m, vals⟩ else ⟨F64.negInf, []⟩ := by
  rcases maxScan_spec l with ⟨hseed, hno⟩ | ⟨k, hk, hlt, _⟩
  · obtain ⟨a, ha⟩ := List.exists_mem_of_ne_nil l hne
    have := hno a ha
    rw [hall a ha] at this
    simp only at this
    rw [this, hseed]
    simp
  · have h := hall _ (List.getElem?_mem hk)
    rw [h] at hlt
    simp only at hlt
    rw [hlt, h]
    simp

theorem withDefaults64_NumTests_pos (c : Config64) : 1 ≤ (withDefaults64 c).NumTests.toNat := by
  unfold withDefaults64 DEFAULT_NUM_TESTS
  simp only
  split_ifs <;> omega

theorem withDefaults64_MaxIteration_pos (c : Config64) : 0 < (withDefaults64 c).MaxIteration := by
  unfold withDefaults64 DEFAULT_MAX_MODEL_ITERATION
  simp only
  split_ifs <;> omega

/-- With an empty dimension a trial on the machine panics at its first
statement, the draw of the start indexes. -/
theorem solveOne64_panic (c : Config64) (hbad : ∃ p ∈ c.Params, p = []) (stack : Nat)
    (minimize : Bool) (rnd : Nat → Nat) :
    randomIndexesFrom rnd 0 c.Params = none ∧ solveOne64 stack c minimize rnd = Run.panic := by
  have h : randomIndexesFrom rnd 0 c.Params = none := randomIndexesFrom_none rnd c.Params 0 hbad
  exact ⟨h, by simp only [solveOne64, h]⟩

theorem solveN64_panic (c : Config64) (hbad : ∃ p ∈ c.Params, p = []) (stack : Nat)
    (minimize : Bool) (rnds : Nat → Nat → Nat) : solveN64 stack c minimize rnds = Run.panic := by
  unfold solveN64
  obtain ⟨n, hn⟩ : ∃ n, (withDefaults64 c).NumTests.toNat = n + 1 :=
    ⟨(withDefaults64 c).NumTests.toNat - 1, by have := withDefaults64_NumTests_pos c; omega⟩
  rw [hn, List.range_succ_eq_map, List.map_cons,
    (solveOne64_panic (withDefaults64 c) hbad stack minimize (rnds 0)).2]
  rfl

/-- Without any dimension a trial on the machine makes one round that changes
nothing and returns the objective at the empty vector, after three calls of it. -/
theorem solveOne64_noDims (c : Config64) (hnil : c.Params = []) (hcap : 0 ≤ c.MaxIteration)
    (stack : Nat) (hst : 0 < stack) (minimize : Bool) (rnd : Nat → Nat) :
    solveOne64 stack c minimize rnd =
      Run.done ⟨c.Model [], [], [], Exit.converged, 1, 3⟩ := by
  obtain ⟨n, rfl⟩ : ∃ n, stack = n + 1 := ⟨stack - 1, by omega⟩
  have hr : ∀ cur, round64 c [] cur minimize = some ⟨[], false, c.Model [], 1⟩ := by
    intro cur
    simp only [round64, loop64, hnil, lookupAll]
  have hw : ∀ cur, followGradient64 c (n + 1) [] cur minimize 0 =
      Run.done ⟨[], Exit.converged, 1, 1⟩ := by
    intro cur
    simp only [followGradient64]
    rw [if_neg (by omega), hr cur]
    simp [stops64]
  unfold solveOne64
  simp only [hnil, randomIndexesFrom, lookupAll, hw]

theorem collect64_const (t : Trial64) :
    ∀ (l : List Nat), collect64 (l.map fun _ => Run.done t) =
      Run.done (l.map fun _ => (⟨t.soln, t.vals⟩ : solution)) := by
  intro l
  induction l with
  | nil => rfl
  | cons a l ih => simp only [List.map_cons, collect64, ih]

theorem solveN64_noDims (c : Config64) (hnil : c.Params = []) (stack : Nat) (hst : 0 < stack)
    (minimize : Bool) (rnds : Nat → Nat → Nat) :
    ∃ l : List solution, l ≠ [] ∧ (∀ s ∈ l, s = ⟨c.Model [], []⟩) ∧
      solveN64 stack c minimize rnds = Run.done l := by
  have hfun : (fun k => solveOne64 stack (withDefaults64 c) minimize (rnds k)) =
      fun _ => Run.done ⟨c.Model [], [], [], Exit.converged, 1, 3⟩ := by
    funext k
    exact solveOne64_noDims (withDefaults64 c) hnil
      (le_of_lt (withDefaults64_MaxIteration_pos c)) stack hst minimize (rnds k)
  refine ⟨(List.range (withDefaults64 c).NumTests.toNat).map fun _ => ⟨c.Model [], []⟩,
    ?_, ?_, ?_⟩
  · intro h
    have := congrArg List.length h
    simp only [List.length_map, List.length_range, List.length_nil] at this
    have := withDefaults64_NumTests_pos c
    omega
  · intro s hs
    obtain ⟨_, _, rfl⟩ := List.mem_map.1 hs
    rfl
  · unfold solveN64
    rw [hfun, collect64_const]

/-- The claim of C13 fails for an empty dimension list: Minimize and Maximize
return the objective at the empty vector, and the trial has called the model
three times; so in the exact model, and so on the machine. -/
theorem C13_counterexample :
    (Minimize emptyConfig (fun _ _ => 0) = some (F64.fin 7, []) ∧
      Maximize emptyConfig (fun _ _ => 0) = some (F64.fin 7, []) ∧
      solveOne (withDefaults emptyConfig) true (fun _ => 0) =
        some ⟨7, [], [], Exit.converged, 1, 3⟩) ∧
    (Minimize64 1 emptyConfig64 (fun _ _ => 0) = Run.done (F64.fin 7, []) ∧
      Maximize64 1 emptyConfig64 (fun _ _ => 0) = Run.done (F64.fin 7, []) ∧
      solveOne64 1 (withDefaults64 emptyConfig64) true (fun _ => 0) =
        Run.done ⟨F64.fin 7, [], [], Exit.converged, 1, 3⟩) := by
  constructor
  · simp only [Minimize, Maximize, solveN, runTrials, solveOne_eq_solveOneN]
    decide!
  · decide!

/-- C13 (amended): when some single dimension of the config is empty, Minimize
and Maximize return no result pair, and every trial stops in the draw of its
start indexes, the first statement of solveOne, before any call of the model
(on the machine: the run ends in the panic of rand.Intn, whatever the stack).
When the dimension list itself is empty they do not fail: on the machine, with
room for one call of followGradient, every trial calls the objective at the
empty vector three times and returns its value m with the empty vector;
Minimize returns m if m < +Inf and else the seed +Inf, Maximize returns m if
-Inf < m and else the seed -Inf, both with the empty vector. -/
theorem C13_empty_dimension_fails (c : Config) (rnds : Nat → Nat → Nat) (c64 : Config64)
    (stack : Nat) :
    ((∃ p ∈ c.Params, p = []) →
      Minimize c rnds = none ∧ Maximize c rnds = none ∧
        ∀ (minimize : Bool) (k : Nat),
          getRandomIndexes (withDefaults c) (rnds k) = none ∧
            solveOne (withDefaults c) minimize (rnds k) = none) ∧
    ((∃ p ∈ c64.Params, p = []) →
      Minimize64 stack c64 rnds = Run.panic ∧ Maximize64 stack c64 rnds = Run.panic ∧
        ∀ (minimize : Bool) (k : Nat),
          randomIndexesFrom (rnds k) 0 (withDefaults64 c64).Params = none ∧
            solveOne64 stack (withDefaults64 c64) minimize (rnds k) = Run.panic) ∧
    (c64.Params = [] → 0 < stack →
      Minimize64 stack c64 rnds =
        Run.done (if F64.lt (c64.Model []) F64.posInf then c64.Model [] else F64.posInf, []) ∧
      Maximize64 stack c64 rnds =
        Run.done (if F64.lt F64.negInf (c64.Model []) then c64.Model [] else F64.negInf, []) ∧
      ∀ (minimize : Bool) (k : Nat),
        solveOne64 stack (withDefaults64 c64) minimize (rnds k) =
          Run.done ⟨c64.Model [], [], [], Exit.converged, 1, 3⟩) := by
  refine ⟨?_, ?_, ?_⟩
  · intro hbad
    refine ⟨by simp only [Minimize, solveN, runTrials_none c hbad],
      by simp only [Maximize, solveN, runTrials_none c hbad], ?_⟩
    intro minimize k
    exact solveOne_none _ (by rw [withDefaults_Params]; exact hbad) minimize (rnds k)
  · intro hbad
    refine ⟨by simp only [Minimize64, solveN64_panic c64 hbad],
      by simp only [Maximize64, solveN64_panic c64 hbad], ?_⟩
    intro minimize k
    exact solveOne64_panic (withDefaults64 c64) hbad stack minimize (rnds k)
  · intro hnil hst
    refine ⟨?_, ?_, ?_⟩
    · obtain ⟨l, hne, hall, hl⟩ := solveN64_noDims c64 hnil stack hst true rnds
      simp only [Minimize64, hl]
      rw [minScan_same l hne _ _ hall]
      split_ifs <;> rfl
    · obtain ⟨l, hne, hall, hl⟩ := solveN64_noDims c64 hnil stack hst false rnds
      simp only [Maximize64, hl]
      rw [maxScan_same l hne _ _ hall]
      split_ifs <;> rfl
    · intro minimize k
      exact solveOne64_noDims (withDefaults64 c64) hnil
        (le_of_lt (withDefaults64_MaxIteration_pos c64)) stack hst minimize (rnds k)

/-- Witness for C13: a config whose second dimension is empty, in both models,
and a config without dimensions whose objective is NaN at the empty vector:
Minimize returns its seed. -/
theorem C13_empty_dimension_fails_witness :
    (Minimize holeConfig (fun k i => k + i) = none ∧
      Maximize holeConfig (fun k i => k + i) = none ∧
      getRandomIndexes (withDefaults holeConfig) (fun i => 0 + i) = none) ∧
    (Minimize64 7 holeConfig64 (fun k i => k + i) = Run.panic ∧
      Maximize64 7 holeConfig64 (fun k i => k + i) = Run.panic) ∧
    (Minimize64 1 emptyNanConfig64 (fun k i => k + i) = Run.done (F64.posInf, []) ∧
      Maximize64 1 emptyNanConfig64 (fun k i => k + i) = Run.done (F64.negInf, [])) :=
  have h := (C13_empty_dimension_fails holeConfig (fun k i => k + i) holeConfig64 7).1
    ⟨[], by decide, rfl⟩
  have h2 := (C13_empty_dimension_fails holeConfig (fun k i => k + i) holeConfig64 7).2.1
    ⟨[], by decide, rfl⟩
  have h3 := (C13_empty_dimension_fails holeConfig (fun k i => k + i) emptyNanConfig64 1).2.2
    rfl (by decide)
  ⟨⟨h.1, h.2.1, (h.2.2 true 0).1⟩, ⟨h2.1, h2.2.1⟩, ⟨h3.1, h3.2.1⟩⟩

end SimpleGradient
